import Mathlib

/-!
# Vuls `models` package: data model and reconciliation logic

A shallow embedding of `src/models/models.go`.

Modelling conventions

* A Go slice on its own is a Lean `List` (a nil slice and an empty slice are
  both `[]`).  A method with a pointer receiver that rewrites `*v` is a
  function returning the new slice value (and the returned flag, where the Go
  method returns one).
* Where the program writes through slices that may share a backing array (the
  merge step of `FillCveDetail`, `MergeNewVersion`), the arrays are kept:
  memory is a sequence of cells and a slice is a window of it (`Mem.Slice`).
* A Go `string` is a Lean `String`; `time.Time` is an abstract time stamp.
* A Go `float64` is `Float64` below: NaN, the two infinities, and the finite
  values with their exact rational value.  The program only copies and
  compares scores, it never computes with them.
* Package-level mutable state (`config.Conf`) is passed in and returned
  explicitly.
-/

namespace Models

/-! ## Primitive types -/

/-- Values of Go `float64` as far as the program observes them: the program
copies scores and compares them (`==`, `<`, `<=`), nothing else.  A finite
value carries its exact rational value. -/
inductive Float64 where
  | nan : Float64
  | negInf : Float64
  | fin (q : ℚ) : Float64
  | posInf : Float64
deriving DecidableEq

namespace Float64

/-- Go `a <= b` on `float64` (false as soon as one side is NaN). -/
def le : Float64 → Float64 → Bool
  | nan, _ => false
  | _, nan => false
  | negInf, _ => true
  | _, posInf => true
  | fin a, fin b => decide (a ≤ b)
  | fin _, negInf => false
  | posInf, fin _ => false
  | posInf, negInf => false

/-- Go `a < b` on `float64` (false as soon as one side is NaN). -/
def lt : Float64 → Float64 → Bool
  | nan, _ => false
  | _, nan => false
  | negInf, negInf => false
  | negInf, _ => true
  | posInf, _ => false
  | fin a, fin b => decide (a < b)
  | fin _, negInf => false
  | fin _, posInf => true

/-- Go `a == b` on `float64` (NaN is equal to nothing, itself included). -/
def eq : Float64 → Float64 → Bool
  | nan, _ => false
  | _, nan => false
  | negInf, negInf => true
  | posInf, posInf => true
  | fin a, fin b => decide (a = b)
  | _, _ => false

/-- The `float64` zero, the zero value of a score field. -/
def zero : Float64 := fin 0

end Float64

/-- Abstract `time.Time` value; `0` stands for the zero time. -/
abbrev Time := Int

/-! ## Records of the data model (`models.go`, type declarations) -/

/-- Go `Confidence` (lines 303-306). -/
structure Confidence where
  Score : Int
  DetectionMethod : String
deriving DecidableEq

/-- Go `YumUpdateSecurityMatchStr` (line 317). -/
def YumUpdateSecurityMatchStr : String := "YumUpdateSecurityMatch"

/-- Go `YumUpdateSecurityMatch` (line 342). -/
def YumUpdateSecurityMatch : Confidence := ⟨100, YumUpdateSecurityMatchStr⟩

/-- Go `Changelog` (lines 822-825). -/
structure Changelog where
  Contents : String
  Method : String
deriving DecidableEq

/-- Go `PackageInfo` (lines 809-818). -/
structure PackageInfo where
  Name : String
  Version : String
  Release : String
  NewVersion : String
  NewRelease : String
  Repository : String
  Changelog : Changelog
  NotFixedYet : Bool
deriving DecidableEq

/-- Go `PackageInfoList` (line 713). -/
abbrev PackageInfoList := List PackageInfo

/-- Go `DistroAdvisory` (lines 852-857). -/
structure DistroAdvisory where
  AdvisoryID : String
  Severity : String
  Issued : Time
  Updated : Time
deriving DecidableEq

/-- Go `Container` (lines 860-865). -/
structure Container where
  ContainerID : String
  Name : String
  Image : String
  Type_ : String
deriving DecidableEq

/-- Go `Platform` (lines 868-871). -/
structure Platform where
  Name : String
  InstanceID : String
deriving DecidableEq

/-- Go `Cpe` (lines 701-703). -/
structure Cpe where
  CpeName : String
deriving DecidableEq

/-- Go `Reference` (lines 706-710). -/
structure Reference where
  RefID : String
  Source : String
  Link : String
deriving DecidableEq

/-- Go `CveContentType`, a named string type (line 593). -/
abbrev CveContentType := String

/-- Go constant `NVD` (line 597). -/
def NVD : CveContentType := "nvd"
/-- Go constant `JVN` (line 600). -/
def JVN : CveContentType := "jvn"
/-- Go constant `RedHat` (line 603). -/
def RedHat : CveContentType := "redhat"
/-- Go constant `CentOS` (line 606). -/
def CentOS : CveContentType := "centos"
/-- Go constant `Debian` (line 609). -/
def Debian : CveContentType := "debian"
/-- Go constant `Ubuntu` (line 612). -/
def Ubuntu : CveContentType := "ubuntu"

/-- Go `CveContent` (lines 678-693). -/
structure CveContent where
  Type_ : CveContentType
  CveID : String
  Title : String
  Summary : String
  Severity : String
  Cvss2Score : Float64
  Cvss2Vector : String
  Cvss3Score : Float64
  Cvss3Vector : String
  Cpes : List Cpe
  References : List Reference
  CweID : String
  Published : Time
  LastModified : Time
deriving DecidableEq

/-- The Go zero value `CveContent{}`. -/
def CveContent.zero : CveContent :=
  { Type_ := "", CveID := "", Title := "", Summary := "", Severity := "",
    Cvss2Score := Float64.zero, Cvss2Vector := "", Cvss3Score := Float64.zero,
    Cvss3Vector := "", Cpes := [], References := [], CweID := "",
    Published := 0, LastModified := 0 }

/-- Go `CveContent.Empty` (lines 696-698). -/
def CveContent.Empty (c : CveContent) : Bool := c.Summary == ""

/-- Go `CveContents` (line 616). -/
abbrev CveContents := List CveContent

/-- Go `VulnInfo` (lines 443-450). -/
structure VulnInfo where
  CveID : String
  Confidence : Confidence
  Packages : PackageInfoList
  DistroAdvisories : List DistroAdvisory
  CpeNames : List String
  CveContents : CveContents
deriving DecidableEq

/-- The Go zero value `VulnInfo{}`. -/
def VulnInfo.zero : VulnInfo :=
  { CveID := "", Confidence := ⟨0, ""⟩, Packages := [], DistroAdvisories := [],
    CpeNames := [], CveContents := [] }

/-- Go `VulnInfos` (line 357). -/
abbrev VulnInfos := List VulnInfo

/-- Go `ScanResult` (lines 53-69).  The untyped payload `Optional
[][]interface{}` is never inspected by the package; its cells are strings
here. -/
structure ScanResult where
  ScannedAt : Time
  Lang : String
  ServerName : String
  Family : String
  Release : String
  Container : Container
  Platform : Platform
  ScannedCves : VulnInfos
  Packages : PackageInfoList
  Errors : List String
  Optional : List (List String)
deriving DecidableEq

/-- Go `ScanResults` (line 32). -/
abbrev ScanResults := List ScanResult

/-! ## `CveContents` operations (lines 618-675) -/

namespace CveContents

/-- Go `CveContents.Get` (lines 620-627): the first record whose `Type` is
`typestr` and `true`, or the zero record and `false`. -/
def Get : CveContents → CveContentType → CveContent × Bool
  | [], _ => (CveContent.zero, false)
  | vv :: rest, typestr =>
    if vv.Type_ = typestr then (vv, true) else Get rest typestr

/-- Go `CveContents.Delete` (lines 630-638): at the first index `i` whose
record has `Type` equal to `typestr`, the store becomes
`append(v[:i], v[i+1:]...)` and the loop breaks. -/
def Delete : CveContents → CveContentType → CveContents
  | [], _ => []
  | cc :: rest, typestr =>
    if cc.Type_ = typestr then rest else cc :: Delete rest typestr

/-- Go `CveContents.Insert` (lines 641-643): `append(*v, cont)`. -/
def Insert (v : CveContents) (cont : CveContent) : CveContents :=
  v ++ [cont]

/-- Go `CveContents.Update` (lines 646-654): at the first index whose record
has the `Type` of `cont`, store `cont` there and return `true`; return `false`
when the loop ends.  The result is the new store and the returned flag. -/
def Update : CveContents → CveContent → CveContents × Bool
  | [], _ => ([], false)
  | vv :: rest, cont =>
    if vv.Type_ = cont.Type_ then (cont :: rest, true)
    else ((vv :: (Update rest cont).1), (Update rest cont).2)

/-- Go `CveContents.Upsert` (lines 657-662). -/
def Upsert (v : CveContents) (cont : CveContent) : CveContents :=
  let r := Update v cont
  if !r.2 then Insert r.1 cont else r.1

/-- Go `CveContents.CvssV2Score` (lines 665-675). -/
def CvssV2Score (v : CveContents) : Float64 :=
  if (Get v NVD).2 then (Get v NVD).1.Cvss2Score
  else if (Get v JVN).2 then (Get v JVN).1.Cvss2Score
  else if (Get v RedHat).2 then (Get v RedHat).1.Cvss2Score
  else Float64.fin (-1)

end CveContents

/-! ## `VulnInfos` operations (lines 371-413) -/

namespace VulnInfos

/-- Go `VulnInfos.Get` (lines 371-378). -/
def Get : VulnInfos → String → VulnInfo × Bool
  | [], _ => (VulnInfo.zero, false)
  | vv :: rest, cveID =>
    if vv.CveID = cveID then (vv, true) else Get rest cveID

/-- Go `VulnInfos.Delete` (lines 381-389): at the first index `i` whose entry
has `CveID` equal to `cveID`, the set becomes `append(v[:i], v[i+1:]...)` and
the loop breaks. -/
def Delete : VulnInfos → String → VulnInfos
  | [], _ => []
  | vv :: rest, cveID =>
    if vv.CveID = cveID then rest else vv :: Delete rest cveID

/-- Go `VulnInfos.Insert` (lines 392-394): `append(*v, vinfo)`. -/
def Insert (v : VulnInfos) (vinfo : VulnInfo) : VulnInfos :=
  v ++ [vinfo]

/-- Go `VulnInfos.Update` (lines 397-405).  The result is the new set and the
returned flag. -/
def Update : VulnInfos → VulnInfo → VulnInfos × Bool
  | [], _ => ([], false)
  | vv :: rest, vInfo =>
    if vv.CveID = vInfo.CveID then (vInfo :: rest, true)
    else ((vv :: (Update rest vInfo).1), (Update rest vInfo).2)

/-- Go `VulnInfos.Upsert` (lines 408-413). -/
def Upsert (v : VulnInfos) (vInfo : VulnInfo) : VulnInfos :=
  let r := Update v vInfo
  if !r.2 then Insert r.1 vInfo else r.1

end VulnInfos

/-! ## Keyed lists

Both stores are slices searched linearly for the first entry with a given key
(`Type` for `CveContents`, `CveID` for `VulnInfos`).  The functions below are
the key-generic form of the loops above; they are used in proofs only, through
the bridging lemmas that follow them. -/

namespace Keyed

variable {α κ : Type} [DecidableEq κ] (key : α → κ)

/-- First entry with key `k`. -/
def lookup : List α → κ → Option α
  | [], _ => none
  | x :: rest, k => if key x = k then some x else lookup rest k

/-- Replace the first entry that has the key of `a`, or append `a`. -/
def upsert : List α → α → List α
  | [], a => [a]
  | x :: rest, a => if key x = key a then a :: rest else x :: upsert rest a

/-- Remove the first entry with key `k`. -/
def delete : List α → κ → List α
  | [], _ => []
  | x :: rest, k => if key x = k then rest else x :: delete rest k

/-- Replace the first entry that has the key of `a`, reporting whether there
was one. -/
def update : List α → α → List α × Bool
  | [], _ => ([], false)
  | x :: rest, a =>
    if key x = key a then (a :: rest, true)
    else (x :: (update rest a).1, (update rest a).2)

end Keyed

/-! ## External inputs -/

/-- Modelled from the spec: the configuration surface `config.Conf` read by
this package (package `config` is not under `src/`): a global severity
threshold `CvssScoreOver` and the boolean `IgnoreUnscoredCves`. -/
structure Config where
  CvssScoreOver : Float64
  IgnoreUnscoredCves : Bool
deriving DecidableEq

namespace cvedict

/-- The field of `cvedict.Cpe` (external package `go-cve-dictionary/models`)
read by the conversions. -/
structure Cpe where
  CpeName : String
deriving DecidableEq

/-- The fields of `cvedict.Reference` read by the conversions. -/
structure Reference where
  Source : String
  Link : String
deriving DecidableEq

/-- The fields of `cvedict.Nvd` read by `convertNvdToModel`. -/
structure Nvd where
  Summary : String
  Score : Float64
  AccessVector : String
  AccessComplexity : String
  Authentication : String
  ConfidentialityImpact : String
  IntegrityImpact : String
  AvailabilityImpact : String
  Cpes : List Cpe
  CweID : String
  References : List Reference
  PublishedDate : Time
  LastModifiedDate : Time
deriving DecidableEq

/-- The fields of `cvedict.Jvn` read by `convertJvnToModel`. -/
structure Jvn where
  Title : String
  Summary : String
  Severity : String
  Score : Float64
  Vector : String
  JvnLink : String
  Cpes : List Cpe
  References : List Reference
  PublishedDate : Time
  LastModifiedDate : Time
deriving DecidableEq

/-- The fields of `cvedict.CveDetail` read by `FillCveDetail`. -/
structure CveDetail where
  CveID : String
  Nvd : Nvd
  Jvn : Jvn
deriving DecidableEq

end cvedict

/-! ## Go string primitives used by the conversions -/

/-- Go `len(s)`: the number of bytes of the string. -/
def len (s : String) : Nat := s.utf8ByteSize

/-- First byte of the UTF-8 encoding of a character. -/
def utf8LeadByte (c : Char) : Nat :=
  let n := c.toNat
  if n < 0x80 then n
  else if n < 0x800 then 0xC0 + n / 0x40
  else if n < 0x10000 then 0xE0 + n / 0x1000
  else 0xF0 + n / 0x40000

/-- Go `string(s[0])` for a non-empty string `s`: the byte `s[0]` converted to
the string holding the code point of that number. -/
def firstByteString (s : String) : String :=
  match s.data with
  | [] => ""
  | c :: _ => String.singleton (Char.ofNat (utf8LeadByte c))

/-- Go `strings.TrimPrefix`. -/
def TrimPrefix (s pre : String) : String :=
  if pre.data.isPrefixOf s.data then String.mk (s.data.drop pre.data.length) else s

/-- Go `strings.TrimSuffix`. -/
def TrimSuffix (s suf : String) : String :=
  if suf.data.isSuffixOf s.data then
    String.mk (s.data.take (s.data.length - suf.data.length))
  else s

/-! ## `ScanResult` operations -/

/-- Go `ScanResult.convertNvdToModel` (lines 104-156); the receiver is not
used. -/
def convertNvdToModel (cveID : String) (nvd : cvedict.Nvd) : CveContent :=
  let cpes := nvd.Cpes.map (fun c => ({ CpeName := c.CpeName } : Cpe))
  let refs := nvd.References.map
    (fun r => ({ RefID := "", Link := r.Link, Source := r.Source } : Reference))
  let validVec :=
    [nvd.AccessVector, nvd.AccessComplexity, nvd.Authentication,
      nvd.ConfidentialityImpact, nvd.IntegrityImpact, nvd.AvailabilityImpact].foldl
      (fun ok v => if len v = 0 then false else ok) true
  let vector :=
    if validVec then
      "AV:" ++ firstByteString nvd.AccessVector ++
      "/AC:" ++ firstByteString nvd.AccessComplexity ++
      "/Au:" ++ firstByteString nvd.Authentication ++
      "/C:" ++ firstByteString nvd.ConfidentialityImpact ++
      "/I:" ++ firstByteString nvd.IntegrityImpact ++
      "/A:" ++ firstByteString nvd.AvailabilityImpact
    else ""
  { CveContent.zero with
    Type_ := NVD
    CveID := cveID
    Summary := nvd.Summary
    Cvss2Score := nvd.Score
    Cvss2Vector := vector
    Cpes := cpes
    CweID := nvd.CweID
    References := refs
    Published := nvd.PublishedDate
    LastModified := nvd.LastModifiedDate }

/-- Go `ScanResult.convertJvnToModel` (lines 158-189); the receiver is not
used. -/
def convertJvnToModel (cveID : String) (jvn : cvedict.Jvn) : CveContent :=
  let cpes := jvn.Cpes.map (fun c => ({ CpeName := c.CpeName } : Cpe))
  let refs := ({ RefID := "", Link := jvn.JvnLink, Source := JVN } : Reference) ::
    jvn.References.map
      (fun r => ({ RefID := "", Link := r.Link, Source := r.Source } : Reference))
  let vector := TrimSuffix (TrimPrefix jvn.Vector "(") ")"
  { CveContent.zero with
    Type_ := JVN
    CveID := cveID
    Title := jvn.Title
    Summary := jvn.Summary
    Severity := jvn.Severity
    Cvss2Score := jvn.Score
    Cvss2Vector := vector
    Cpes := cpes
    References := refs
    Published := jvn.PublishedDate
    LastModified := jvn.LastModifiedDate }

/-- Lines 88-92 of `FillCveDetail`: the loop over `[]CveContent{nvd, jvn}`,
upserting every record that is not `Empty` into one store, the store read as
the list of its records. -/
def upsertNonEmpty (v : CveContents) (cons : List CveContent) : CveContents :=
  cons.foldl (fun acc con => if !con.Empty then CveContents.Upsert acc con else acc) v

/-- Lines 86-95 of `FillCveDetail`: the loop over `r.ScannedCves`; the first
vulnerability whose `CveID` is `cveID` receives the records, then the loop
breaks.  Every store is read as the list of its records: this is what the
loop does when no two stores share a backing array (`Mem.mergeInto` is the loop
on memory, `Mem.mergeInto_sim` relates the two). -/
def mergeInto : VulnInfos → String → List CveContent → VulnInfos
  | [], _, _ => []
  | sc :: rest, cveID, cons =>
    if sc.CveID = cveID then
      { sc with CveContents := upsertNonEmpty sc.CveContents cons } :: rest
    else sc :: mergeInto rest cveID cons

/-- Lines 84-95 of `FillCveDetail`: one iteration of the loop over the fetched
documents. -/
def mergeDetail (cves : VulnInfos) (d : cvedict.CveDetail) : VulnInfos :=
  let nvd := convertNvdToModel d.CveID d.Nvd
  let jvn := convertJvnToModel d.CveID d.Jvn
  mergeInto cves d.CveID [nvd, jvn]

/-- Lines 83-101 of `FillCveDetail`: the merge of a fetched batch `ds` into the
scan result, every store read as the list of its records (`Mem.mergeDetails`
is the merge on memory; the two agree when no two stores share a backing
array, `Mem.view_mergeDetails`). -/
def mergeDetails (r : ScanResult) (ds : List cvedict.CveDetail) : ScanResult :=
  { r with ScannedCves := ds.foldl mergeDetail r.ScannedCves }

/-- Go `ScanResult.FillCveDetail` (lines 73-102).  The client
`cveapi.CveClient.FetchCveDetails` is the parameter `fetch`; a fetch error is
returned before any merge. -/
def FillCveDetail {ε : Type} (fetch : List String → Except ε (List cvedict.CveDetail))
    (r : ScanResult) : Except ε ScanResult :=
  let cveIDs := r.ScannedCves.map (fun v => v.CveID)
  match fetch cveIDs with
  | Except.error err => Except.error err
  | Except.ok ds => Except.ok (mergeDetails r ds)

/-- The `float64` nearest to the decimal literal `-1.1` (line 195):
`-0x1.199999999999ap+0`. -/
def negOnePointOne : Float64 :=
  Float64.fin (-(4953959590107546 : ℚ) / 4503599627370496)

/-- Go `ScanResult.FilterByCvssOver` (lines 192-208).  The global
`config.Conf` is the argument `conf`; the function returns the filtered copy
together with the configuration as the call leaves it. -/
def FilterByCvssOver (conf : Config) (r : ScanResult) : ScanResult × Config :=
  let conf1 : Config :=
    if Float64.eq conf.CvssScoreOver (Float64.fin 0) then
      { conf with CvssScoreOver := negOnePointOne }
    else conf
  let filtered : VulnInfos := r.ScannedCves.foldl
    (fun acc sc =>
      if Float64.le conf1.CvssScoreOver (CveContents.CvssV2Score sc.CveContents) then
        acc ++ [sc]
      else acc) []
  ({ r with ScannedCves := filtered }, conf1)

/-- The non-empty records converted from the documents of `ds` whose `CveID`
is `cveID`, in batch order (NVD before JVN for each document). -/
def convertedFor (ds : List cvedict.CveDetail) (cveID : String) : List CveContent :=
  (ds.filter (fun d => decide (d.CveID = cveID))).flatMap
    (fun d => [convertNvdToModel d.CveID d.Nvd, convertJvnToModel d.CveID d.Jvn].filter
      (fun con => !con.Empty))

/-! ## Sequences of store operations -/

/-- One call of `Insert` or of `Upsert` on a store of entries of type `α`. -/
inductive StoreOp (α : Type) where
  | insert (a : α) : StoreOp α
  | upsert (a : α) : StoreOp α

/-- Run one operation on a `CveContents` store. -/
def CveContents.step (v : CveContents) : StoreOp CveContent → CveContents
  | StoreOp.insert c => CveContents.Insert v c
  | StoreOp.upsert c => CveContents.Upsert v c

/-- Run one operation on a `VulnInfos` set. -/
def VulnInfos.step (v : VulnInfos) : StoreOp VulnInfo → VulnInfos
  | StoreOp.insert c => VulnInfos.Insert v c
  | StoreOp.upsert c => VulnInfos.Upsert v c

/-- The caller obligation of `Insert` along a run from `v`: every `Insert`
is given a record whose source has no record in the store at that moment. -/
def CveContents.InsertsFresh : CveContents → List (StoreOp CveContent) → Prop
  | _, [] => True
  | v, StoreOp.insert c :: ops =>
    c.Type_ ∉ v.map (fun x => x.Type_) ∧ InsertsFresh (CveContents.Insert v c) ops
  | v, StoreOp.upsert c :: ops => InsertsFresh (CveContents.Upsert v c) ops

/-- The caller obligation of `Insert` along a run from `v`: every `Insert`
is given an entry whose `CveID` has no entry in the set at that moment. -/
def VulnInfos.InsertsFresh : VulnInfos → List (StoreOp VulnInfo) → Prop
  | _, [] => True
  | v, StoreOp.insert c :: ops =>
    c.CveID ∉ v.map (fun x => x.CveID) ∧ InsertsFresh (VulnInfos.Insert v c) ops
  | v, StoreOp.upsert c :: ops => InsertsFresh (VulnInfos.Upsert v c) ops

/-! ## Concrete values used in examples -/

/-- A record of the given source with the given CVSS v2 score. -/
def mkContent (t : CveContentType) (score : Float64) : CveContent :=
  { CveContent.zero with Type_ := t, Summary := "s", Cvss2Score := score }

/-- A vulnerability with the given identifier and store. -/
def mkVuln (cveID : String) (cs : CveContents) : VulnInfo :=
  { VulnInfo.zero with CveID := cveID, CveContents := cs }

/-! ## Severity summary (lines 267-290) -/

/-- The four counters `high, medium, low, unknown` of `CveSummary`. -/
structure Tally where
  high : Nat
  medium : Nat
  low : Nat
  unknown : Nat
deriving DecidableEq

/-- Lines 271-281 of `CveSummary`: the `switch` on the score of one
vulnerability. -/
def tallyStep (t : Tally) (vInfo : VulnInfo) : Tally :=
  let score := CveContents.CvssV2Score vInfo.CveContents
  if Float64.le (Float64.fin 7) score then { t with high := t.high + 1 }
  else if Float64.le (Float64.fin 4) score then { t with medium := t.medium + 1 }
  else if Float64.lt (Float64.fin 0) score then { t with low := t.low + 1 }
  else { t with unknown := t.unknown + 1 }

/-- Lines 269-282 of `CveSummary`: the loop over `r.ScannedCves`. -/
def cveTally (r : ScanResult) : Tally :=
  r.ScannedCves.foldl tallyStep ⟨0, 0, 0, 0⟩

/-- Go `%d` of a non-negative `int`. -/
def fmtInt (n : Nat) : String := Nat.repr n

/-- Go `ScanResult.CveSummary` (lines 268-290); `config.Conf` is the argument
`conf`. -/
def CveSummary (conf : Config) (r : ScanResult) : String :=
  let t := cveTally r
  if conf.IgnoreUnscoredCves then
    "Total: " ++ fmtInt (t.high + t.medium + t.low) ++ " (High:" ++ fmtInt t.high ++
      " Medium:" ++ fmtInt t.medium ++ " Low:" ++ fmtInt t.low ++ ")"
  else
    "Total: " ++ fmtInt (t.high + t.medium + t.low + t.unknown) ++ " (High:" ++
      fmtInt t.high ++ " Medium:" ++ fmtInt t.medium ++ " Low:" ++ fmtInt t.low ++
      " ?:" ++ fmtInt t.unknown ++ ")"

/-! ## `PackageInfoList` operations (lines 726-775) -/

/-- A Go `map[string]V` as the list of its entries, keys distinct.  The
order of the list plays no role in what the program reads from a map except
through `range`, whose order Go leaves unspecified. -/
abbrev GoMap (V : Type) := List (String × V)

namespace GoMap

/-- Go `m[k] = v`. -/
def set {V : Type} : GoMap V → String → V → GoMap V
  | [], k, v => [(k, v)]
  | (k', v') :: rest, k, v =>
    if k' = k then (k, v) :: rest else (k', v') :: set rest k v

/-- Go `m[k]`: the value stored under `k`, or the zero value. -/
def get {V : Type} (zero : V) : GoMap V → String → V
  | [], _ => zero
  | (k', v') :: rest, k => if k' = k then v' else get zero rest k

/-- The keys of the map, in the order one `range` visits them. -/
def keys {V : Type} (m : GoMap V) : List String := m.map Prod.fst

end GoMap

/-- Go `sort.Strings`: the keys in increasing order.  Go compares strings
byte by byte; on UTF-8 text that is the lexicographic order of the code points,
the order `<` of `String`. -/
def sortStrings (keys : List String) : List String :=
  keys.insertionSort (fun a b => a ≤ b)

/-- The Go zero value `PackageInfo{}`. -/
def PackageInfo.zero : PackageInfo :=
  { Name := "", Version := "", Release := "", NewVersion := "", NewRelease := "",
    Repository := "", Changelog := ⟨"", ""⟩, NotFixedYet := false }

namespace PackageInfoList

/-- Lines 727-730 of `UniqByName`: the map from name to package. -/
def nameMap (ps : PackageInfoList) : GoMap PackageInfo :=
  ps.foldl (fun set p => GoMap.set set p.Name p) []

/-- Go `PackageInfoList.UniqByName` (lines 726-741). -/
def UniqByName (ps : PackageInfoList) : PackageInfoList :=
  let set := nameMap ps
  let keys := sortStrings (GoMap.keys set)
  keys.map (fun key => GoMap.get PackageInfo.zero set key)

/-- Lines 756-761 of `MergeNewVersion` read on values: the loop over `ps` for
one candidate `a`. -/
def mergeOne (ps : PackageInfoList) (a : PackageInfo) : PackageInfoList :=
  ps.map (fun p =>
    if p.Name = a.Name then { p with NewVersion := a.NewVersion, NewRelease := a.NewRelease }
    else p)

/-- The packages of `ps` after every package has taken, candidate after
candidate of `cands`, the `NewVersion` and `NewRelease` of the candidates with
its name: `MergeNewVersion` read on values.  The method itself, on slices in
memory, is `MergeNewVersion` below. -/
def mergeCandidates (ps cands : PackageInfoList) : PackageInfoList :=
  cands.foldl mergeOne ps

/-- Lines 768-773 of `countUpdatablePacks`: one iteration, on the pair of
`count` and `set`. -/
def countStep (st : Nat × GoMap Bool) (p : PackageInfo) : Nat × GoMap Bool :=
  if len p.NewVersion ≠ 0 ∧ (!GoMap.get false st.2 p.Name) = true then
    (st.1 + 1, GoMap.set st.2 p.Name true)
  else st

/-- Go `PackageInfoList.countUpdatablePacks` (lines 765-775). -/
def countUpdatablePacks (ps : PackageInfoList) : Nat :=
  (ps.foldl countStep (0, [])).1

end PackageInfoList

/-- A package with the given name and version. -/
def mkPackage (name version : String) : PackageInfo :=
  { PackageInfo.zero with Name := name, Version := version }

/-- A scan result of host `web01` with the given vulnerabilities and all other
fields at their zero values. -/
def mkScanResult (cves : VulnInfos) : ScanResult :=
  { ScannedAt := 0, Lang := "", ServerName := "web01", Family := "", Release := "",
    Container := ⟨"", "", "", ""⟩, Platform := ⟨"", ""⟩, ScannedCves := cves,
    Packages := [], Errors := [], Optional := [] }

/-- An NVD document with the given six base-metric fields, the summary
`"s"` and the given score. -/
def mkNvd (av ac au c i a : String) (score : Float64) : cvedict.Nvd :=
  { Summary := "s", Score := score, AccessVector := av, AccessComplexity := ac,
    Authentication := au, ConfidentialityImpact := c, IntegrityImpact := i,
    AvailabilityImpact := a, Cpes := [], CweID := "", References := [],
    PublishedDate := 0, LastModifiedDate := 0 }

/-- A JVN document with the given summary and references, no score and all
other fields at their zero values. -/
def mkJvn (summary jvnLink : String) (refs : List cvedict.Reference) : cvedict.Jvn :=
  { Title := "", Summary := summary, Severity := "", Score := Float64.zero, Vector := "",
    JvnLink := jvnLink, Cpes := [], References := refs, PublishedDate := 0,
    LastModifiedDate := 0 }

/-! ## `ScanResults` (lines 31-50) -/

/-- Go `ScanResults.Less` (lines 45-50).  An index outside the slice makes
the Go method panic; the result is then `none`. -/
def ScanResults.Less (s : ScanResults) (i j : Nat) : Option Bool :=
  match s[i]?, s[j]? with
  | some si, some sj =>
    if si.ServerName = sj.ServerName then
      some (decide (si.Container.ContainerID < si.Container.ContainerID))
    else some (decide (si.ServerName < sj.ServerName))
  | _, _ => none

/-- A scan result of the given host and container id, all other fields at
their zero values. -/
def mkHostResult (serverName containerID : String) : ScanResult :=
  { ScannedAt := 0, Lang := "", ServerName := serverName, Family := "", Release := "",
    Container := ⟨containerID, "", "", ""⟩, Platform := ⟨"", ""⟩, ScannedCves := [],
    Packages := [], Errors := [], Optional := [] }

/-! ## Slices in memory

The functions above read a Go slice as the list of its elements.  That reading
is exact for one slice on its own.  Two slices may share a backing array, and
then a write through one (`(*v)[i] = x`, or an `append` within capacity) shows
through the other.  The functions below keep the backing arrays: memory is the
sequence of cells of all arrays of one element type, a slice is a window of it,
and an `append` beyond capacity allocates new cells at the end. -/

namespace Mem

/-- A Go slice header: the index of the first cell, the length and the
capacity. -/
structure Slice where
  off : Nat
  len : Nat
  cap : Nat
deriving DecidableEq

/-- The elements of a slice, read from memory. -/
def read {α : Type} (mem : List α) (s : Slice) : List α :=
  (mem.drop s.off).take s.len

/-- The slice lies inside memory: `len <= cap` and its capacity window ends
within the allocated cells. -/
@[reducible] def Slice.WF {α : Type} (mem : List α) (s : Slice) : Prop :=
  s.len ≤ s.cap ∧ s.off + s.cap ≤ mem.length

/-- The capacity windows of two slices share no cell. -/
@[reducible] def Slice.Disjoint (a b : Slice) : Prop :=
  a.cap = 0 ∨ b.cap = 0 ∨ a.off + a.cap ≤ b.off ∨ b.off + b.cap ≤ a.off

/-- The cells of the backing arrays of all `[]CveContent` slices. -/
abbrev Memory := List CveContent

/-- Go `VulnInfo` (lines 443-450) with its content store as a slice header. -/
structure VulnInfo where
  CveID : String
  Confidence : Confidence
  Packages : PackageInfoList
  DistroAdvisories : List DistroAdvisory
  CpeNames : List String
  CveContents : Slice
deriving DecidableEq

/-- Go `ScanResult` (lines 53-69) with the content stores of its
vulnerabilities as slice headers. -/
structure ScanResult where
  ScannedAt : Time
  Lang : String
  ServerName : String
  Family : String
  Release : String
  Container : Container
  Platform : Platform
  ScannedCves : List VulnInfo
  Packages : PackageInfoList
  Errors : List String
  Optional : List (List String)
deriving DecidableEq

/-- The vulnerability as a value: its store read from memory. -/
def VulnInfo.view (mem : Memory) (v : VulnInfo) : Models.VulnInfo :=
  { CveID := v.CveID, Confidence := v.Confidence, Packages := v.Packages,
    DistroAdvisories := v.DistroAdvisories, CpeNames := v.CpeNames,
    CveContents := read mem v.CveContents }

/-- The scan result as a value: every store read from memory. -/
def ScanResult.view (mem : Memory) (r : ScanResult) : Models.ScanResult :=
  { ScannedAt := r.ScannedAt, Lang := r.Lang, ServerName := r.ServerName,
    Family := r.Family, Release := r.Release, Container := r.Container,
    Platform := r.Platform, ScannedCves := r.ScannedCves.map (VulnInfo.view mem),
    Packages := r.Packages, Errors := r.Errors, Optional := r.Optional }

/-- No two content stores share a cell: every store lies inside memory and the
capacity windows are pairwise disjoint. -/
@[reducible] def Separated (mem : Memory) (cves : List VulnInfo) : Prop :=
  (∀ v ∈ cves, Slice.WF mem v.CveContents) ∧
  cves.Pairwise (fun a b => Slice.Disjoint a.CveContents b.CveContents)

/-- The loop of Go `CveContents.Update` (lines 647-652) from index `i` with `n`
iterations left: at the first record with the `Type` of `cont` the cell is
overwritten and the method returns `true`. -/
def updateLoop (mem : Memory) (s : Slice) (cont : CveContent) : Nat → Nat → Memory × Bool
  | _, 0 => (mem, false)
  | i, n + 1 =>
    match mem[s.off + i]? with
    | some vv =>
      if vv.Type_ = cont.Type_ then (mem.set (s.off + i) cont, true)
      else updateLoop mem s cont (i + 1) n
    | none => (mem, false)

/-- Go `CveContents.Update` (lines 646-654) on memory: the new memory and the
returned flag. -/
def Update (mem : Memory) (s : Slice) (cont : CveContent) : Memory × Bool :=
  updateLoop mem s cont 0 s.len

/-- Go `CveContents.Insert` (lines 641-643) on memory, `*v = append(*v, cont)`.
Within capacity the record goes into the cell after the last element.
Otherwise a new array is allocated at the end of memory, of the capacity
`grow (len + 1)` chosen by the runtime (at least `len + 1`), the elements are
copied and the record follows them. -/
def Insert (grow : Nat → Nat) (mem : Memory) (s : Slice) (cont : CveContent) :
    Memory × Slice :=
  if s.len < s.cap then (mem.set (s.off + s.len) cont, { s with len := s.len + 1 })
  else
    let newcap := max (grow (s.len + 1)) (s.len + 1)
    (mem ++ (read mem s ++ cont :: List.replicate (newcap - (s.len + 1)) CveContent.zero),
      { off := mem.length, len := s.len + 1, cap := newcap })

/-- Go `CveContents.Upsert` (lines 657-662) on memory. -/
def Upsert (grow : Nat → Nat) (mem : Memory) (s : Slice) (cont : CveContent) :
    Memory × Slice :=
  let r := Update mem s cont
  if !r.2 then Insert grow r.1 s cont else (r.1, s)

/-- Lines 88-92 of `FillCveDetail` on memory: the loop over
`[]CveContent{nvd, jvn}` on one store. -/
def upsertNonEmpty (grow : Nat → Nat) (mem : Memory) (s : Slice) (cons : List CveContent) :
    Memory × Slice :=
  cons.foldl (fun st con => if !con.Empty then Upsert grow st.1 st.2 con else st) (mem, s)

/-- Lines 86-95 of `FillCveDetail` on memory: the first vulnerability whose
`CveID` is `cveID` receives the records, then the loop breaks. -/
def mergeInto (grow : Nat → Nat) (mem : Memory) :
    List VulnInfo → String → List CveContent → Memory × List VulnInfo
  | [], _, _ => (mem, [])
  | sc :: rest, cveID, cons =>
    if sc.CveID = cveID then
      ((upsertNonEmpty grow mem sc.CveContents cons).1,
        { sc with CveContents := (upsertNonEmpty grow mem sc.CveContents cons).2 } :: rest)
    else
      ((mergeInto grow mem rest cveID cons).1, sc :: (mergeInto grow mem rest cveID cons).2)

/-- Lines 84-95 of `FillCveDetail` on memory: one iteration of the loop over
the fetched documents. -/
def mergeDetail (grow : Nat → Nat) (st : Memory × List VulnInfo) (d : cvedict.CveDetail) :
    Memory × List VulnInfo :=
  let nvd := convertNvdToModel d.CveID d.Nvd
  let jvn := convertJvnToModel d.CveID d.Jvn
  mergeInto grow st.1 st.2 d.CveID [nvd, jvn]

/-- Lines 83-101 of `FillCveDetail` on memory: the merge of a fetched batch. -/
def mergeDetails (grow : Nat → Nat) (mem : Memory) (r : ScanResult)
    (ds : List cvedict.CveDetail) : Memory × ScanResult :=
  ((ds.foldl (mergeDetail grow) (mem, r.ScannedCves)).1,
    { r with ScannedCves := (ds.foldl (mergeDetail grow) (mem, r.ScannedCves)).2 })

/-- Go `ScanResult.FillCveDetail` (lines 73-102) on memory; `fetch` stands for
`cveapi.CveClient.FetchCveDetails`. -/
def FillCveDetail {ε : Type} (grow : Nat → Nat)
    (fetch : List String → Except ε (List cvedict.CveDetail))
    (mem : Memory) (r : ScanResult) : Except ε (Memory × ScanResult) :=
  let cveIDs := r.ScannedCves.map (fun v => v.CveID)
  match fetch cveIDs with
  | Except.error err => Except.error err
  | Except.ok ds => Except.ok (mergeDetails grow mem r ds)

/-- The footprint of store operations through the slice `s`, from memory `mem`
and header `s` to `mem'` and `s'`: memory only grows, the cells outside the
capacity window of `s` keep their values, and the new header lies inside the
new memory, on the old window or on cells allocated since. -/
def Step (mem : Memory) (s : Slice) (mem' : Memory) (s' : Slice) : Prop :=
  mem.length ≤ mem'.length ∧
  (∀ q, q < mem.length → ¬ (s.off ≤ q ∧ q < s.off + s.cap) → mem'[q]? = mem[q]?) ∧
  Slice.WF mem' s' ∧
  ((s'.off = s.off ∧ s'.cap = s.cap) ∨ mem.length ≤ s'.off)

/-- Two vulnerabilities whose stores are the slices `arr[0:2]` of one array
`arr` of capacity 4 holding a RedHat and a CentOS record. -/
def sharedPair : Memory × ScanResult :=
  ([mkContent RedHat (Float64.fin 1), mkContent CentOS (Float64.fin 2), CveContent.zero,
      CveContent.zero],
    { ScannedAt := 0, Lang := "", ServerName := "web01", Family := "", Release := "",
      Container := ⟨"", "", "", ""⟩, Platform := ⟨"", ""⟩,
      ScannedCves :=
        [{ CveID := "CVE-A", Confidence := ⟨100, "OvalMatch"⟩, Packages := [],
            DistroAdvisories := [], CpeNames := [], CveContents := ⟨0, 2, 4⟩ },
          { CveID := "CVE-B", Confidence := ⟨100, "OvalMatch"⟩, Packages := [],
            DistroAdvisories := [], CpeNames := [], CveContents := ⟨0, 2, 4⟩ }],
      Packages := [], Errors := [], Optional := [] })

/-- A batch with an NVD-only document for `CVE-A` followed by a JVN-only
document for `CVE-B`. -/
def batchAB : List cvedict.CveDetail :=
  [⟨"CVE-A", mkNvd "N" "L" "N" "P" "P" "P" (Float64.fin 5), mkJvn "" "" []⟩,
    ⟨"CVE-B", { mkNvd "N" "L" "N" "P" "P" "P" (Float64.fin 5) with Summary := "" },
      mkJvn "s" "" []⟩]

/-- Two vulnerabilities on one array of capacity 4 holding a RedHat, a CentOS
and a Debian record: the store of `CVE-A` is `arr[0:3]`, that of `CVE-B` is
`arr[0:2]`. -/
def sharedPrefix : Memory × ScanResult :=
  ([mkContent RedHat (Float64.fin 1), mkContent CentOS (Float64.fin 2),
      mkContent Debian (Float64.fin 3), CveContent.zero],
    { sharedPair.2 with
      ScannedCves :=
        [{ CveID := "CVE-A", Confidence := ⟨100, "OvalMatch"⟩, Packages := [],
            DistroAdvisories := [], CpeNames := [], CveContents := ⟨0, 3, 4⟩ },
          { CveID := "CVE-B", Confidence := ⟨100, "OvalMatch"⟩, Packages := [],
            DistroAdvisories := [], CpeNames := [], CveContents := ⟨0, 2, 4⟩ }] })

/-- A batch with one NVD-only document, for `CVE-B`. -/
def batchB : List cvedict.CveDetail :=
  [⟨"CVE-B", mkNvd "N" "L" "N" "P" "P" "P" (Float64.fin 5), mkJvn "" "" []⟩]

/-- Two vulnerabilities with no content (nil stores) and no memory allocated. -/
def freshPair : Memory × ScanResult :=
  ([], { sharedPair.2 with
    ScannedCves :=
      [{ CveID := "CVE-A", Confidence := ⟨100, "OvalMatch"⟩, Packages := [],
          DistroAdvisories := [], CpeNames := [], CveContents := ⟨0, 0, 0⟩ },
        { CveID := "CVE-B", Confidence := ⟨100, "OvalMatch"⟩, Packages := [],
          DistroAdvisories := [], CpeNames := [], CveContents := ⟨0, 0, 0⟩ }] })

/-- Two vulnerabilities on two arrays of capacity 2: the store of `CVE-A` holds
a RedHat record, the store of `CVE-B` is empty. -/
def separatePair : Memory × ScanResult :=
  ([mkContent RedHat (Float64.fin 1), CveContent.zero, CveContent.zero, CveContent.zero],
    { sharedPair.2 with
      ScannedCves :=
        [{ CveID := "CVE-A", Confidence := ⟨100, "OvalMatch"⟩, Packages := [],
            DistroAdvisories := [], CpeNames := [], CveContents := ⟨0, 1, 2⟩ },
          { CveID := "CVE-B", Confidence := ⟨100, "OvalMatch"⟩, Packages := [],
            DistroAdvisories := [], CpeNames := [], CveContents := ⟨2, 0, 2⟩ }] })

/-- A growth policy for `append`: twice the needed length. -/
def doubleCap (n : Nat) : Nat := 2 * n

end Mem

/-! ## `MergeNewVersion` on memory (lines 754-763)

The receiver `ps` and the argument `as` are slices of packages: windows of a
memory of `PackageInfo` cells.  The method writes cells of `ps` while it ranges
over `as`, so each candidate is read when its iteration starts, from memory as
the earlier iterations left it. -/

namespace PackageInfoList

/-- Lines 756-761 of `MergeNewVersion`: the loop over the slice `ps` for the
candidate `a`, from index `i` with `n` iterations left.  The cell `ps[i]` is
read, and when its `Name` is that of `a` its `NewVersion` and `NewRelease` are
overwritten. -/
def mergeLoop (ps : Mem.Slice) (a : PackageInfo) :
    Nat → Nat → List PackageInfo → List PackageInfo
  | _, 0, mem => mem
  | i, n + 1, mem =>
    match mem[ps.off + i]? with
    | some p =>
      if p.Name = a.Name then
        mergeLoop ps a (i + 1) n
          (mem.set (ps.off + i)
            { p with NewVersion := a.NewVersion, NewRelease := a.NewRelease })
      else mergeLoop ps a (i + 1) n mem
    | none => mem

/-- Lines 755-762 of `MergeNewVersion`: the loop over the slice `cands` from
index `k` with `n` iterations left.  The candidate `a` is the value of the cell
`as[k]` when its iteration starts. -/
def mergeOuter (ps cands : Mem.Slice) : Nat → Nat → List PackageInfo → List PackageInfo
  | _, 0, mem => mem
  | k, n + 1, mem =>
    match mem[cands.off + k]? with
    | some a => mergeOuter ps cands (k + 1) n (mergeLoop ps a 0 ps.len mem)
    | none => mem

/-- Go `PackageInfoList.MergeNewVersion` (lines 754-763): `mem` holds the cells
of the backing arrays, `ps` is the receiver and `cands` the argument `as`; the
result is memory after the call. -/
def MergeNewVersion (mem : List PackageInfo) (ps cands : Mem.Slice) : List PackageInfo :=
  mergeOuter ps cands 0 cands.len mem

/-- Packages `A` with new version 1 and `A` with new version 2, in one array. -/
def twoCandidates : List PackageInfo :=
  [{ mkPackage "A" "1" with NewVersion := "1" }, { mkPackage "A" "1" with NewVersion := "2" }]

/-- Packages `A` and `B` with no new version, followed in the same memory by
two candidates named `A`, with new versions 2 and 3. -/
def withCandidates : List PackageInfo :=
  [mkPackage "A" "1", mkPackage "B" "1",
    { mkPackage "A" "2" with NewVersion := "2" }, { mkPackage "A" "3" with NewVersion := "3" }]

end PackageInfoList

/-! # Theorems -/

/-! ## Keyed lists -/

namespace Keyed

variable {α κ : Type} [DecidableEq κ] (key : α → κ)

theorem update_snd (l : List α) (a : α) :
    (update key l a).2 = true ↔ key a ∈ l.map key := by
  induction l with
  | nil => simp [update]
  | cons x rest ih =>
    by_cases h : key x = key a
    · simp [update, h]
    · have h' : ¬ key a = key x := fun e => h e.symm
      simp [update, h, h', ih]

theorem update_fst_of_not_mem (l : List α) (a : α) (h : key a ∉ l.map key) :
    (update key l a).1 = l := by
  induction l with
  | nil => simp [update]
  | cons x rest ih =>
    have hx : ¬ key x = key a := fun e => h (by simp [e])
    have hr : key a ∉ rest.map key := fun m => h (by simp at m ⊢; exact Or.inr m)
    simp [update, hx, ih hr]

theorem upsert_eq_update (l : List α) (a : α) :
    upsert key l a =
      if (update key l a).2 then (update key l a).1 else (update key l a).1 ++ [a] := by
  induction l with
  | nil => simp [upsert, update]
  | cons x rest ih =>
    by_cases h : key x = key a
    · simp [upsert, update, h]
    · simp only [upsert, update, h, if_false, ih]
      split <;> simp

theorem map_key_upsert (l : List α) (a : α) :
    (upsert key l a).map key =
      if key a ∈ l.map key then l.map key else l.map key ++ [key a] := by
  induction l with
  | nil => simp [upsert]
  | cons x rest ih =>
    by_cases h : key x = key a
    · simp [upsert, h]
    · have h' : ¬ key a = key x := fun e => h e.symm
      simp only [upsert, h, if_false, List.map_cons, ih, List.mem_cons, h', false_or]
      split <;> simp

theorem mem_map_key_upsert (l : List α) (a : α) (k : κ) :
    k ∈ (upsert key l a).map key ↔ k = key a ∨ k ∈ l.map key := by
  rw [map_key_upsert]
  split
  · constructor
    · intro h; exact Or.inr h
    · rintro (h | h)
      · subst h; assumption
      · exact h
  · simp [or_comm]

theorem lookup_isSome (l : List α) (k : κ) :
    (lookup key l k).isSome = true ↔ k ∈ l.map key := by
  induction l with
  | nil => simp [lookup]
  | cons x rest ih =>
    by_cases h : key x = k
    · simp [lookup, h]
    · have h' : ¬ k = key x := fun e => h e.symm
      simp [lookup, h, h', ih]

theorem lookup_upsert (l : List α) (a : α) (k : κ) :
    lookup key (upsert key l a) k = if k = key a then some a else lookup key l k := by
  induction l with
  | nil =>
    by_cases h : key a = k
    · simp [upsert, lookup, h]
    · have h' : ¬ k = key a := fun e => h e.symm
      simp [upsert, lookup, h, h']
  | cons x rest ih =>
    by_cases h : key x = key a
    · by_cases hk : key a = k
      · simp [upsert, lookup, h, hk]
      · have hk' : ¬ k = key a := fun e => hk e.symm
        have hx : ¬ key x = k := fun e => hk (h ▸ e)
        simp [upsert, lookup, h, hk, hk', hx]
    · by_cases hx : key x = k
      · have hk' : ¬ k = key a := fun e => h (hx.trans e)
        simp [upsert, lookup, h, hx, hk']
      · simp [upsert, lookup, h, hx, ih]

/-- Upserting a record over one of the same key leaves only the later one. -/
theorem upsert_upsert_same (l : List α) (a b : α) (h : key a = key b) :
    upsert key (upsert key l a) b = upsert key l b := by
  induction l with
  | nil => simp [upsert, h]
  | cons x rest ih =>
    by_cases hx : key x = key a
    · have hxb : key x = key b := hx.trans h
      simp [upsert, hx, hxb, h]
    · have hxb : ¬ key x = key b := fun e => hx (e.trans h.symm)
      simp [upsert, hx, hxb, ih]

/-- Upserts of different keys commute as soon as one of the keys is present. -/
theorem upsert_comm (l : List α) (a b : α) (h : key a ≠ key b)
    (hm : key a ∈ l.map key ∨ key b ∈ l.map key) :
    upsert key (upsert key l a) b = upsert key (upsert key l b) a := by
  induction l with
  | nil => simp at hm
  | cons x rest ih =>
    by_cases hxa : key x = key a
    · have hxb : ¬ key x = key b := fun e => h (hxa.symm.trans e)
      simp [upsert, hxa, hxb, h]
    · by_cases hxb : key x = key b
      · have hba : ¬ key b = key a := fun e => h e.symm
        simp [upsert, hxa, hxb, hba]
      · have hm' : key a ∈ rest.map key ∨ key b ∈ rest.map key := by
          rcases hm with hm | hm
          · left
            simp only [List.map_cons, List.mem_cons] at hm
            rcases hm with e | m
            · exact absurd e.symm hxa
            · exact m
          · right
            simp only [List.map_cons, List.mem_cons] at hm
            rcases hm with e | m
            · exact absurd e.symm hxb
            · exact m
        simp [upsert, hxa, hxb, ih hm']

/-- Upserting the record that lookup already finds changes nothing. -/
theorem upsert_of_lookup (l : List α) (a : α) (h : lookup key l (key a) = some a) :
    upsert key l a = l := by
  induction l with
  | nil => simp [lookup] at h
  | cons x rest ih =>
    by_cases hx : key x = key a
    · simp only [lookup, hx, if_true, Option.some.injEq] at h
      simp [upsert, hx, h]
    · simp only [lookup, hx, if_false] at h
      simp [upsert, hx, ih h]

theorem lookup_foldl_upsert_of_not_mem (seq : List α) (l : List α) (k : κ)
    (h : k ∉ seq.map key) :
    lookup key (seq.foldl (upsert key) l) k = lookup key l k := by
  induction seq generalizing l with
  | nil => rfl
  | cons d rest ih =>
    have hd : ¬ k = key d := fun e => h (by simp [e])
    have hr : k ∉ rest.map key := fun m => h (by simp at m ⊢; exact Or.inr m)
    simp only [List.foldl_cons]
    rw [ih _ hr, lookup_upsert, if_neg hd]

theorem mem_map_key_foldl_upsert (seq : List α) (l : List α) (k : κ)
    (h : k ∈ l.map key) : k ∈ (seq.foldl (upsert key) l).map key := by
  induction seq generalizing l with
  | nil => exact h
  | cons d rest ih =>
    simp only [List.foldl_cons]
    exact ih _ ((mem_map_key_upsert key l d k).2 (Or.inr h))

/-- An upsert whose key is upserted again later in the sequence is overwritten. -/
theorem foldl_upsert_absorb (seq : List α) (l : List α) (c : α)
    (hl : key c ∈ l.map key) (hs : key c ∈ seq.map key) :
    seq.foldl (upsert key) (upsert key l c) = seq.foldl (upsert key) l := by
  induction seq generalizing l with
  | nil => simp at hs
  | cons d rest ih =>
    simp only [List.foldl_cons]
    by_cases hd : key c = key d
    · rw [upsert_upsert_same key l c d hd]
    · have hr : key c ∈ rest.map key := by
        simp only [List.map_cons, List.mem_cons] at hs
        rcases hs with e | m
        · exact absurd e hd
        · exact m
      rw [upsert_comm key l c d hd (Or.inl hl)]
      exact ih _ ((mem_map_key_upsert key l d (key c)).2 (Or.inr hl)) hr

/-- Replaying a sequence of upserts on its own result changes nothing. -/
theorem foldl_upsert_idem (seq : List α) (l : List α) :
    seq.foldl (upsert key) (seq.foldl (upsert key) l) = seq.foldl (upsert key) l := by
  induction seq generalizing l with
  | nil => rfl
  | cons c rest ih =>
    simp only [List.foldl_cons]
    have hmem : key c ∈ (rest.foldl (upsert key) (upsert key l c)).map key :=
      mem_map_key_foldl_upsert key rest _ _
        ((mem_map_key_upsert key l c (key c)).2 (Or.inl rfl))
    by_cases hs : key c ∈ rest.map key
    · rw [foldl_upsert_absorb key rest _ c hmem hs]
      exact ih _
    · have hlook : lookup key (rest.foldl (upsert key) (upsert key l c)) (key c) = some c := by
        rw [lookup_foldl_upsert_of_not_mem key rest _ _ hs, lookup_upsert, if_pos rfl]
      rw [upsert_of_lookup key _ c hlook]
      exact ih _

end Keyed

/-! ## The stores as keyed lists -/

theorem CveContents_Get_eq (v : CveContents) (t : CveContentType) :
    CveContents.Get v t =
      match Keyed.lookup (fun c : CveContent => c.Type_) v t with
      | some c => (c, true)
      | none => (CveContent.zero, false) := by
  induction v with
  | nil => rfl
  | cons x rest ih =>
    by_cases h : x.Type_ = t
    · simp [CveContents.Get, Keyed.lookup, h]
    · simp [CveContents.Get, Keyed.lookup, h, ih]

theorem CveContents_Update_eq (v : CveContents) (c : CveContent) :
    CveContents.Update v c = Keyed.update (fun c : CveContent => c.Type_) v c := by
  induction v with
  | nil => rfl
  | cons x rest ih =>
    by_cases h : x.Type_ = c.Type_
    · simp [CveContents.Update, Keyed.update, h]
    · simp [CveContents.Update, Keyed.update, h, ih]

theorem CveContents_Upsert_eq (v : CveContents) (c : CveContent) :
    CveContents.Upsert v c = Keyed.upsert (fun c : CveContent => c.Type_) v c := by
  rw [Keyed.upsert_eq_update, ← CveContents_Update_eq]
  simp only [CveContents.Upsert, CveContents.Insert]
  cases (CveContents.Update v c).2 <;> simp

theorem CveContents_Delete_eq (v : CveContents) (t : CveContentType) :
    CveContents.Delete v t = Keyed.delete (fun c : CveContent => c.Type_) v t := by
  induction v with
  | nil => rfl
  | cons x rest ih =>
    by_cases h : x.Type_ = t
    · simp [CveContents.Delete, Keyed.delete, h]
    · simp [CveContents.Delete, Keyed.delete, h, ih]

theorem VulnInfos_Get_eq (v : VulnInfos) (t : String) :
    VulnInfos.Get v t =
      match Keyed.lookup (fun c : VulnInfo => c.CveID) v t with
      | some c => (c, true)
      | none => (VulnInfo.zero, false) := by
  induction v with
  | nil => rfl
  | cons x rest ih =>
    by_cases h : x.CveID = t
    · simp [VulnInfos.Get, Keyed.lookup, h]
    · simp [VulnInfos.Get, Keyed.lookup, h, ih]

theorem VulnInfos_Update_eq (v : VulnInfos) (c : VulnInfo) :
    VulnInfos.Update v c = Keyed.update (fun c : VulnInfo => c.CveID) v c := by
  induction v with
  | nil => rfl
  | cons x rest ih =>
    by_cases h : x.CveID = c.CveID
    · simp [VulnInfos.Update, Keyed.update, h]
    · simp [VulnInfos.Update, Keyed.update, h, ih]

theorem VulnInfos_Upsert_eq (v : VulnInfos) (c : VulnInfo) :
    VulnInfos.Upsert v c = Keyed.upsert (fun c : VulnInfo => c.CveID) v c := by
  rw [Keyed.upsert_eq_update, ← VulnInfos_Update_eq]
  simp only [VulnInfos.Upsert, VulnInfos.Insert]
  cases (VulnInfos.Update v c).2 <;> simp

theorem VulnInfos_Delete_eq (v : VulnInfos) (t : String) :
    VulnInfos.Delete v t = Keyed.delete (fun c : VulnInfo => c.CveID) v t := by
  induction v with
  | nil => rfl
  | cons x rest ih =>
    by_cases h : x.CveID = t
    · simp [VulnInfos.Delete, Keyed.delete, h]
    · simp [VulnInfos.Delete, Keyed.delete, h, ih]

theorem CveContents_Upsert_fun_eq :
    CveContents.Upsert = Keyed.upsert (fun c : CveContent => c.Type_) := by
  funext v c; exact CveContents_Upsert_eq v c

theorem VulnInfos_Upsert_fun_eq :
    VulnInfos.Upsert = Keyed.upsert (fun c : VulnInfo => c.CveID) := by
  funext v c; exact VulnInfos_Upsert_eq v c

theorem Keyed.filter_ne_upsert {α κ : Type} [DecidableEq κ] (key : α → κ)
    (l : List α) (a : α) :
    (Keyed.upsert key l a).filter (fun x => decide (key x ≠ key a)) =
      l.filter (fun x => decide (key x ≠ key a)) := by
  induction l with
  | nil => simp [Keyed.upsert]
  | cons x rest ih =>
    by_cases h : key x = key a
    · simp [Keyed.upsert, h]
    · simp only [Keyed.upsert, h, if_false, List.filter_cons, ih]

theorem CveContents.Get_eq_find (v : CveContents) (t : CveContentType) :
    CveContents.Get v t =
      match v.find? (fun c => decide (c.Type_ = t)) with
      | some c => (c, true)
      | none => (CveContent.zero, false) := by
  induction v with
  | nil => rfl
  | cons x rest ih =>
    by_cases h : x.Type_ = t
    · simp [CveContents.Get, List.find?, h]
    · simp [CveContents.Get, List.find?, h, ih]

theorem CveContents.Get_snd (v : CveContents) (t : CveContentType) :
    (CveContents.Get v t).2 = true ↔ ∃ c ∈ v, c.Type_ = t := by
  induction v with
  | nil => simp [CveContents.Get]
  | cons x rest ih =>
    by_cases h : x.Type_ = t
    · simp [CveContents.Get, h]
    · simp [CveContents.Get, h, ih]

/-! ## Score derivation -/

/-- C1: `CvssV2Score` returns the `Cvss2Score` of the record that `Get` finds
for the first of the sources NVD, JVN, RedHat that has a record in the store,
and `-1` when none of the three has one; `Get` finds the first record of the
source in store order.  Instances: {JVN: 5, RedHat: 9} gives 5, {RedHat: 9}
gives 9, the empty store and a store of CentOS, Debian and Ubuntu records give
`-1`. -/
theorem CveContents.CvssV2Score_priority :
    (∀ v : CveContents,
      CveContents.CvssV2Score v =
        if ∃ c ∈ v, c.Type_ = NVD then (CveContents.Get v NVD).1.Cvss2Score
        else if ∃ c ∈ v, c.Type_ = JVN then (CveContents.Get v JVN).1.Cvss2Score
        else if ∃ c ∈ v, c.Type_ = RedHat then (CveContents.Get v RedHat).1.Cvss2Score
        else Float64.fin (-1)) ∧
    (∀ (v : CveContents) (t : CveContentType),
      CveContents.Get v t =
        match v.find? (fun c => decide (c.Type_ = t)) with
        | some c => (c, true)
        | none => (CveContent.zero, false)) ∧
    CveContents.CvssV2Score
      [mkContent JVN (Float64.fin 5), mkContent RedHat (Float64.fin 9)] = Float64.fin 5 ∧
    CveContents.CvssV2Score [mkContent RedHat (Float64.fin 9)] = Float64.fin 9 ∧
    CveContents.CvssV2Score [] = Float64.fin (-1) ∧
    CveContents.CvssV2Score
      [mkContent CentOS (Float64.fin 1), mkContent Debian (Float64.fin 2),
        mkContent Ubuntu (Float64.fin 3)] = Float64.fin (-1) := by
  refine ⟨?_, CveContents.Get_eq_find, ?_, ?_, ?_, ?_⟩
  · intro v
    unfold CveContents.CvssV2Score
    by_cases h1 : (CveContents.Get v NVD).2 = true
    · rw [if_pos h1, if_pos ((CveContents.Get_snd v NVD).1 h1)]
    · rw [if_neg h1, if_neg (fun h => h1 ((CveContents.Get_snd v NVD).2 h))]
      by_cases h2 : (CveContents.Get v JVN).2 = true
      · rw [if_pos h2, if_pos ((CveContents.Get_snd v JVN).1 h2)]
      · rw [if_neg h2, if_neg (fun h => h2 ((CveContents.Get_snd v JVN).2 h))]
        by_cases h3 : (CveContents.Get v RedHat).2 = true
        · rw [if_pos h3, if_pos ((CveContents.Get_snd v RedHat).1 h3)]
        · rw [if_neg h3, if_neg (fun h => h3 ((CveContents.Get_snd v RedHat).2 h))]
  · decide
  · decide
  · decide
  · decide

/-! ## Upsert: frame and replay -/

/-- C2: after `s.Upsert(c)`, `Get(c.Type)` returns `(c, true)`; for every
other source `t`, `Get(t)` returns what it returned before; and the records of
the other sources are the same records in the same order. -/
theorem CveContents.Upsert_frame (s : CveContents) (c : CveContent) :
    CveContents.Get (CveContents.Upsert s c) c.Type_ = (c, true) ∧
    (∀ t : CveContentType, t ≠ c.Type_ →
      CveContents.Get (CveContents.Upsert s c) t = CveContents.Get s t) ∧
    (CveContents.Upsert s c).filter (fun x => decide (x.Type_ ≠ c.Type_)) =
      s.filter (fun x => decide (x.Type_ ≠ c.Type_)) := by
  refine ⟨?_, ?_, ?_⟩
  · rw [CveContents_Get_eq, CveContents_Upsert_eq, Keyed.lookup_upsert]
    simp
  · intro t ht
    rw [CveContents_Get_eq, CveContents_Get_eq, CveContents_Upsert_eq,
      Keyed.lookup_upsert, if_neg ht]
  · rw [CveContents_Upsert_eq]
    exact Keyed.filter_ne_upsert (fun c : CveContent => c.Type_) s c

/-- Instance of C2: upserting an NVD record into a store holding a JVN record
and an older NVD record, observed at the source JVN. -/
theorem CveContents.Upsert_frame_witness :
    JVN ≠ (mkContent NVD (Float64.fin 7)).Type_ ∧
    CveContents.Get
      (CveContents.Upsert [mkContent JVN (Float64.fin 5), mkContent NVD (Float64.fin 2)]
        (mkContent NVD (Float64.fin 7))) JVN =
      CveContents.Get [mkContent JVN (Float64.fin 5), mkContent NVD (Float64.fin 2)] JVN :=
  ⟨by decide,
    (CveContents.Upsert_frame [mkContent JVN (Float64.fin 5), mkContent NVD (Float64.fin 2)]
      (mkContent NVD (Float64.fin 7))).2.1 JVN (by decide)⟩

/-- C3: replaying a sequence of `Upsert` calls on the store it produced gives
that store again, for every initial store and every sequence of records; the
same holds for `VulnInfos.Upsert`. -/
theorem Upsert_replay_idempotent :
    (∀ (s : CveContents) (seq : List CveContent),
      seq.foldl CveContents.Upsert (seq.foldl CveContents.Upsert s) =
        seq.foldl CveContents.Upsert s) ∧
    (∀ (s : VulnInfos) (seq : List VulnInfo),
      seq.foldl VulnInfos.Upsert (seq.foldl VulnInfos.Upsert s) =
        seq.foldl VulnInfos.Upsert s) := by
  constructor
  · intro s seq
    rw [CveContents_Upsert_fun_eq]
    exact Keyed.foldl_upsert_idem _ seq s
  · intro s seq
    rw [VulnInfos_Upsert_fun_eq]
    exact Keyed.foldl_upsert_idem _ seq s

/-! ## The merge step of `FillCveDetail` -/

theorem upsertNonEmpty_eq (v : CveContents) (cons : List CveContent) :
    upsertNonEmpty v cons = (cons.filter (fun con => !con.Empty)).foldl CveContents.Upsert v := by
  unfold upsertNonEmpty
  induction cons generalizing v with
  | nil => rfl
  | cons c rest ih =>
    simp only [List.foldl_cons, List.filter_cons]
    cases hc : c.Empty
    · simp only [Bool.not_false, if_true, List.foldl_cons]
      exact ih _
    · simp only [Bool.not_true, Bool.false_eq_true, if_false]
      exact ih _

theorem foldl_mergeDetail_nil (ds : List cvedict.CveDetail) :
    ds.foldl mergeDetail [] = [] := by
  induction ds with
  | nil => rfl
  | cons d rest ih => simpa [List.foldl_cons, mergeDetail, mergeInto] using ih

/-- The merge of a batch, read off at the head of the vulnerability list: the
head receives, in batch order, the records converted from the documents with
its `CveID`; the tail is merged with the remaining documents. -/
theorem foldl_mergeDetail_cons (ds : List cvedict.CveDetail) (sc : VulnInfo)
    (rest : VulnInfos) :
    ds.foldl mergeDetail (sc :: rest) =
      { sc with CveContents :=
          (convertedFor ds sc.CveID).foldl CveContents.Upsert sc.CveContents } ::
        (ds.filter (fun d => decide (d.CveID ≠ sc.CveID))).foldl mergeDetail rest := by
  induction ds generalizing sc rest with
  | nil => simp [convertedFor]
  | cons d ds ih =>
    by_cases h : sc.CveID = d.CveID
    · have h' : d.CveID = sc.CveID := h.symm
      simp only [List.foldl_cons]
      have hm : mergeDetail (sc :: rest) d =
          { sc with CveContents := (upsertNonEmpty sc.CveContents
              [convertNvdToModel d.CveID d.Nvd, convertJvnToModel d.CveID d.Jvn]) } :: rest := by
        simp [mergeDetail, mergeInto, h]
      rw [hm, ih]
      simp only [upsertNonEmpty_eq, convertedFor, h', decide_True, List.filter_cons_of_pos,
        List.flatMap_cons, List.foldl_append, ne_eq, not_true_eq_false, decide_False,
        Bool.false_eq_true, not_false_eq_true, List.filter_cons_of_neg]
    · have h' : ¬ d.CveID = sc.CveID := fun e => h e.symm
      simp only [List.foldl_cons]
      have hm : mergeDetail (sc :: rest) d = sc :: mergeDetail rest d := by
        simp [mergeDetail, mergeInto, h]
      rw [hm, ih]
      simp [convertedFor, h']

theorem foldl_mergeDetail_idem (cves : VulnInfos) (ds : List cvedict.CveDetail) :
    ds.foldl mergeDetail (ds.foldl mergeDetail cves) = ds.foldl mergeDetail cves := by
  induction cves generalizing ds with
  | nil => simp [foldl_mergeDetail_nil]
  | cons sc rest ih =>
    rw [foldl_mergeDetail_cons ds sc rest, foldl_mergeDetail_cons]
    simp only [ih, CveContents_Upsert_fun_eq, Keyed.foldl_upsert_idem]

/-- The merge on values: merging a batch `ds` into the result of merging `ds`
into `r` gives the result of merging `ds` into `r` once. -/
theorem mergeDetails_values_idem :
    (∀ (r : ScanResult) (ds : List cvedict.CveDetail),
      mergeDetails (mergeDetails r ds) ds = mergeDetails r ds) ∧
    (∀ (r : ScanResult) (ds : List cvedict.CveDetail),
      FillCveDetail (fun _ => (Except.ok ds : Except String (List cvedict.CveDetail))) r =
        Except.ok (mergeDetails r ds)) := by
  constructor
  · intro r ds
    simp only [mergeDetails, foldl_mergeDetail_idem]
  · intro r ds
    rfl

/-! ## Key uniqueness -/

theorem Keyed.upsert_of_not_mem {α κ : Type} [DecidableEq κ] (key : α → κ)
    (l : List α) (a : α) (h : key a ∉ l.map key) : Keyed.upsert key l a = l ++ [a] := by
  induction l with
  | nil => rfl
  | cons x rest ih =>
    have hx : ¬ key x = key a := fun e => h (by simp [e])
    have hr : key a ∉ rest.map key := fun m => h (by simp at m ⊢; exact Or.inr m)
    simp [Keyed.upsert, hx, ih hr]

theorem Keyed.nodup_upsert {α κ : Type} [DecidableEq κ] (key : α → κ)
    (l : List α) (a : α) (h : (l.map key).Nodup) :
    ((Keyed.upsert key l a).map key).Nodup := by
  rw [Keyed.map_key_upsert]
  split
  · exact h
  · rename_i hn
    rw [List.nodup_append]
    refine ⟨h, List.nodup_singleton _, ?_⟩
    intro k hk hk'
    rw [List.mem_singleton] at hk'
    subst hk'
    exact hn hk

theorem Keyed.length_upsert {α κ : Type} [DecidableEq κ] (key : α → κ)
    (l : List α) (a : α) :
    (Keyed.upsert key l a).length =
      if key a ∈ l.map key then l.length else l.length + 1 := by
  have h := congrArg List.length (Keyed.map_key_upsert key l a)
  rw [List.length_map] at h
  rw [h]
  split <;> simp

theorem Keyed.nodup_insert {κ : Type} (ks : List κ) (k : κ)
    (h : ks.Nodup) (hk : k ∉ ks) : (ks ++ [k]).Nodup := by
  rw [List.nodup_append]
  refine ⟨h, List.nodup_singleton _, ?_⟩
  intro x hx hx'
  rw [List.mem_singleton] at hx'
  subst hx'
  exact hk hx

theorem VulnInfos.nodup_run (ops : List (StoreOp VulnInfo)) (v : VulnInfos)
    (hv : (v.map (fun x => x.CveID)).Nodup) (hf : VulnInfos.InsertsFresh v ops) :
    ((ops.foldl VulnInfos.step v).map (fun x => x.CveID)).Nodup := by
  induction ops generalizing v with
  | nil => exact hv
  | cons op rest ih =>
    cases op with
    | insert c =>
      refine ih _ ?_ hf.2
      show ((VulnInfos.Insert v c).map _).Nodup
      simp only [VulnInfos.Insert, List.map_append, List.map_cons, List.map_nil]
      exact Keyed.nodup_insert _ _ hv hf.1
    | upsert c =>
      refine ih _ ?_ hf
      show ((VulnInfos.Upsert v c).map _).Nodup
      rw [VulnInfos_Upsert_eq]
      exact Keyed.nodup_upsert _ v c hv

theorem CveContents.nodup_run_contents (ops : List (StoreOp CveContent)) (v : CveContents)
    (hv : (v.map (fun x => x.Type_)).Nodup) (hf : CveContents.InsertsFresh v ops) :
    ((ops.foldl CveContents.step v).map (fun x => x.Type_)).Nodup := by
  induction ops generalizing v with
  | nil => exact hv
  | cons op rest ih =>
    cases op with
    | insert c =>
      refine ih _ ?_ hf.2
      show ((CveContents.Insert v c).map _).Nodup
      simp only [CveContents.Insert, List.map_append, List.map_cons, List.map_nil]
      exact Keyed.nodup_insert _ _ hv hf.1
    | upsert c =>
      refine ih _ ?_ hf
      show ((CveContents.Upsert v c).map _).Nodup
      rw [CveContents_Upsert_eq]
      exact Keyed.nodup_upsert _ v c hv

/-- C5, as stated, fails: `Insert` appends without looking at the key, so two
`Insert` calls with the same `CveID` (the same `Type`) on an empty set leave
two entries with that key. -/
theorem Insert_duplicates_key :
    ¬ ((List.foldl VulnInfos.step []
        [StoreOp.insert (mkVuln "CVE-2021-0001" []),
          StoreOp.insert (mkVuln "CVE-2021-0001" [])]).map (fun x => x.CveID)).Nodup ∧
    ¬ ((List.foldl CveContents.step []
        [StoreOp.insert (mkContent NVD (Float64.fin 7)),
          StoreOp.insert (mkContent NVD (Float64.fin 7))]).map (fun x => x.Type_)).Nodup := by
  constructor <;> decide

/-- C5, amended: starting from an empty `VulnInfos`, after any finite sequence
of `Insert` and `Upsert` operations in which every `Insert` is given an entry
whose `CveID` is absent from the set at that moment, no two entries share a
`CveID`; likewise for `CveContents` and `Type`. -/
theorem InsertUpsert_keys_unique :
    (∀ ops : List (StoreOp VulnInfo), VulnInfos.InsertsFresh [] ops →
      ((ops.foldl VulnInfos.step []).map (fun x => x.CveID)).Nodup) ∧
    (∀ ops : List (StoreOp CveContent), CveContents.InsertsFresh [] ops →
      ((ops.foldl CveContents.step []).map (fun x => x.Type_)).Nodup) :=
  ⟨fun ops h => VulnInfos.nodup_run ops [] List.nodup_nil h,
    fun ops h => CveContents.nodup_run_contents ops [] List.nodup_nil h⟩

/-- Instance of the amended C5: an `Insert` of a fresh key followed by two
`Upsert` calls, one of them on the inserted key. -/
theorem InsertUpsert_keys_unique_witness :
    VulnInfos.InsertsFresh []
      [StoreOp.insert (mkVuln "CVE-2021-0001" []),
        StoreOp.upsert (mkVuln "CVE-2021-0001" [mkContent NVD (Float64.fin 7)]),
        StoreOp.upsert (mkVuln "CVE-2021-0002" [])] ∧
    ((List.foldl VulnInfos.step []
      [StoreOp.insert (mkVuln "CVE-2021-0001" []),
        StoreOp.upsert (mkVuln "CVE-2021-0001" [mkContent NVD (Float64.fin 7)]),
        StoreOp.upsert (mkVuln "CVE-2021-0002" [])]).map (fun x => x.CveID)).Nodup :=
  ⟨⟨by decide, trivial⟩,
    InsertUpsert_keys_unique.1 _ ⟨by decide, trivial⟩⟩

/-- C6: `Upsert` preserves key uniqueness, and the length grows by one exactly
when the key of the record was absent and is unchanged otherwise, for
`CveContents` keyed by `Type` and for `VulnInfos` keyed by `CveID`. -/
theorem Upsert_preserves_unique :
    (∀ (s : CveContents) (c : CveContent), (s.map (fun x => x.Type_)).Nodup →
      ((CveContents.Upsert s c).map (fun x => x.Type_)).Nodup ∧
      (CveContents.Upsert s c).length =
        if c.Type_ ∈ s.map (fun x => x.Type_) then s.length else s.length + 1) ∧
    (∀ (s : VulnInfos) (v : VulnInfo), (s.map (fun x => x.CveID)).Nodup →
      ((VulnInfos.Upsert s v).map (fun x => x.CveID)).Nodup ∧
      (VulnInfos.Upsert s v).length =
        if v.CveID ∈ s.map (fun x => x.CveID) then s.length else s.length + 1) := by
  constructor
  · intro s c h
    rw [CveContents_Upsert_eq]
    exact ⟨Keyed.nodup_upsert _ s c h, Keyed.length_upsert _ s c⟩
  · intro s v h
    rw [VulnInfos_Upsert_eq]
    exact ⟨Keyed.nodup_upsert _ s v h, Keyed.length_upsert _ s v⟩

/-- Instance of C6: a store with one JVN record receives an NVD record. -/
theorem Upsert_preserves_unique_witness :
    ([mkContent JVN (Float64.fin 5)].map (fun x => x.Type_)).Nodup ∧
    ((CveContents.Upsert [mkContent JVN (Float64.fin 5)]
      (mkContent NVD (Float64.fin 7))).map (fun x => x.Type_)).Nodup ∧
    (CveContents.Upsert [mkContent JVN (Float64.fin 5)]
      (mkContent NVD (Float64.fin 7))).length = 2 :=
  ⟨by decide,
    (Upsert_preserves_unique.1 [mkContent JVN (Float64.fin 5)]
      (mkContent NVD (Float64.fin 7)) (by decide)).1,
    by decide⟩

/-! ## Order of upserts -/

/-- C7, as stated, fails: on a store that has neither source the two orders
append the two records in different orders. -/
theorem Upsert_order_differs :
    (mkContent NVD (Float64.fin 7)).Type_ ≠ (mkContent JVN (Float64.fin 5)).Type_ ∧
    CveContents.Upsert (CveContents.Upsert [] (mkContent NVD (Float64.fin 7)))
        (mkContent JVN (Float64.fin 5)) ≠
      CveContents.Upsert (CveContents.Upsert [] (mkContent JVN (Float64.fin 5)))
        (mkContent NVD (Float64.fin 7)) := by
  constructor <;> decide

/-- C7, amended: for records `a` and `b` of different sources, upserting `a`
then `b` into `s` gives a store with the same records as upserting `b` then
`a` (each is a permutation of the other, and `Get` returns the same for every
source); the two stores are identical when `s` already has a record of the
source of `a` or of `b`, and when it has neither they are `s` followed by
`a, b` and `s` followed by `b, a`. -/
theorem Upsert_order_independent (s : CveContents) (a b : CveContent)
    (h : a.Type_ ≠ b.Type_) :
    List.Perm (CveContents.Upsert (CveContents.Upsert s a) b)
      (CveContents.Upsert (CveContents.Upsert s b) a) ∧
    (∀ t : CveContentType,
      CveContents.Get (CveContents.Upsert (CveContents.Upsert s a) b) t =
        CveContents.Get (CveContents.Upsert (CveContents.Upsert s b) a) t) ∧
    ((a.Type_ ∈ s.map (fun x => x.Type_) ∨ b.Type_ ∈ s.map (fun x => x.Type_)) →
      CveContents.Upsert (CveContents.Upsert s a) b =
        CveContents.Upsert (CveContents.Upsert s b) a) ∧
    (a.Type_ ∉ s.map (fun x => x.Type_) → b.Type_ ∉ s.map (fun x => x.Type_) →
      CveContents.Upsert (CveContents.Upsert s a) b = s ++ [a, b] ∧
      CveContents.Upsert (CveContents.Upsert s b) a = s ++ [b, a]) := by
  have hba : b.Type_ ≠ a.Type_ := fun e => h e.symm
  have hcomm : (a.Type_ ∈ s.map (fun x => x.Type_) ∨ b.Type_ ∈ s.map (fun x => x.Type_)) →
      CveContents.Upsert (CveContents.Upsert s a) b =
        CveContents.Upsert (CveContents.Upsert s b) a := by
    intro hm
    simp only [CveContents_Upsert_eq]
    exact Keyed.upsert_comm (fun c : CveContent => c.Type_) s a b h hm
  have habs : a.Type_ ∉ s.map (fun x => x.Type_) → b.Type_ ∉ s.map (fun x => x.Type_) →
      CveContents.Upsert (CveContents.Upsert s a) b = s ++ [a, b] ∧
      CveContents.Upsert (CveContents.Upsert s b) a = s ++ [b, a] := by
    intro ha hb
    simp only [CveContents_Upsert_eq]
    rw [Keyed.upsert_of_not_mem (fun c : CveContent => c.Type_) s a ha,
      Keyed.upsert_of_not_mem (fun c : CveContent => c.Type_) s b hb]
    constructor
    · rw [Keyed.upsert_of_not_mem]
      · simp
      · simp only [List.map_append, List.map_cons, List.map_nil, List.mem_append,
          List.mem_singleton, not_or]
        exact ⟨hb, hba⟩
    · rw [Keyed.upsert_of_not_mem]
      · simp
      · simp only [List.map_append, List.map_cons, List.map_nil, List.mem_append,
          List.mem_singleton, not_or]
        exact ⟨ha, h⟩
  refine ⟨?_, ?_, hcomm, habs⟩
  · by_cases hm : a.Type_ ∈ s.map (fun x => x.Type_) ∨ b.Type_ ∈ s.map (fun x => x.Type_)
    · rw [hcomm hm]
    · rw [not_or] at hm
      rw [(habs hm.1 hm.2).1, (habs hm.1 hm.2).2]
      exact List.Perm.append_left s (List.Perm.swap b a [])
  · intro t
    simp only [CveContents_Get_eq, CveContents_Upsert_eq, Keyed.lookup_upsert]
    by_cases h1 : t = b.Type_
    · have h2 : ¬ t = a.Type_ := fun e => h (e.symm.trans h1)
      simp [h1, hba]
    · simp [h1]

/-- Instance of the amended C7: an NVD and a JVN record upserted into a store
that already has a JVN record. -/
theorem Upsert_order_independent_witness :
    (mkContent NVD (Float64.fin 7)).Type_ ≠ (mkContent JVN (Float64.fin 5)).Type_ ∧
    CveContents.Upsert (CveContents.Upsert [mkContent JVN (Float64.fin 2)]
        (mkContent NVD (Float64.fin 7))) (mkContent JVN (Float64.fin 5)) =
      CveContents.Upsert (CveContents.Upsert [mkContent JVN (Float64.fin 2)]
        (mkContent JVN (Float64.fin 5))) (mkContent NVD (Float64.fin 7)) :=
  ⟨by decide,
    (Upsert_order_independent [mkContent JVN (Float64.fin 2)]
      (mkContent NVD (Float64.fin 7)) (mkContent JVN (Float64.fin 5)) (by decide)).2.2.1
      (Or.inr (by decide))⟩

/-! ## Update and Delete -/

theorem Keyed.exists_first {α κ : Type} [DecidableEq κ] (key : α → κ)
    (l : List α) (k : κ) (h : k ∈ l.map key) :
    ∃ pre e post, l = pre ++ e :: post ∧ (∀ x ∈ pre, key x ≠ k) ∧ key e = k := by
  induction l with
  | nil => simp at h
  | cons x rest ih =>
    by_cases hx : key x = k
    · exact ⟨[], x, rest, rfl, by simp, hx⟩
    · have hr : k ∈ rest.map key := by
        simp only [List.map_cons, List.mem_cons] at h
        rcases h with e | m
        · exact absurd e.symm hx
        · exact m
      obtain ⟨pre, e, post, hl, hpre, he⟩ := ih hr
      refine ⟨x :: pre, e, post, by simp [hl], ?_, he⟩
      intro y hy
      simp only [List.mem_cons] at hy
      rcases hy with e | m
      · subst e; exact hx
      · exact hpre y m

theorem Keyed.update_of_first {α κ : Type} [DecidableEq κ] (key : α → κ)
    (pre : List α) (e : α) (post : List α) (a : α)
    (hpre : ∀ x ∈ pre, key x ≠ key a) (he : key e = key a) :
    Keyed.update key (pre ++ e :: post) a = (pre ++ a :: post, true) := by
  induction pre with
  | nil => simp [Keyed.update, he]
  | cons x rest ih =>
    have hx : ¬ key x = key a := hpre x (by simp)
    have hr : ∀ y ∈ rest, key y ≠ key a := fun y hy => hpre y (by simp [hy])
    simp [Keyed.update, hx, ih hr]

theorem Keyed.update_of_not_mem {α κ : Type} [DecidableEq κ] (key : α → κ)
    (l : List α) (a : α) (h : key a ∉ l.map key) : Keyed.update key l a = (l, false) := by
  have h1 := Keyed.update_fst_of_not_mem key l a h
  have h2 : (Keyed.update key l a).2 = false := by
    cases hb : (Keyed.update key l a).2
    · rfl
    · exact absurd ((Keyed.update_snd key l a).1 hb) h
  exact Prod.ext h1 h2

theorem Keyed.length_update {α κ : Type} [DecidableEq κ] (key : α → κ)
    (l : List α) (a : α) : (Keyed.update key l a).1.length = l.length := by
  induction l with
  | nil => rfl
  | cons x rest ih =>
    by_cases h : key x = key a
    · simp [Keyed.update, h]
    · simp [Keyed.update, h, ih]

theorem Keyed.delete_of_first {α κ : Type} [DecidableEq κ] (key : α → κ)
    (pre : List α) (e : α) (post : List α) (k : κ)
    (hpre : ∀ x ∈ pre, key x ≠ k) (he : key e = k) :
    Keyed.delete key (pre ++ e :: post) k = pre ++ post := by
  induction pre with
  | nil => simp [Keyed.delete, he]
  | cons x rest ih =>
    have hx : ¬ key x = k := hpre x (by simp)
    have hr : ∀ y ∈ rest, key y ≠ k := fun y hy => hpre y (by simp [hy])
    simp [Keyed.delete, hx, ih hr]

theorem Keyed.delete_of_not_mem {α κ : Type} [DecidableEq κ] (key : α → κ)
    (l : List α) (k : κ) (h : k ∉ l.map key) : Keyed.delete key l k = l := by
  induction l with
  | nil => rfl
  | cons x rest ih =>
    have hx : ¬ key x = k := fun e => h (by simp [e])
    have hr : k ∉ rest.map key := fun m => h (by simp at m ⊢; exact Or.inr m)
    simp [Keyed.delete, hx, ih hr]

theorem Keyed.not_mem_delete {α κ : Type} [DecidableEq κ] (key : α → κ)
    (l : List α) (k : κ) (h : (l.map key).Nodup) : k ∉ (Keyed.delete key l k).map key := by
  induction l with
  | nil => simp [Keyed.delete]
  | cons x rest ih =>
    rw [List.map_cons, List.nodup_cons] at h
    by_cases hx : key x = k
    · simp only [Keyed.delete, hx, if_true]
      exact hx ▸ h.1
    · simp only [Keyed.delete, hx, if_false, List.map_cons, List.mem_cons, not_or]
      exact ⟨fun e => hx e.symm, ih h.2⟩

theorem Keyed.lookup_eq_none {α κ : Type} [DecidableEq κ] (key : α → κ)
    (l : List α) (k : κ) (h : k ∉ l.map key) : Keyed.lookup key l k = none := by
  cases hl : Keyed.lookup key l k with
  | none => rfl
  | some a => exact absurd ((Keyed.lookup_isSome key l k).1 (by simp [hl])) h

theorem Keyed.mem_map_key_iff {α κ : Type} (key : α → κ) (l : List α) (k : κ) :
    k ∈ l.map key ↔ ∃ e ∈ l, key e = k := by
  simp [List.mem_map]

theorem VulnInfos.Get_snd_vulns (v : VulnInfos) (t : String) :
    (VulnInfos.Get v t).2 = true ↔ ∃ c ∈ v, c.CveID = t := by
  induction v with
  | nil => simp [VulnInfos.Get]
  | cons x rest ih =>
    by_cases h : x.CveID = t
    · simp [VulnInfos.Get, h]
    · simp [VulnInfos.Get, h, ih]

/-- C8: `VulnInfos.Update(v)` returns true exactly when some entry has the
`CveID` of `v`, which is when `Get` reports found; when it returns true the
first such entry is replaced by `v`, every other position and the length are
unchanged; when it returns false the set is unchanged.  `CveContents.Update`
behaves the same keyed by `Type`. -/
theorem Update_spec :
    (∀ (s : VulnInfos) (v : VulnInfo),
      ((VulnInfos.Update s v).2 = true ↔ ∃ e ∈ s, e.CveID = v.CveID) ∧
      (VulnInfos.Update s v).2 = (VulnInfos.Get s v.CveID).2 ∧
      ((VulnInfos.Update s v).2 = true →
        ∃ pre e post, s = pre ++ e :: post ∧ (∀ x ∈ pre, x.CveID ≠ v.CveID) ∧
          e.CveID = v.CveID ∧ (VulnInfos.Update s v).1 = pre ++ v :: post) ∧
      ((VulnInfos.Update s v).2 = false → (VulnInfos.Update s v).1 = s) ∧
      (VulnInfos.Update s v).1.length = s.length) ∧
    (∀ (s : CveContents) (c : CveContent),
      ((CveContents.Update s c).2 = true ↔ ∃ e ∈ s, e.Type_ = c.Type_) ∧
      (CveContents.Update s c).2 = (CveContents.Get s c.Type_).2 ∧
      ((CveContents.Update s c).2 = true →
        ∃ pre e post, s = pre ++ e :: post ∧ (∀ x ∈ pre, x.Type_ ≠ c.Type_) ∧
          e.Type_ = c.Type_ ∧ (CveContents.Update s c).1 = pre ++ c :: post) ∧
      ((CveContents.Update s c).2 = false → (CveContents.Update s c).1 = s) ∧
      (CveContents.Update s c).1.length = s.length) := by
  constructor
  · intro s v
    have hiff : (VulnInfos.Update s v).2 = true ↔ ∃ e ∈ s, e.CveID = v.CveID := by
      rw [VulnInfos_Update_eq, Keyed.update_snd, Keyed.mem_map_key_iff]
    refine ⟨hiff, ?_, ?_, ?_, ?_⟩
    · rw [Bool.eq_iff_iff, hiff, VulnInfos.Get_snd_vulns]
    · intro h
      rw [VulnInfos_Update_eq, Keyed.update_snd] at h
      obtain ⟨pre, e, post, hl, hpre, he⟩ :=
        Keyed.exists_first (fun c : VulnInfo => c.CveID) s v.CveID h
      refine ⟨pre, e, post, hl, hpre, he, ?_⟩
      rw [VulnInfos_Update_eq, hl, Keyed.update_of_first _ pre e post v hpre he]
    · intro h
      have hn : v.CveID ∉ s.map (fun c : VulnInfo => c.CveID) := by
        intro hm
        rw [VulnInfos_Update_eq, (Keyed.update_snd _ s v).2 hm] at h
        exact Bool.noConfusion h
      rw [VulnInfos_Update_eq, Keyed.update_of_not_mem _ s v hn]
    · rw [VulnInfos_Update_eq, Keyed.length_update]
  · intro s c
    have hiff : (CveContents.Update s c).2 = true ↔ ∃ e ∈ s, e.Type_ = c.Type_ := by
      rw [CveContents_Update_eq, Keyed.update_snd, Keyed.mem_map_key_iff]
    refine ⟨hiff, ?_, ?_, ?_, ?_⟩
    · rw [Bool.eq_iff_iff, hiff, CveContents.Get_snd]
    · intro h
      rw [CveContents_Update_eq, Keyed.update_snd] at h
      obtain ⟨pre, e, post, hl, hpre, he⟩ :=
        Keyed.exists_first (fun c : CveContent => c.Type_) s c.Type_ h
      refine ⟨pre, e, post, hl, hpre, he, ?_⟩
      rw [CveContents_Update_eq, hl, Keyed.update_of_first _ pre e post c hpre he]
    · intro h
      have hn : c.Type_ ∉ s.map (fun c : CveContent => c.Type_) := by
        intro hm
        rw [CveContents_Update_eq, (Keyed.update_snd _ s c).2 hm] at h
        exact Bool.noConfusion h
      rw [CveContents_Update_eq, Keyed.update_of_not_mem _ s c hn]
    · rw [CveContents_Update_eq, Keyed.length_update]

/-- Instance of C8: updating the second of two vulnerabilities. -/
theorem Update_spec_witness :
    (VulnInfos.Update [mkVuln "CVE-2021-0001" [], mkVuln "CVE-2021-0002" []]
      (mkVuln "CVE-2021-0002" [mkContent NVD (Float64.fin 7)])).2 = true ∧
    ∃ pre e post,
      [mkVuln "CVE-2021-0001" [], mkVuln "CVE-2021-0002" []] = pre ++ e :: post ∧
      (∀ x ∈ pre, x.CveID ≠ (mkVuln "CVE-2021-0002" [mkContent NVD (Float64.fin 7)]).CveID) ∧
      e.CveID = (mkVuln "CVE-2021-0002" [mkContent NVD (Float64.fin 7)]).CveID ∧
      (VulnInfos.Update [mkVuln "CVE-2021-0001" [], mkVuln "CVE-2021-0002" []]
        (mkVuln "CVE-2021-0002" [mkContent NVD (Float64.fin 7)])).1 =
        pre ++ mkVuln "CVE-2021-0002" [mkContent NVD (Float64.fin 7)] :: post :=
  ⟨by decide,
    (Update_spec.1 [mkVuln "CVE-2021-0001" [], mkVuln "CVE-2021-0002" []]
      (mkVuln "CVE-2021-0002" [mkContent NVD (Float64.fin 7)])).2.2.1 (by decide)⟩

/-- C9: `VulnInfos.Delete(cveID)` removes exactly the first entry whose `CveID`
is `cveID`, keeping all other entries in order (the length decreases by one),
and leaves the set unchanged when no entry has that `CveID`; when the `CveID`s
of the set are unique, `Get(cveID)` reports not-found after the deletion.
`CveContents.Delete` behaves the same keyed by `Type`. -/
theorem Delete_spec :
    (∀ (s : VulnInfos) (k : String),
      ((∃ e ∈ s, e.CveID = k) →
        ∃ pre e post, s = pre ++ e :: post ∧ (∀ x ∈ pre, x.CveID ≠ k) ∧ e.CveID = k ∧
          VulnInfos.Delete s k = pre ++ post ∧ (VulnInfos.Delete s k).length + 1 = s.length) ∧
      ((∀ e ∈ s, e.CveID ≠ k) → VulnInfos.Delete s k = s) ∧
      ((s.map (fun x => x.CveID)).Nodup → (VulnInfos.Get (VulnInfos.Delete s k) k).2 = false)) ∧
    (∀ (s : CveContents) (k : CveContentType),
      ((∃ e ∈ s, e.Type_ = k) →
        ∃ pre e post, s = pre ++ e :: post ∧ (∀ x ∈ pre, x.Type_ ≠ k) ∧ e.Type_ = k ∧
          CveContents.Delete s k = pre ++ post ∧
          (CveContents.Delete s k).length + 1 = s.length) ∧
      ((∀ e ∈ s, e.Type_ ≠ k) → CveContents.Delete s k = s) ∧
      ((s.map (fun x => x.Type_)).Nodup →
        (CveContents.Get (CveContents.Delete s k) k).2 = false)) := by
  constructor
  · intro s k
    refine ⟨?_, ?_, ?_⟩
    · intro h
      obtain ⟨pre, e, post, hl, hpre, he⟩ :=
        Keyed.exists_first (fun c : VulnInfo => c.CveID) s k
          ((Keyed.mem_map_key_iff _ s k).2 h)
      have hd : VulnInfos.Delete s k = pre ++ post := by
        rw [VulnInfos_Delete_eq, hl, Keyed.delete_of_first _ pre e post k hpre he]
      refine ⟨pre, e, post, hl, hpre, he, hd, ?_⟩
      rw [hd, hl]
      simp only [List.length_append, List.length_cons]
      omega
    · intro h
      rw [VulnInfos_Delete_eq]
      refine Keyed.delete_of_not_mem _ s k ?_
      intro hm
      obtain ⟨e, he, hk⟩ := (Keyed.mem_map_key_iff _ s k).1 hm
      exact h e he hk
    · intro h
      rw [VulnInfos_Get_eq, VulnInfos_Delete_eq,
        Keyed.lookup_eq_none _ _ k (Keyed.not_mem_delete _ s k h)]
  · intro s k
    refine ⟨?_, ?_, ?_⟩
    · intro h
      obtain ⟨pre, e, post, hl, hpre, he⟩ :=
        Keyed.exists_first (fun c : CveContent => c.Type_) s k
          ((Keyed.mem_map_key_iff _ s k).2 h)
      have hd : CveContents.Delete s k = pre ++ post := by
        rw [CveContents_Delete_eq, hl, Keyed.delete_of_first _ pre e post k hpre he]
      refine ⟨pre, e, post, hl, hpre, he, hd, ?_⟩
      rw [hd, hl]
      simp only [List.length_append, List.length_cons]
      omega
    · intro h
      rw [CveContents_Delete_eq]
      refine Keyed.delete_of_not_mem _ s k ?_
      intro hm
      obtain ⟨e, he, hk⟩ := (Keyed.mem_map_key_iff _ s k).1 hm
      exact h e he hk
    · intro h
      rw [CveContents_Get_eq, CveContents_Delete_eq,
        Keyed.lookup_eq_none _ _ k (Keyed.not_mem_delete _ s k h)]

/-- Instance of C9: deleting from a set of two vulnerabilities with distinct
identifiers. -/
theorem Delete_spec_witness :
    ([mkVuln "CVE-2021-0001" [], mkVuln "CVE-2021-0002" []].map (fun x => x.CveID)).Nodup ∧
    (VulnInfos.Get
      (VulnInfos.Delete [mkVuln "CVE-2021-0001" [], mkVuln "CVE-2021-0002" []]
        "CVE-2021-0002") "CVE-2021-0002").2 = false :=
  ⟨by decide,
    (Delete_spec.1 [mkVuln "CVE-2021-0001" [], mkVuln "CVE-2021-0002" []]
      "CVE-2021-0002").2.2 (by decide)⟩

/-! ## Severity filter -/

theorem foldl_append_eq_filter {α : Type} (p : α → Bool) (l : List α) (init : List α) :
    l.foldl (fun acc x => if p x then acc ++ [x] else acc) init = init ++ l.filter p := by
  induction l generalizing init with
  | nil => simp
  | cons x rest ih =>
    simp only [List.foldl_cons, List.filter_cons]
    cases hp : p x
    · simp only [Bool.false_eq_true, if_false]
      exact ih _
    · simp only [if_true]
      rw [ih]
      simp

/-- C10: `FilterByCvssOver` returns a scan result whose `ScannedCves` is the
sub-list of `r.ScannedCves`, in the original order, of the vulnerabilities
whose `CvssV2Score()` is at least the effective threshold (the configured
threshold, or `-1.1` when the configured threshold is `0`), and whose other
fields are those of `r`. -/
theorem FilterByCvssOver_spec (conf : Config) (r : ScanResult) :
    (FilterByCvssOver conf r).1.ScannedCves =
      r.ScannedCves.filter (fun sc =>
        Float64.le
          (if Float64.eq conf.CvssScoreOver (Float64.fin 0) then negOnePointOne
            else conf.CvssScoreOver)
          (CveContents.CvssV2Score sc.CveContents)) ∧
    List.Sublist (FilterByCvssOver conf r).1.ScannedCves r.ScannedCves ∧
    (FilterByCvssOver conf r).1.ScannedAt = r.ScannedAt ∧
    (FilterByCvssOver conf r).1.ServerName = r.ServerName ∧
    (FilterByCvssOver conf r).1.Family = r.Family ∧
    (FilterByCvssOver conf r).1.Release = r.Release ∧
    (FilterByCvssOver conf r).1.Container = r.Container ∧
    (FilterByCvssOver conf r).1.Platform = r.Platform ∧
    (FilterByCvssOver conf r).1.Packages = r.Packages ∧
    (FilterByCvssOver conf r).1.Errors = r.Errors ∧
    (FilterByCvssOver conf r).1.Optional = r.Optional ∧
    (FilterByCvssOver conf r).1.Lang = r.Lang := by
  have hcves : (FilterByCvssOver conf r).1.ScannedCves =
      r.ScannedCves.filter (fun sc =>
        Float64.le
          (if Float64.eq conf.CvssScoreOver (Float64.fin 0) then negOnePointOne
            else conf.CvssScoreOver)
          (CveContents.CvssV2Score sc.CveContents)) := by
    simp only [FilterByCvssOver]
    rw [foldl_append_eq_filter]
    cases h : Float64.eq conf.CvssScoreOver (Float64.fin 0) <;> simp
  refine ⟨hcves, ?_, rfl, rfl, rfl, rfl, rfl, rfl, rfl, rfl, rfl, rfl⟩
  rw [hcves]
  exact List.filter_sublist _

/-! ## Severity filter: unset threshold and monotonicity -/

theorem Float64.eq_zero_iff (t : Float64) :
    Float64.eq t (Float64.fin 0) = true ↔ t = Float64.fin 0 := by
  cases t <;> simp [Float64.eq]

theorem Float64.le_trans_bool (a b c : Float64)
    (hab : Float64.le a b = true) (hbc : Float64.le b c = true) : Float64.le a c = true := by
  cases a <;> cases b <;> cases c <;> simp [Float64.le] at hab hbc ⊢
  exact le_trans hab hbc

theorem negOnePointOne_le_of_neg_one_le (q : ℚ) (h : -1 ≤ q) :
    Float64.le negOnePointOne (Float64.fin q) = true := by
  simp only [negOnePointOne, Float64.le, decide_eq_true_eq]
  refine le_trans ?_ h
  norm_num

theorem FilterByCvssOver_cves (conf : Config) (r : ScanResult) :
    (FilterByCvssOver conf r).1.ScannedCves =
      r.ScannedCves.filter (fun sc =>
        Float64.le
          (if Float64.eq conf.CvssScoreOver (Float64.fin 0) then negOnePointOne
            else conf.CvssScoreOver)
          (CveContents.CvssV2Score sc.CveContents)) := by
  simp only [FilterByCvssOver]
  rw [foldl_append_eq_filter]
  cases h : Float64.eq conf.CvssScoreOver (Float64.fin 0) <;> simp

theorem CvssV2Score_of_unscored (v : CveContents)
    (h : ∀ c ∈ v, c.Type_ ≠ NVD ∧ c.Type_ ≠ JVN ∧ c.Type_ ≠ RedHat) :
    CveContents.CvssV2Score v = Float64.fin (-1) := by
  have h1 : ¬ (CveContents.Get v NVD).2 = true := fun e =>
    let ⟨c, hc, ec⟩ := (CveContents.Get_snd v NVD).1 e
    (h c hc).1 ec
  have h2 : ¬ (CveContents.Get v JVN).2 = true := fun e =>
    let ⟨c, hc, ec⟩ := (CveContents.Get_snd v JVN).1 e
    (h c hc).2.1 ec
  have h3 : ¬ (CveContents.Get v RedHat).2 = true := fun e =>
    let ⟨c, hc, ec⟩ := (CveContents.Get_snd v RedHat).1 e
    (h c hc).2.2 ec
  unfold CveContents.CvssV2Score
  rw [if_neg h1, if_neg h2, if_neg h3]

/-- C11, as stated, fails: with the threshold unset the filter still compares
every score with `-1.1`, so a vulnerability whose NVD record has the score `-2`
is dropped. -/
theorem unset_threshold_drops_low_score :
    Float64.eq (Float64.fin 0) (Float64.fin 0) = true ∧
    (FilterByCvssOver ⟨Float64.fin 0, false⟩
      (mkScanResult [mkVuln "CVE-2021-0001" [mkContent NVD (Float64.fin (-2))]])).1.ScannedCves
      = [] ∧
    (FilterByCvssOver ⟨Float64.fin 0, false⟩
      (mkScanResult [mkVuln "CVE-2021-0001" [mkContent NVD (Float64.fin (-2))]])).1.ScannedCves
      ≠ (mkScanResult [mkVuln "CVE-2021-0001" [mkContent NVD (Float64.fin (-2))]]).ScannedCves := by
  refine ⟨by decide, ?_, ?_⟩ <;> decide!

/-- C11, amended: when the configured threshold is unset (`CvssScoreOver` is
`0`), `FilterByCvssOver` keeps exactly the vulnerabilities whose
`CvssV2Score()` is at least `-1.1`; so the returned `ScannedCves` equals
`r.ScannedCves` for every `r` all of whose vulnerabilities have a score of at
least `-1.1`.  Every finite score from `-1` upwards qualifies, and so does
every unscored vulnerability, whose score is the `-1` sentinel. -/
theorem FilterByCvssOver_unset (conf : Config) (r : ScanResult)
    (h0 : Float64.eq conf.CvssScoreOver (Float64.fin 0) = true) :
    (FilterByCvssOver conf r).1.ScannedCves =
      r.ScannedCves.filter (fun sc =>
        Float64.le negOnePointOne (CveContents.CvssV2Score sc.CveContents)) ∧
    ((∀ sc ∈ r.ScannedCves,
        Float64.le negOnePointOne (CveContents.CvssV2Score sc.CveContents) = true) →
      (FilterByCvssOver conf r).1.ScannedCves = r.ScannedCves) ∧
    (∀ q : ℚ, -1 ≤ q → Float64.le negOnePointOne (Float64.fin q) = true) ∧
    (∀ sc : VulnInfo,
      (∀ c ∈ sc.CveContents, c.Type_ ≠ NVD ∧ c.Type_ ≠ JVN ∧ c.Type_ ≠ RedHat) →
      Float64.le negOnePointOne (CveContents.CvssV2Score sc.CveContents) = true) := by
  have hf : (FilterByCvssOver conf r).1.ScannedCves =
      r.ScannedCves.filter (fun sc =>
        Float64.le negOnePointOne (CveContents.CvssV2Score sc.CveContents)) := by
    rw [FilterByCvssOver_cves, h0]
    simp
  refine ⟨hf, ?_, negOnePointOne_le_of_neg_one_le, ?_⟩
  · intro h
    rw [hf, List.filter_eq_self]
    exact h
  · intro sc h
    rw [CvssV2Score_of_unscored sc.CveContents h]
    exact negOnePointOne_le_of_neg_one_le (-1) (le_refl _)

/-- Instance of the amended C11: an unscored vulnerability and one with the
NVD score 7 pass the filter with the threshold unset. -/
theorem FilterByCvssOver_unset_witness :
    (FilterByCvssOver ⟨Float64.fin 0, false⟩
      (mkScanResult [mkVuln "CVE-2021-0001" [],
        mkVuln "CVE-2021-0002" [mkContent NVD (Float64.fin 7)]])).1.ScannedCves =
      (mkScanResult [mkVuln "CVE-2021-0001" [],
        mkVuln "CVE-2021-0002" [mkContent NVD (Float64.fin 7)]]).ScannedCves :=
  (FilterByCvssOver_unset ⟨Float64.fin 0, false⟩
    (mkScanResult [mkVuln "CVE-2021-0001" [],
      mkVuln "CVE-2021-0002" [mkContent NVD (Float64.fin 7)]]) (by decide)).2.1
    (by decide!)

/-- C12, as stated, fails: with `t1 = 0` (unset, so `-1.1` in effect) and
`t2 = -0.5`, filtering by `t2` first drops an unscored vulnerability (score
`-1`) that filtering by `t1` alone keeps. -/
theorem FilterByCvssOver_not_monotone :
    Float64.le (Float64.fin (-1 / 2)) (Float64.fin 0) = true ∧
    (FilterByCvssOver ⟨Float64.fin 0, false⟩
      (FilterByCvssOver ⟨Float64.fin (-1 / 2), false⟩
        (mkScanResult [mkVuln "CVE-2021-0001" []])).1).1.ScannedCves = [] ∧
    (FilterByCvssOver ⟨Float64.fin 0, false⟩
      (mkScanResult [mkVuln "CVE-2021-0001" []])).1.ScannedCves =
      [mkVuln "CVE-2021-0001" []] := by
  refine ⟨?_, ?_, ?_⟩ <;> decide!

/-- C12, amended: for all thresholds `t1 >= t2`, except when `t1` is `0`
(unset, `-1.1` in effect) and `t2` lies strictly between `-1.1` and `0`,
running `FilterByCvssOver` with threshold `t1` on the result of running it with
threshold `t2` on `r` yields the vulnerability list of running it with
threshold `t1` directly on `r`. -/
theorem FilterByCvssOver_monotone (c1 c2 : Config) (r : ScanResult)
    (h : Float64.le c2.CvssScoreOver c1.CvssScoreOver = true)
    (hx : ¬ (Float64.eq c1.CvssScoreOver (Float64.fin 0) = true ∧
      Float64.lt negOnePointOne c2.CvssScoreOver = true ∧
      Float64.lt c2.CvssScoreOver (Float64.fin 0) = true)) :
    (FilterByCvssOver c1 (FilterByCvssOver c2 r).1).1.ScannedCves =
      (FilterByCvssOver c1 r).1.ScannedCves := by
  have heff : Float64.le
      (if Float64.eq c2.CvssScoreOver (Float64.fin 0) then negOnePointOne
        else c2.CvssScoreOver)
      (if Float64.eq c1.CvssScoreOver (Float64.fin 0) then negOnePointOne
        else c1.CvssScoreOver) = true := by
    by_cases h1 : Float64.eq c1.CvssScoreOver (Float64.fin 0) = true
    · by_cases h2 : Float64.eq c2.CvssScoreOver (Float64.fin 0) = true
      · rw [if_pos h1, if_pos h2]
        simp [negOnePointOne, Float64.le]
      · rw [if_pos h1, if_neg h2]
        have e1 := (Float64.eq_zero_iff _).1 h1
        rw [e1] at h
        have hx' : ¬ (Float64.lt negOnePointOne c2.CvssScoreOver = true ∧
            Float64.lt c2.CvssScoreOver (Float64.fin 0) = true) := fun hh => hx ⟨h1, hh⟩
        revert h h2 hx'
        cases c2.CvssScoreOver with
        | nan => simp [Float64.le]
        | negInf => simp [Float64.le, negOnePointOne]
        | posInf => simp [Float64.le]
        | fin q =>
          simp only [Float64.le, Float64.lt, Float64.eq, negOnePointOne, decide_eq_true_eq]
          intro hq hne hnot
          have hlt : q < 0 := lt_of_le_of_ne hq hne
          by_contra hc
          exact hnot ⟨lt_of_not_le hc, hlt⟩
    · by_cases h2 : Float64.eq c2.CvssScoreOver (Float64.fin 0) = true
      · rw [if_neg h1, if_pos h2]
        have e2 := (Float64.eq_zero_iff _).1 h2
        rw [e2] at h
        revert h
        cases c1.CvssScoreOver with
        | nan => simp [Float64.le]
        | negInf => simp [Float64.le]
        | posInf => simp [Float64.le, negOnePointOne]
        | fin q =>
          simp only [Float64.le, negOnePointOne, decide_eq_true_eq]
          intro hq
          refine le_trans ?_ hq
          norm_num
      · rw [if_neg h1, if_neg h2]
        exact h
  rw [FilterByCvssOver_cves, FilterByCvssOver_cves, FilterByCvssOver_cves, List.filter_filter]
  apply List.filter_congr
  intro sc _
  cases h1 : Float64.le
      (if Float64.eq c1.CvssScoreOver (Float64.fin 0) then negOnePointOne
        else c1.CvssScoreOver) (CveContents.CvssV2Score sc.CveContents)
  · simp
  · simp [Float64.le_trans_bool _ _ _ heff h1]

/-- Instance of the amended C12: thresholds 7 and 4 on a result with scores 5
and 9. -/
theorem FilterByCvssOver_monotone_witness :
    (FilterByCvssOver ⟨Float64.fin 7, false⟩
      (FilterByCvssOver ⟨Float64.fin 4, false⟩
        (mkScanResult [mkVuln "CVE-2021-0001" [mkContent JVN (Float64.fin 5)],
          mkVuln "CVE-2021-0002" [mkContent NVD (Float64.fin 9)]])).1).1.ScannedCves =
      (FilterByCvssOver ⟨Float64.fin 7, false⟩
        (mkScanResult [mkVuln "CVE-2021-0001" [mkContent JVN (Float64.fin 5)],
          mkVuln "CVE-2021-0002" [mkContent NVD (Float64.fin 9)]])).1.ScannedCves :=
  FilterByCvssOver_monotone ⟨Float64.fin 7, false⟩ ⟨Float64.fin 4, false⟩ _
    (by decide) (by decide)

/-! ## Severity summary -/

/-- The score that `CveSummary` reads for one vulnerability. -/
theorem tallyStep_eq (t : Tally) (v : VulnInfo) :
    tallyStep t v =
      ⟨t.high + (if Float64.le (Float64.fin 7) (CveContents.CvssV2Score v.CveContents)
          then 1 else 0),
        t.medium + (if (Float64.le (Float64.fin 4) (CveContents.CvssV2Score v.CveContents) &&
          Float64.lt (CveContents.CvssV2Score v.CveContents) (Float64.fin 7)) then 1 else 0),
        t.low + (if (Float64.lt (Float64.fin 0) (CveContents.CvssV2Score v.CveContents) &&
          Float64.lt (CveContents.CvssV2Score v.CveContents) (Float64.fin 4)) then 1 else 0),
        t.unknown + (if (!Float64.lt (Float64.fin 0) (CveContents.CvssV2Score v.CveContents))
          then 1 else 0)⟩ := by
  unfold tallyStep
  cases CveContents.CvssV2Score v.CveContents with
  | nan => simp [Float64.le, Float64.lt]
  | negInf => simp [Float64.le, Float64.lt]
  | posInf => simp [Float64.le, Float64.lt]
  | fin q =>
    simp only [Float64.le, Float64.lt, decide_eq_true_eq, Bool.and_eq_true, Bool.not_eq_true,
      Bool.not_eq_true', decide_eq_false_iff_not]
    by_cases h7 : (7 : ℚ) ≤ q
    · have h4 : (4 : ℚ) ≤ q := by linarith
      have h0 : (0 : ℚ) < q := by linarith
      have n7 : ¬ q < 7 := by linarith
      have n4 : ¬ q < 4 := by linarith
      simp [h7, h4, h0, n7, n4]
    · have l7 : q < 7 := lt_of_not_le h7
      by_cases h4 : (4 : ℚ) ≤ q
      · have h0 : (0 : ℚ) < q := by linarith
        have n4 : ¬ q < 4 := by linarith
        simp [h7, h4, h0, l7, n4]
      · have l4 : q < 4 := lt_of_not_le h4
        by_cases h0 : (0 : ℚ) < q
        · simp [h7, h4, h0, l7, l4]
        · simp [h7, h4, h0, l7, l4]

theorem foldl_tallyStep (l : VulnInfos) (t : Tally) :
    l.foldl tallyStep t =
      ⟨t.high + l.countP (fun v =>
          Float64.le (Float64.fin 7) (CveContents.CvssV2Score v.CveContents)),
        t.medium + l.countP (fun v =>
          Float64.le (Float64.fin 4) (CveContents.CvssV2Score v.CveContents) &&
          Float64.lt (CveContents.CvssV2Score v.CveContents) (Float64.fin 7)),
        t.low + l.countP (fun v =>
          Float64.lt (Float64.fin 0) (CveContents.CvssV2Score v.CveContents) &&
          Float64.lt (CveContents.CvssV2Score v.CveContents) (Float64.fin 4)),
        t.unknown + l.countP (fun v =>
          !Float64.lt (Float64.fin 0) (CveContents.CvssV2Score v.CveContents))⟩ := by
  induction l generalizing t with
  | nil => simp
  | cons v rest ih =>
    rw [List.foldl_cons, ih, tallyStep_eq]
    simp only [List.countP_cons, Tally.mk.injEq]
    refine ⟨?_, ?_, ?_, ?_⟩ <;> omega

theorem tallyStep_sum (t : Tally) (v : VulnInfo) :
    (tallyStep t v).high + (tallyStep t v).medium + (tallyStep t v).low +
      (tallyStep t v).unknown = t.high + t.medium + t.low + t.unknown + 1 := by
  unfold tallyStep
  simp only []
  split_ifs <;> simp only [] <;> omega

theorem foldl_tallyStep_sum (l : VulnInfos) (t : Tally) :
    (l.foldl tallyStep t).high + (l.foldl tallyStep t).medium + (l.foldl tallyStep t).low +
      (l.foldl tallyStep t).unknown = t.high + t.medium + t.low + t.unknown + l.length := by
  induction l generalizing t with
  | nil => simp
  | cons v rest ih =>
    rw [List.foldl_cons, ih, tallyStep_sum, List.length_cons]
    omega

/-- C13: `CveSummary` puts each vulnerability in exactly one bucket by its
`CvssV2Score` `s`: high when `s >= 7`, medium when `4 <= s < 7`, low when
`0 < s < 4`, unknown when `s <= 0` (the unknown bucket is everything that is
not `0 < s`); the four counts sum to the number of vulnerabilities; the
rendered total is `high+medium+low+unknown` when `IgnoreUnscoredCves` is false,
and `high+medium+low`, without the unknown count, when it is true. -/
theorem CveSummary_spec :
    (∀ (t : Tally) (v : VulnInfo),
      (Float64.le (Float64.fin 7) (CveContents.CvssV2Score v.CveContents) = true →
        tallyStep t v = { t with high := t.high + 1 }) ∧
      (Float64.le (Float64.fin 4) (CveContents.CvssV2Score v.CveContents) = true →
        Float64.lt (CveContents.CvssV2Score v.CveContents) (Float64.fin 7) = true →
        tallyStep t v = { t with medium := t.medium + 1 }) ∧
      (Float64.lt (Float64.fin 0) (CveContents.CvssV2Score v.CveContents) = true →
        Float64.lt (CveContents.CvssV2Score v.CveContents) (Float64.fin 4) = true →
        tallyStep t v = { t with low := t.low + 1 }) ∧
      (Float64.le (CveContents.CvssV2Score v.CveContents) (Float64.fin 0) = true →
        tallyStep t v = { t with unknown := t.unknown + 1 })) ∧
    (∀ r : ScanResult,
      (cveTally r).high = r.ScannedCves.countP (fun v =>
        Float64.le (Float64.fin 7) (CveContents.CvssV2Score v.CveContents)) ∧
      (cveTally r).medium = r.ScannedCves.countP (fun v =>
        Float64.le (Float64.fin 4) (CveContents.CvssV2Score v.CveContents) &&
        Float64.lt (CveContents.CvssV2Score v.CveContents) (Float64.fin 7)) ∧
      (cveTally r).low = r.ScannedCves.countP (fun v =>
        Float64.lt (Float64.fin 0) (CveContents.CvssV2Score v.CveContents) &&
        Float64.lt (CveContents.CvssV2Score v.CveContents) (Float64.fin 4)) ∧
      (cveTally r).unknown = r.ScannedCves.countP (fun v =>
        !Float64.lt (Float64.fin 0) (CveContents.CvssV2Score v.CveContents)) ∧
      (cveTally r).high + (cveTally r).medium + (cveTally r).low + (cveTally r).unknown =
        r.ScannedCves.length) ∧
    (∀ (conf : Config) (r : ScanResult), conf.IgnoreUnscoredCves = false →
      CveSummary conf r =
        "Total: " ++
          fmtInt ((cveTally r).high + (cveTally r).medium + (cveTally r).low +
            (cveTally r).unknown) ++
          " (High:" ++ fmtInt (cveTally r).high ++ " Medium:" ++ fmtInt (cveTally r).medium ++
          " Low:" ++ fmtInt (cveTally r).low ++ " ?:" ++ fmtInt (cveTally r).unknown ++ ")") ∧
    (∀ (conf : Config) (r : ScanResult), conf.IgnoreUnscoredCves = true →
      CveSummary conf r =
        "Total: " ++ fmtInt ((cveTally r).high + (cveTally r).medium + (cveTally r).low) ++
          " (High:" ++ fmtInt (cveTally r).high ++ " Medium:" ++ fmtInt (cveTally r).medium ++
          " Low:" ++ fmtInt (cveTally r).low ++ ")") := by
  refine ⟨?_, ?_, ?_, ?_⟩
  · intro t v
    unfold tallyStep
    simp only []
    generalize CveContents.CvssV2Score v.CveContents = s
    cases s with
    | nan => simp [Float64.le, Float64.lt]
    | negInf => simp [Float64.le, Float64.lt]
    | posInf => simp [Float64.le, Float64.lt]
    | fin q =>
      simp only [Float64.le, Float64.lt, decide_eq_true_eq]
      refine ⟨?_, ?_, ?_, ?_⟩
      · intro h7
        rw [if_pos h7]
      · intro h4 l7
        rw [if_neg (not_le.2 l7), if_pos h4]
      · intro h0 l4
        have n7 : ¬ (7 : ℚ) ≤ q := by linarith
        rw [if_neg n7, if_neg (not_le.2 l4), if_pos h0]
      · intro hle
        have n7 : ¬ (7 : ℚ) ≤ q := by linarith
        have n4 : ¬ (4 : ℚ) ≤ q := by linarith
        rw [if_neg n7, if_neg n4, if_neg (not_lt.2 hle)]
  · intro r
    have h := foldl_tallyStep r.ScannedCves ⟨0, 0, 0, 0⟩
    have hs := foldl_tallyStep_sum r.ScannedCves ⟨0, 0, 0, 0⟩
    unfold cveTally
    refine ⟨?_, ?_, ?_, ?_, ?_⟩
    · rw [h]; simp
    · rw [h]; simp
    · rw [h]; simp
    · rw [h]; simp
    · rw [hs]; simp
  · intro conf r h
    simp [CveSummary, h]
  · intro conf r h
    simp [CveSummary, h]

/-- Instance of C13: a vulnerability whose NVD record has the score 9 is
counted as high. -/
theorem CveSummary_spec_witness :
    Float64.le (Float64.fin 7)
      (CveContents.CvssV2Score
        (mkVuln "CVE-2021-0001" [mkContent NVD (Float64.fin 9)]).CveContents) = true ∧
    tallyStep ⟨0, 0, 0, 0⟩ (mkVuln "CVE-2021-0001" [mkContent NVD (Float64.fin 9)]) =
      ⟨1, 0, 0, 0⟩ :=
  ⟨by decide,
    (CveSummary_spec.1 ⟨0, 0, 0, 0⟩
      (mkVuln "CVE-2021-0001" [mkContent NVD (Float64.fin 9)])).1 (by decide)⟩

/-! ## Keyed lists: folds of upserts -/

theorem Keyed.mem_upsert {α κ : Type} [DecidableEq κ] (key : α → κ)
    (l : List α) (a x : α) (h : x ∈ Keyed.upsert key l a) : x = a ∨ x ∈ l := by
  induction l with
  | nil =>
    simp only [Keyed.upsert, List.mem_singleton] at h
    exact Or.inl h
  | cons y rest ih =>
    by_cases hy : key y = key a
    · simp only [Keyed.upsert, hy, if_true, List.mem_cons] at h
      rcases h with h | h
      · exact Or.inl h
      · exact Or.inr (List.mem_cons_of_mem _ h)
    · simp only [Keyed.upsert, hy, if_false, List.mem_cons] at h
      rcases h with h | h
      · exact Or.inr (by simp [h])
      · rcases ih h with h | h
        · exact Or.inl h
        · exact Or.inr (List.mem_cons_of_mem _ h)

theorem Keyed.mem_foldl_upsert {α κ : Type} [DecidableEq κ] (key : α → κ)
    (seq : List α) (l : List α) (x : α) (h : x ∈ seq.foldl (Keyed.upsert key) l) :
    x ∈ l ∨ x ∈ seq := by
  induction seq generalizing l with
  | nil => exact Or.inl h
  | cons d rest ih =>
    rw [List.foldl_cons] at h
    rcases ih _ h with h | h
    · rcases Keyed.mem_upsert key l d x h with h | h
      · exact Or.inr (by simp [h])
      · exact Or.inl h
    · exact Or.inr (List.mem_cons_of_mem _ h)

theorem Keyed.mem_map_key_foldl_iff {α κ : Type} [DecidableEq κ] (key : α → κ)
    (seq : List α) (l : List α) (k : κ) :
    k ∈ (seq.foldl (Keyed.upsert key) l).map key ↔ k ∈ l.map key ∨ k ∈ seq.map key := by
  induction seq generalizing l with
  | nil => simp
  | cons d rest ih =>
    rw [List.foldl_cons, ih, Keyed.mem_map_key_upsert, List.map_cons, List.mem_cons]
    constructor
    · rintro ((h | h) | h)
      · exact Or.inr (Or.inl h)
      · exact Or.inl h
      · exact Or.inr (Or.inr h)
    · rintro (h | h | h)
      · exact Or.inl (Or.inr h)
      · exact Or.inl (Or.inl h)
      · exact Or.inr h

theorem Keyed.nodup_foldl_upsert {α κ : Type} [DecidableEq κ] (key : α → κ)
    (seq : List α) (l : List α) (h : (l.map key).Nodup) :
    ((seq.foldl (Keyed.upsert key) l).map key).Nodup := by
  induction seq generalizing l with
  | nil => exact h
  | cons d rest ih =>
    rw [List.foldl_cons]
    exact ih _ (Keyed.nodup_upsert key l d h)

/-- After a fold of upserts, lookup at a key finds the last record of the
sequence with that key. -/
theorem Keyed.lookup_foldl_upsert_last {α κ : Type} [DecidableEq κ] (key : α → κ)
    (pre : List α) (a : α) (post : List α) (l : List α)
    (h : key a ∉ post.map key) :
    Keyed.lookup key ((pre ++ a :: post).foldl (Keyed.upsert key) l) (key a) = some a := by
  rw [List.foldl_append, List.foldl_cons,
    Keyed.lookup_foldl_upsert_of_not_mem key post _ _ h, Keyed.lookup_upsert, if_pos rfl]

theorem Keyed.exists_last {α κ : Type} [DecidableEq κ] (key : α → κ)
    (l : List α) (k : κ) (h : k ∈ l.map key) :
    ∃ pre e post, l = pre ++ e :: post ∧ (∀ x ∈ post, key x ≠ k) ∧ key e = k := by
  induction l with
  | nil => simp at h
  | cons x rest ih =>
    by_cases hr : k ∈ rest.map key
    · obtain ⟨pre, e, post, hl, hpost, he⟩ := ih hr
      exact ⟨x :: pre, e, post, by simp [hl], hpost, he⟩
    · have hx : key x = k := by
        simp only [List.map_cons, List.mem_cons] at h
        rcases h with e | m
        · exact e.symm
        · exact absurd m hr
      refine ⟨[], x, rest, rfl, ?_, hx⟩
      intro y hy e
      exact hr (List.mem_map.2 ⟨y, hy, e⟩)

/-! ## `UniqByName` -/

theorem Keyed.lookup_some {α κ : Type} [DecidableEq κ] (key : α → κ)
    (l : List α) (k : κ) (e : α) (h : Keyed.lookup key l k = some e) : e ∈ l ∧ key e = k := by
  induction l with
  | nil => simp [Keyed.lookup] at h
  | cons x rest ih =>
    by_cases hx : key x = k
    · simp only [Keyed.lookup, hx, if_true, Option.some.injEq] at h
      subst h
      exact ⟨by simp, hx⟩
    · simp only [Keyed.lookup, hx, if_false] at h
      exact ⟨List.mem_cons_of_mem _ (ih h).1, (ih h).2⟩

theorem GoMap.set_eq {V : Type} (m : GoMap V) (k : String) (v : V) :
    GoMap.set m k v = Keyed.upsert (fun e : String × V => e.1) m (k, v) := by
  induction m with
  | nil => rfl
  | cons e rest ih =>
    obtain ⟨k', v'⟩ := e
    by_cases h : k' = k
    · simp [GoMap.set, Keyed.upsert, h]
    · simp [GoMap.set, Keyed.upsert, h, ih]

theorem GoMap.get_eq {V : Type} (zero : V) (m : GoMap V) (k : String) :
    GoMap.get zero m k =
      match Keyed.lookup (fun e : String × V => e.1) m k with
      | some e => e.2
      | none => zero := by
  induction m with
  | nil => rfl
  | cons e rest ih =>
    obtain ⟨k', v'⟩ := e
    by_cases h : k' = k
    · simp [GoMap.get, Keyed.lookup, h]
    · simp [GoMap.get, Keyed.lookup, h, ih]

theorem PackageInfoList.nameMap_eq (ps : PackageInfoList) :
    PackageInfoList.nameMap ps =
      (ps.map (fun p => (p.Name, p))).foldl
        (Keyed.upsert (fun e : String × PackageInfo => e.1)) [] := by
  unfold PackageInfoList.nameMap
  rw [List.foldl_map]
  congr 1
  funext m p
  exact GoMap.set_eq m p.Name p

theorem PackageInfoList.mem_keys_nameMap (ps : PackageInfoList) (k : String) :
    k ∈ GoMap.keys (PackageInfoList.nameMap ps) ↔ ∃ p ∈ ps, p.Name = k := by
  unfold GoMap.keys
  rw [PackageInfoList.nameMap_eq, Keyed.mem_map_key_foldl_iff]
  simp [List.mem_map]

theorem PackageInfoList.nodup_keys_nameMap (ps : PackageInfoList) :
    (GoMap.keys (PackageInfoList.nameMap ps)).Nodup := by
  unfold GoMap.keys
  rw [PackageInfoList.nameMap_eq]
  exact Keyed.nodup_foldl_upsert _ _ [] List.nodup_nil

/-- The map built by `UniqByName` holds, under each name, the last package of
`ps` with that name. -/
theorem PackageInfoList.get_nameMap_last (pre : PackageInfoList) (p : PackageInfo)
    (post : PackageInfoList) (h : ∀ q ∈ post, q.Name ≠ p.Name) :
    GoMap.get PackageInfo.zero (PackageInfoList.nameMap (pre ++ p :: post)) p.Name = p := by
  rw [GoMap.get_eq, PackageInfoList.nameMap_eq, List.map_append, List.map_cons]
  have hn : (fun e : String × PackageInfo => e.1) (p.Name, p) ∉
      (post.map (fun p => (p.Name, p))).map (fun e : String × PackageInfo => e.1) := by
    simp only [List.map_map, List.mem_map, Function.comp, not_exists, not_and]
    intro q hq e
    exact h q hq e
  have hl := Keyed.lookup_foldl_upsert_last (fun e : String × PackageInfo => e.1)
    (pre.map (fun p => (p.Name, p))) (p.Name, p) (post.map (fun p => (p.Name, p))) [] hn
  simp only [] at hl
  rw [hl]

theorem PackageInfoList.name_get_nameMap (ps : PackageInfoList) (k : String)
    (hk : k ∈ GoMap.keys (PackageInfoList.nameMap ps)) :
    (GoMap.get PackageInfo.zero (PackageInfoList.nameMap ps) k).Name = k := by
  obtain ⟨p, hp, hpk⟩ := (PackageInfoList.mem_keys_nameMap ps k).1 hk
  obtain ⟨pre, e, post, hl, hpost, he⟩ :=
    Keyed.exists_last (fun p : PackageInfo => p.Name) ps k
      (List.mem_map.2 ⟨p, hp, hpk⟩)
  have h := PackageInfoList.get_nameMap_last pre e post (fun q hq => he ▸ hpost q hq)
  rw [← hl, he] at h
  rw [h, he]

theorem PackageInfoList.map_Name_UniqByName (ps : PackageInfoList) :
    (PackageInfoList.UniqByName ps).map (fun p => p.Name) =
      sortStrings (GoMap.keys (PackageInfoList.nameMap ps)) := by
  unfold PackageInfoList.UniqByName
  simp only [List.map_map]
  have hmem : ∀ k ∈ sortStrings (GoMap.keys (PackageInfoList.nameMap ps)),
      ((fun p : PackageInfo => p.Name) ∘
        (fun key => GoMap.get PackageInfo.zero (PackageInfoList.nameMap ps) key)) k = id k := by
    intro k hk
    have hk' : k ∈ GoMap.keys (PackageInfoList.nameMap ps) :=
      (List.perm_insertionSort _ _).mem_iff.1 hk
    exact PackageInfoList.name_get_nameMap ps k hk'
  rw [List.map_congr_left hmem, List.map_id]

theorem PackageInfoList.mem_UniqByName_of_last (pre : PackageInfoList) (p : PackageInfo)
    (post : PackageInfoList) (h : ∀ q ∈ post, q.Name ≠ p.Name) :
    p ∈ PackageInfoList.UniqByName (pre ++ p :: post) := by
  unfold PackageInfoList.UniqByName
  refine List.mem_map.2 ⟨p.Name, ?_, PackageInfoList.get_nameMap_last pre p post h⟩
  refine (List.perm_insertionSort _ _).mem_iff.2 ?_
  exact (PackageInfoList.mem_keys_nameMap _ p.Name).2 ⟨p, by simp, rfl⟩

theorem sortStrings_sorted (keys : List String) (h : keys.Nodup) :
    List.Pairwise (fun a b : String => a < b) (sortStrings keys) := by
  have hs : List.Sorted (fun a b : String => a ≤ b) (sortStrings keys) :=
    List.sorted_insertionSort _ keys
  have hn : (sortStrings keys).Nodup := (List.perm_insertionSort _ keys).nodup_iff.2 h
  exact List.Sorted.lt_of_le hs hn

theorem sortStrings_perm_eq (keys keys' : List String) (h : List.Perm keys' keys) :
    sortStrings keys' = sortStrings keys := by
  refine List.eq_of_perm_of_sorted (r := fun a b : String => a ≤ b) ?_
    (List.sorted_insertionSort _ keys') (List.sorted_insertionSort _ keys)
  exact ((List.perm_insertionSort _ keys').trans h).trans (List.perm_insertionSort _ keys).symm

/-- C14: `UniqByName` returns a list that is strictly ascending by `Name`
(hence without two entries of the same `Name`), that contains a `Name` exactly
when `ps` has a package of that `Name`, and whose entries are exactly the
packages that occur last in `ps` with their `Name`; the result does not depend
on the order in which the map keys are visited.  Instance:
`[{A,1},{B,1},{A,2}]` gives `[{A,2},{B,1}]`. -/
theorem UniqByName_spec :
    (∀ ps : PackageInfoList,
      List.Pairwise (fun a b : String => a < b)
        ((PackageInfoList.UniqByName ps).map (fun p => p.Name)) ∧
      ((PackageInfoList.UniqByName ps).map (fun p => p.Name)).Nodup ∧
      (∀ k : String,
        k ∈ (PackageInfoList.UniqByName ps).map (fun p => p.Name) ↔ ∃ p ∈ ps, p.Name = k) ∧
      (∀ x : PackageInfo,
        x ∈ PackageInfoList.UniqByName ps ↔
          ∃ pre post, ps = pre ++ x :: post ∧ ∀ q ∈ post, q.Name ≠ x.Name) ∧
      (∀ keys : List String, List.Perm keys (GoMap.keys (PackageInfoList.nameMap ps)) →
        (sortStrings keys).map
          (fun key => GoMap.get PackageInfo.zero (PackageInfoList.nameMap ps) key) =
          PackageInfoList.UniqByName ps)) ∧
    PackageInfoList.UniqByName [mkPackage "A" "1", mkPackage "B" "1", mkPackage "A" "2"] =
      [mkPackage "A" "2", mkPackage "B" "1"] := by
  refine ⟨?_, by decide!⟩
  intro ps
  have hsorted : List.Pairwise (fun a b : String => a < b)
      ((PackageInfoList.UniqByName ps).map (fun p => p.Name)) := by
    rw [PackageInfoList.map_Name_UniqByName]
    exact sortStrings_sorted _ (PackageInfoList.nodup_keys_nameMap ps)
  have hnodup : ((PackageInfoList.UniqByName ps).map (fun p => p.Name)).Nodup := by
    rw [PackageInfoList.map_Name_UniqByName]
    exact (List.perm_insertionSort _ _).nodup_iff.2 (PackageInfoList.nodup_keys_nameMap ps)
  have hnames : ∀ k : String,
      k ∈ (PackageInfoList.UniqByName ps).map (fun p => p.Name) ↔ ∃ p ∈ ps, p.Name = k := by
    intro k
    rw [PackageInfoList.map_Name_UniqByName, ← PackageInfoList.mem_keys_nameMap]
    exact (List.perm_insertionSort _ _).mem_iff
  refine ⟨hsorted, hnodup, hnames, ?_, ?_⟩
  · intro x
    constructor
    · intro hx
      have hk : x.Name ∈ (PackageInfoList.UniqByName ps).map (fun p => p.Name) :=
        List.mem_map.2 ⟨x, hx, rfl⟩
      obtain ⟨p, hp, hpk⟩ := (hnames x.Name).1 hk
      obtain ⟨pre, e, post, hl, hpost, he⟩ :=
        Keyed.exists_last (fun p : PackageInfo => p.Name) ps x.Name
          (List.mem_map.2 ⟨p, hp, hpk⟩)
      have hmem : e ∈ PackageInfoList.UniqByName ps := by
        rw [hl]
        exact PackageInfoList.mem_UniqByName_of_last pre e post
          (fun q hq => he ▸ hpost q hq)
      have hxe : x = e :=
        List.inj_on_of_nodup_map hnodup hx hmem he.symm
      exact ⟨pre, post, hxe ▸ hl, fun q hq => hpost q hq⟩
    · rintro ⟨pre, post, hl, hpost⟩
      rw [hl]
      exact PackageInfoList.mem_UniqByName_of_last pre x post hpost
  · intro keys hperm
    unfold PackageInfoList.UniqByName
    simp only []
    rw [sortStrings_perm_eq _ keys hperm]

/-- Instance of C14: the keys of the map of `[{A,1},{B,1},{A,2}]` visited in
the order `B, A`. -/
theorem UniqByName_spec_witness :
    List.Perm ["B", "A"]
      (GoMap.keys (PackageInfoList.nameMap
        [mkPackage "A" "1", mkPackage "B" "1", mkPackage "A" "2"])) ∧
    (sortStrings ["B", "A"]).map
      (fun key => GoMap.get PackageInfo.zero
        (PackageInfoList.nameMap [mkPackage "A" "1", mkPackage "B" "1", mkPackage "A" "2"])
        key) =
      PackageInfoList.UniqByName [mkPackage "A" "1", mkPackage "B" "1", mkPackage "A" "2"] :=
  ⟨List.Perm.swap "A" "B" [],
    (UniqByName_spec.1 [mkPackage "A" "1", mkPackage "B" "1", mkPackage "A" "2"]).2.2.2.2
      ["B", "A"] (List.Perm.swap "A" "B" [])⟩

/-! ## The merge of candidates on values -/

/-- The package `p` after the merge of the candidates `cands` on values: it
takes `NewVersion` and `NewRelease` from the last candidate with its name, if
there is one. -/
theorem mergeCandidates_eq_map (ps cands : PackageInfoList) :
    PackageInfoList.mergeCandidates ps cands =
      ps.map (fun p =>
        match cands.reverse.find? (fun a => decide (a.Name = p.Name)) with
        | some a => { p with NewVersion := a.NewVersion, NewRelease := a.NewRelease }
        | none => p) := by
  unfold PackageInfoList.mergeCandidates
  induction cands using List.reverseRecOn with
  | nil => simp
  | append_singleton l a ih =>
    rw [List.foldl_append, List.foldl_cons, List.foldl_nil, ih]
    unfold PackageInfoList.mergeOne
    rw [List.map_map]
    apply List.map_congr_left
    intro p _
    simp only [Function.comp, List.reverse_append, List.reverse_cons, List.reverse_nil,
      List.nil_append, List.singleton_append, List.find?_cons]
    by_cases ha : a.Name = p.Name
    · have ha' : p.Name = a.Name := ha.symm
      simp only [ha, decide_True]
      cases List.find? (fun a => decide (a.Name = p.Name)) l.reverse with
      | none => simp [ha']
      | some b => simp [ha']
    · have ha' : ¬ p.Name = a.Name := fun e => ha e.symm
      simp only [ha, decide_False]
      cases List.find? (fun a => decide (a.Name = p.Name)) l.reverse with
      | none => simp [ha']
      | some b => simp [ha']

theorem find?_reverse_of_last (pre : PackageInfoList) (a : PackageInfo)
    (post : PackageInfoList) (k : String) (ha : a.Name = k) (hpost : ∀ b ∈ post, b.Name ≠ k) :
    (pre ++ a :: post).reverse.find? (fun b => decide (b.Name = k)) = some a := by
  have hnone : post.reverse.find? (fun b => decide (b.Name = k)) = none := by
    rw [List.find?_eq_none]
    intro b hb
    simpa using hpost b (List.mem_reverse.1 hb)
  rw [List.reverse_append, List.reverse_cons, List.append_assoc, List.find?_append, hnone]
  simp [ha]

/-- The merge of candidates on values: the list keeps its length and its
`Name`s in order; an entry whose `Name` matches no candidate is unchanged; an
entry whose `Name` matches a candidate has the `NewVersion` and `NewRelease` of
the last candidate with that `Name`; and `Name`, `Version`, `Release`,
`Repository`, `Changelog` and `NotFixedYet` of every entry are unchanged. -/
theorem mergeCandidates_spec (ps cands : PackageInfoList) :
    (PackageInfoList.mergeCandidates ps cands).length = ps.length ∧
    (PackageInfoList.mergeCandidates ps cands).map (fun p => p.Name) =
      ps.map (fun p => p.Name) ∧
    (∀ (i : Nat) (p : PackageInfo), ps[i]? = some p → (∀ a ∈ cands, a.Name ≠ p.Name) →
      (PackageInfoList.mergeCandidates ps cands)[i]? = some p) ∧
    (∀ (i : Nat) (p : PackageInfo) (pre : PackageInfoList) (a : PackageInfo)
      (post : PackageInfoList), ps[i]? = some p → cands = pre ++ a :: post →
      a.Name = p.Name → (∀ b ∈ post, b.Name ≠ p.Name) →
      (PackageInfoList.mergeCandidates ps cands)[i]? =
        some { p with NewVersion := a.NewVersion, NewRelease := a.NewRelease }) ∧
    (PackageInfoList.mergeCandidates ps cands).map (fun p => p.Version) =
      ps.map (fun p => p.Version) ∧
    (PackageInfoList.mergeCandidates ps cands).map (fun p => p.Release) =
      ps.map (fun p => p.Release) ∧
    (PackageInfoList.mergeCandidates ps cands).map (fun p => p.Repository) =
      ps.map (fun p => p.Repository) ∧
    (PackageInfoList.mergeCandidates ps cands).map (fun p => p.Changelog) =
      ps.map (fun p => p.Changelog) ∧
    (PackageInfoList.mergeCandidates ps cands).map (fun p => p.NotFixedYet) =
      ps.map (fun p => p.NotFixedYet) := by
  have hfield : ∀ {β : Type} (f : PackageInfo → β),
      (∀ (p a : PackageInfo),
        f { p with NewVersion := a.NewVersion, NewRelease := a.NewRelease } = f p) →
      (PackageInfoList.mergeCandidates ps cands).map f = ps.map f := by
    intro β f hf
    rw [mergeCandidates_eq_map, List.map_map]
    apply List.map_congr_left
    intro p _
    simp only [Function.comp]
    cases List.find? (fun a => decide (a.Name = p.Name)) cands.reverse with
    | none => rfl
    | some a => exact hf p a
  refine ⟨?_, hfield _ (fun _ _ => rfl), ?_, ?_, hfield _ (fun _ _ => rfl),
    hfield _ (fun _ _ => rfl), hfield _ (fun _ _ => rfl), hfield _ (fun _ _ => rfl),
    hfield _ (fun _ _ => rfl)⟩
  · rw [mergeCandidates_eq_map, List.length_map]
  · intro i p hp hnone
    have hf : cands.reverse.find? (fun a => decide (a.Name = p.Name)) = none := by
      rw [List.find?_eq_none]
      intro b hb
      simpa using hnone b (List.mem_reverse.1 hb)
    rw [mergeCandidates_eq_map, List.getElem?_map, hp]
    simp [hf]
  · intro i p pre a post hp hc ha hpost
    have hf : cands.reverse.find? (fun a => decide (a.Name = p.Name)) = some a := by
      rw [hc]
      exact find?_reverse_of_last pre a post p.Name ha hpost
    rw [mergeCandidates_eq_map, List.getElem?_map, hp]
    simp [hf]

/-! ## `countUpdatablePacks` -/

theorem len_eq_zero_iff (s : String) : len s = 0 ↔ s = "" := by
  obtain ⟨cs⟩ := s
  cases cs with
  | nil => simp [len, String.utf8ByteSize, String.utf8ByteSize.go]
  | cons c rest =>
    have hc := Char.utf8Size_pos c
    constructor
    · intro h
      simp only [len, String.utf8ByteSize, String.utf8ByteSize.go] at h
      omega
    · intro h
      exact absurd (congrArg String.data h) (by simp)

theorem GoMap.get_true_iff (m : GoMap Bool) (k : String) (hm : ∀ e ∈ m, e.2 = true) :
    GoMap.get false m k = true ↔ k ∈ GoMap.keys m := by
  rw [GoMap.get_eq]
  unfold GoMap.keys
  constructor
  · intro h
    cases hl : Keyed.lookup (fun e : String × Bool => e.1) m k with
    | none => rw [hl] at h; exact absurd h (by simp)
    | some e =>
      exact (Keyed.lookup_isSome _ m k).1 (by simp [hl])
  · intro h
    cases hl : Keyed.lookup (fun e : String × Bool => e.1) m k with
    | none =>
      have := (Keyed.lookup_isSome (fun e : String × Bool => e.1) m k).2 h
      simp [hl] at this
    | some e => exact hm e (Keyed.lookup_some _ m k e hl).1

/-- The counter of `countUpdatablePacks` after a run of the loop: the number
of names in the set or among the remaining packages with a non-empty
`NewVersion`. -/
theorem foldl_countStep (l : PackageInfoList) (st : Nat × GoMap Bool)
    (hm : ∀ e ∈ st.2, e.2 = true) (hc : st.1 = (GoMap.keys st.2).toFinset.card) :
    (l.foldl PackageInfoList.countStep st).1 =
      (GoMap.keys st.2 ++
        (l.filter (fun p => decide (p.NewVersion ≠ ""))).map (fun p => p.Name)).toFinset.card := by
  induction l generalizing st with
  | nil => simpa using hc
  | cons p rest ih =>
    rw [List.foldl_cons]
    by_cases hu : p.NewVersion = ""
    · have hl : len p.NewVersion = 0 := (len_eq_zero_iff _).2 hu
      have hstep : PackageInfoList.countStep st p = st := by
        simp [PackageInfoList.countStep, hl]
      rw [hstep, ih st hm hc]
      simp [List.filter_cons, hu]
    · have hl : len p.NewVersion ≠ 0 := fun e => hu ((len_eq_zero_iff _).1 e)
      by_cases hk : p.Name ∈ GoMap.keys st.2
      · have hg : GoMap.get false st.2 p.Name = true := (GoMap.get_true_iff _ _ hm).2 hk
        have hstep : PackageInfoList.countStep st p = st := by
          simp [PackageInfoList.countStep, hg]
        rw [hstep, ih st hm hc]
        congr 1
        ext x
        simp only [List.filter_cons, hu, ne_eq, not_false_eq_true, decide_True, if_true,
          List.map_cons, List.toFinset_append, List.toFinset_cons, Finset.mem_union,
          Finset.mem_insert, List.mem_toFinset]
        constructor
        · rintro (h | h)
          · exact Or.inl h
          · exact Or.inr (Or.inr h)
        · rintro (h | h | h)
          · exact Or.inl h
          · exact Or.inl (h ▸ hk)
          · exact Or.inr h
      · have hg : GoMap.get false st.2 p.Name = false := by
          cases hb : GoMap.get false st.2 p.Name
          · rfl
          · exact absurd ((GoMap.get_true_iff _ _ hm).1 hb) hk
        have hstep : PackageInfoList.countStep st p =
            (st.1 + 1, GoMap.set st.2 p.Name true) := by
          simp [PackageInfoList.countStep, hl, hg]
        have hkeys : GoMap.keys (GoMap.set st.2 p.Name true) = GoMap.keys st.2 ++ [p.Name] := by
          unfold GoMap.keys at hk ⊢
          rw [GoMap.set_eq, Keyed.map_key_upsert, if_neg hk]
        have hm' : ∀ e ∈ GoMap.set st.2 p.Name true, e.2 = true := by
          intro e he
          rw [GoMap.set_eq] at he
          rcases Keyed.mem_upsert _ _ _ _ he with h | h
          · rw [h]
          · exact hm e h
        have hc' : st.1 + 1 = (GoMap.keys (GoMap.set st.2 p.Name true)).toFinset.card := by
          rw [hkeys, hc, List.toFinset_append, List.toFinset_cons, List.toFinset_nil,
            Finset.union_comm, Finset.insert_union, Finset.empty_union,
            Finset.card_insert_of_not_mem (by simpa using hk)]
        rw [hstep, ih _ hm' hc', hkeys]
        simp [List.filter_cons, hu]

/-- C16: `countUpdatablePacks` returns the number of distinct `Name` values
among the packages of `ps` whose `NewVersion` is non-empty; it is at most the
length of `ps`. -/
theorem countUpdatablePacks_spec (ps : PackageInfoList) :
    PackageInfoList.countUpdatablePacks ps =
      ((ps.filter (fun p => decide (p.NewVersion ≠ ""))).map
        (fun p => p.Name)).toFinset.card ∧
    PackageInfoList.countUpdatablePacks ps ≤ ps.length := by
  have h : PackageInfoList.countUpdatablePacks ps =
      ((ps.filter (fun p => decide (p.NewVersion ≠ ""))).map
        (fun p => p.Name)).toFinset.card := by
    unfold PackageInfoList.countUpdatablePacks
    rw [foldl_countStep ps (0, []) (by simp) (by simp [GoMap.keys])]
    simp [GoMap.keys]
  refine ⟨h, ?_⟩
  rw [h]
  refine le_trans (List.toFinset_card_le _) ?_
  rw [List.length_map]
  exact List.length_filter_le _ _

/-! ## Conversion of NVD and JVN documents -/

theorem validVec_iff (a b c d e f : String) :
    [a, b, c, d, e, f].foldl (fun ok v => if len v = 0 then false else ok) true = true ↔
      a ≠ "" ∧ b ≠ "" ∧ c ≠ "" ∧ d ≠ "" ∧ e ≠ "" ∧ f ≠ "" := by
  simp only [List.foldl, len_eq_zero_iff]
  by_cases ha : a = "" <;> by_cases hb : b = "" <;> by_cases hc : c = "" <;>
    by_cases hd : d = "" <;> by_cases he : e = "" <;> by_cases hf : f = "" <;>
    simp [ha, hb, hc, hd, he, hf]

theorem firstByteString_ascii (s : String) (c : Char) (rest : List Char)
    (hs : s.data = c :: rest) (hc : c.toNat < 128) :
    firstByteString s = String.singleton c := by
  unfold firstByteString
  rw [hs]
  simp only [utf8LeadByte]
  rw [if_pos hc, Char.ofNat_toNat]

theorem Cvss2Vector_of_convertNvd (cveID : String) (nvd : cvedict.Nvd) :
    (convertNvdToModel cveID nvd).Cvss2Vector =
      if nvd.AccessVector ≠ "" ∧ nvd.AccessComplexity ≠ "" ∧ nvd.Authentication ≠ "" ∧
          nvd.ConfidentialityImpact ≠ "" ∧ nvd.IntegrityImpact ≠ "" ∧
          nvd.AvailabilityImpact ≠ "" then
        "AV:" ++ firstByteString nvd.AccessVector ++
        "/AC:" ++ firstByteString nvd.AccessComplexity ++
        "/Au:" ++ firstByteString nvd.Authentication ++
        "/C:" ++ firstByteString nvd.ConfidentialityImpact ++
        "/I:" ++ firstByteString nvd.IntegrityImpact ++
        "/A:" ++ firstByteString nvd.AvailabilityImpact
      else "" := by
  have h := validVec_iff nvd.AccessVector nvd.AccessComplexity nvd.Authentication
    nvd.ConfidentialityImpact nvd.IntegrityImpact nvd.AvailabilityImpact
  simp only [convertNvdToModel]
  by_cases hv : [nvd.AccessVector, nvd.AccessComplexity, nvd.Authentication,
      nvd.ConfidentialityImpact, nvd.IntegrityImpact, nvd.AvailabilityImpact].foldl
      (fun ok v => if len v = 0 then false else ok) true = true
  · rw [if_pos hv, if_pos (h.1 hv)]
  · rw [if_neg hv, if_neg (fun hh => hv (h.2 hh))]

theorem append_ne_empty (s t : String) (h : s ≠ "") : s ++ t ≠ "" := by
  intro e
  apply h
  have hd := congrArg String.data e
  rw [String.data_append] at hd
  have hs : s.data = [] := (List.append_eq_nil.1 hd).1
  exact String.ext hs

/-- C17, as stated, fails: the conversion takes the first byte of each field,
not its first character.  For the access vector `"é"`, whose first character is
`é` (bytes `C3 A9`), the vector carries `Ã`, the character with code point
`0xC3`. -/
theorem convertNvdToModel_first_byte :
    "é".data.head? = some 'é' ∧
    (convertNvdToModel "CVE-2021-0001"
      (mkNvd "é" "L" "N" "P" "P" "P" (Float64.fin 0))).Cvss2Vector =
      "AV:Ã/AC:L/Au:N/C:P/I:P/A:P" ∧
    (convertNvdToModel "CVE-2021-0001"
      (mkNvd "é" "L" "N" "P" "P" "P" (Float64.fin 0))).Cvss2Vector ≠
      "AV:é/AC:L/Au:N/C:P/I:P/A:P" := by
  refine ⟨by decide, by decide, by decide⟩

/-- C17, amended: `convertNvdToModel` sets `Cvss2Vector` to a non-empty string
exactly when all six base-metric fields are non-empty; in that case the vector
is `"AV:a/AC:b/Au:c/C:d/I:e/A:f"` with `a..f` the character whose code point is
the first byte of the respective field, which is the first character of the
field whenever that character is ASCII; if any field is empty the vector is
`""`.  Instance: `N, L, N, P, P, P` gives `"AV:N/AC:L/Au:N/C:P/I:P/A:P"`. -/
theorem convertNvdToModel_vector_spec :
    (∀ (cveID : String) (nvd : cvedict.Nvd),
      ((convertNvdToModel cveID nvd).Cvss2Vector ≠ "" ↔
        (nvd.AccessVector ≠ "" ∧ nvd.AccessComplexity ≠ "" ∧ nvd.Authentication ≠ "" ∧
          nvd.ConfidentialityImpact ≠ "" ∧ nvd.IntegrityImpact ≠ "" ∧
          nvd.AvailabilityImpact ≠ "")) ∧
      ((nvd.AccessVector ≠ "" ∧ nvd.AccessComplexity ≠ "" ∧ nvd.Authentication ≠ "" ∧
          nvd.ConfidentialityImpact ≠ "" ∧ nvd.IntegrityImpact ≠ "" ∧
          nvd.AvailabilityImpact ≠ "") →
        (convertNvdToModel cveID nvd).Cvss2Vector =
          "AV:" ++ firstByteString nvd.AccessVector ++
          "/AC:" ++ firstByteString nvd.AccessComplexity ++
          "/Au:" ++ firstByteString nvd.Authentication ++
          "/C:" ++ firstByteString nvd.ConfidentialityImpact ++
          "/I:" ++ firstByteString nvd.IntegrityImpact ++
          "/A:" ++ firstByteString nvd.AvailabilityImpact) ∧
      ((nvd.AccessVector = "" ∨ nvd.AccessComplexity = "" ∨ nvd.Authentication = "" ∨
          nvd.ConfidentialityImpact = "" ∨ nvd.IntegrityImpact = "" ∨
          nvd.AvailabilityImpact = "") →
        (convertNvdToModel cveID nvd).Cvss2Vector = "")) ∧
    (∀ (s : String) (c : Char) (rest : List Char), s.data = c :: rest →
      firstByteString s = String.singleton (Char.ofNat (utf8LeadByte c)) ∧
      (c.toNat < 128 → firstByteString s = String.singleton c)) ∧
    (∀ (cveID : String) (score : Float64),
      (convertNvdToModel cveID (mkNvd "N" "L" "N" "P" "P" "P" score)).Cvss2Vector =
        "AV:N/AC:L/Au:N/C:P/I:P/A:P") := by
  refine ⟨?_, ?_, ?_⟩
  · intro cveID nvd
    have hv := Cvss2Vector_of_convertNvd cveID nvd
    refine ⟨?_, ?_, ?_⟩
    · constructor
      · intro hne
        by_contra hc
        rw [if_neg hc] at hv
        exact hne hv
      · intro hall
        rw [hv, if_pos hall]
        refine append_ne_empty _ _ ?_
        refine append_ne_empty _ _ ?_
        refine append_ne_empty _ _ ?_
        refine append_ne_empty _ _ ?_
        refine append_ne_empty _ _ ?_
        refine append_ne_empty _ _ ?_
        refine append_ne_empty _ _ ?_
        refine append_ne_empty _ _ ?_
        refine append_ne_empty _ _ ?_
        refine append_ne_empty _ _ ?_
        refine append_ne_empty _ _ ?_
        decide
    · intro hall
      rw [hv, if_pos hall]
    · intro hsome
      rw [hv, if_neg]
      rintro ⟨h1, h2, h3, h4, h5, h6⟩
      rcases hsome with h | h | h | h | h | h
      · exact h1 h
      · exact h2 h
      · exact h3 h
      · exact h4 h
      · exact h5 h
      · exact h6 h
  · intro s c rest hs
    refine ⟨?_, firstByteString_ascii s c rest hs⟩
    unfold firstByteString
    rw [hs]
  · intro cveID score
    rw [Cvss2Vector_of_convertNvd]
    simp only [mkNvd]
    decide

/-- Instance of the amended C17: the document with the fields `NETWORK, LOW,
NONE, PARTIAL, PARTIAL, PARTIAL`. -/
theorem convertNvdToModel_vector_spec_witness :
    (convertNvdToModel "CVE-2021-0001"
      (mkNvd "NETWORK" "LOW" "NONE" "PARTIAL" "PARTIAL" "PARTIAL"
        (Float64.fin 0))).Cvss2Vector = "AV:N/AC:L/Au:N/C:P/I:P/A:P" :=
  ((convertNvdToModel_vector_spec.1 "CVE-2021-0001"
    (mkNvd "NETWORK" "LOW" "NONE" "PARTIAL" "PARTIAL" "PARTIAL" (Float64.fin 0))).2.1
    (by decide)).trans (by decide)

/-- C18: for a JVN document with `n` vendor references, `convertJvnToModel`
returns a record whose `References` has length `n + 1`, whose first entry is
the JVN-link reference (`Link` the `JvnLink` of the document, `Source`
`"jvn"`), and whose entry `i + 1` carries the `Link` and `Source` of the `i`-th
reference of the document. -/
theorem convertJvnToModel_references (cveID : String) (jvn : cvedict.Jvn) :
    (convertJvnToModel cveID jvn).References.length = jvn.References.length + 1 ∧
    (convertJvnToModel cveID jvn).References[0]? =
      some { RefID := "", Source := "jvn", Link := jvn.JvnLink } ∧
    (∀ (i : Nat) (r : cvedict.Reference), jvn.References[i]? = some r →
      (convertJvnToModel cveID jvn).References[i + 1]? =
        some { RefID := "", Source := r.Source, Link := r.Link }) := by
  refine ⟨?_, ?_, ?_⟩
  · simp [convertJvnToModel]
  · simp [convertJvnToModel, JVN]
  · intro i r hr
    simp [convertJvnToModel, List.getElem?_map, hr]

/-- Instance of C18: a document with two vendor references, read at the second
one. -/
theorem convertJvnToModel_references_witness :
    (mkJvn "s" "https://jvn.example/1" [⟨"vendor", "l0"⟩, ⟨"cert", "l1"⟩]).References[1]? =
      some ⟨"cert", "l1"⟩ ∧
    (convertJvnToModel "CVE-2021-0001"
      (mkJvn "s" "https://jvn.example/1" [⟨"vendor", "l0"⟩, ⟨"cert", "l1"⟩])).References[2]? =
      some { RefID := "", Source := "cert", Link := "l1" } :=
  ⟨rfl,
    (convertJvnToModel_references "CVE-2021-0001"
      (mkJvn "s" "https://jvn.example/1" [⟨"vendor", "l0"⟩, ⟨"cert", "l1"⟩])).2.2 1
      ⟨"cert", "l1"⟩ rfl⟩

/-! ## Empty-record guard -/

theorem upsertNonEmpty_of_empty (v : CveContents) (a b : CveContent)
    (ha : a.Summary = "") (hb : b.Summary = "") : upsertNonEmpty v [a, b] = v := by
  simp [upsertNonEmpty, CveContent.Empty, ha, hb]

theorem mergeInto_of_unchanged (cves : VulnInfos) (cveID : String) (cons : List CveContent)
    (h : ∀ v : CveContents, upsertNonEmpty v cons = v) : mergeInto cves cveID cons = cves := by
  induction cves with
  | nil => rfl
  | cons sc rest ih =>
    by_cases hsc : sc.CveID = cveID
    · simp only [mergeInto, hsc, if_true, h]
      subst hsc
      rfl
    · simp [mergeInto, hsc, ih]

theorem mem_upsertNonEmpty (v : CveContents) (cons : List CveContent) (x : CveContent)
    (h : x ∈ upsertNonEmpty v cons) : x ∈ v ∨ (x ∈ cons ∧ x.Summary ≠ "") := by
  rw [upsertNonEmpty_eq, CveContents_Upsert_fun_eq] at h
  rcases Keyed.mem_foldl_upsert _ _ _ _ h with h | h
  · exact Or.inl h
  · rw [List.mem_filter] at h
    refine Or.inr ⟨h.1, ?_⟩
    have h2 := h.2
    simp only [CveContent.Empty, Bool.not_eq_true', beq_eq_false_iff_ne, ne_eq] at h2
    exact h2

theorem mergeInto_no_empty (cves : VulnInfos) (cveID : String) (cons : List CveContent)
    (h : ∀ v ∈ cves, ∀ c ∈ v.CveContents, c.Summary ≠ "") :
    ∀ v ∈ mergeInto cves cveID cons, ∀ c ∈ v.CveContents, c.Summary ≠ "" := by
  induction cves with
  | nil => intro v hv; simp [mergeInto] at hv
  | cons sc rest ih =>
    have hrest : ∀ v ∈ rest, ∀ c ∈ v.CveContents, c.Summary ≠ "" :=
      fun v hv => h v (List.mem_cons_of_mem _ hv)
    intro v hv c hc
    by_cases hsc : sc.CveID = cveID
    · simp only [mergeInto, hsc, if_true, List.mem_cons] at hv
      rcases hv with hv | hv
      · subst hv
        rcases mem_upsertNonEmpty _ _ _ hc with h1 | h1
        · exact h sc (by simp) c h1
        · exact h1.2
      · exact hrest v hv c hc
    · simp only [mergeInto, hsc, if_false, List.mem_cons] at hv
      rcases hv with hv | hv
      · subst hv
        exact h _ (by simp) c hc
      · exact ih hrest v hv c hc

theorem foldl_mergeDetail_no_empty (ds : List cvedict.CveDetail) (cves : VulnInfos)
    (h : ∀ v ∈ cves, ∀ c ∈ v.CveContents, c.Summary ≠ "") :
    ∀ v ∈ ds.foldl mergeDetail cves, ∀ c ∈ v.CveContents, c.Summary ≠ "" := by
  induction ds generalizing cves with
  | nil => exact h
  | cons d rest ih =>
    rw [List.foldl_cons]
    exact ih _ (mergeInto_no_empty cves d.CveID _ h)

theorem mergeDetail_of_empty (cves : VulnInfos) (d : cvedict.CveDetail)
    (hn : d.Nvd.Summary = "") (hj : d.Jvn.Summary = "") : mergeDetail cves d = cves := by
  unfold mergeDetail
  refine mergeInto_of_unchanged cves d.CveID _ ?_
  intro v
  exact upsertNonEmpty_of_empty v _ _ (by simp [convertNvdToModel, hn])
    (by simp [convertJvnToModel, hj])

/-- C19: in the merge step of `FillCveDetail` only the records that are not
`Empty` (whose `Summary` is not `""`) reach `Upsert`.  A document whose NVD and
JVN summaries are both empty leaves the vulnerabilities unchanged, also when
its `CveID` matches, wherever it stands in the batch; and if no store held a
record with an empty `Summary` before the merge, none holds one after it. -/
theorem FillCveDetail_empty_guard :
    (∀ c : CveContent, c.Empty = true ↔ c.Summary = "") ∧
    (∀ (v : CveContents) (cons : List CveContent),
      upsertNonEmpty v cons =
        (cons.filter (fun con => !con.Empty)).foldl CveContents.Upsert v) ∧
    (∀ (cves : VulnInfos) (d : cvedict.CveDetail),
      d.Nvd.Summary = "" → d.Jvn.Summary = "" → mergeDetail cves d = cves) ∧
    (∀ (r : ScanResult) (pre post : List cvedict.CveDetail) (d : cvedict.CveDetail),
      d.Nvd.Summary = "" → d.Jvn.Summary = "" →
      mergeDetails r (pre ++ d :: post) = mergeDetails r (pre ++ post)) ∧
    (∀ (r : ScanResult) (ds : List cvedict.CveDetail),
      (∀ v ∈ r.ScannedCves, ∀ c ∈ v.CveContents, c.Summary ≠ "") →
      ∀ v ∈ (mergeDetails r ds).ScannedCves, ∀ c ∈ v.CveContents, c.Summary ≠ "") := by
  refine ⟨?_, upsertNonEmpty_eq, mergeDetail_of_empty, ?_, ?_⟩
  · intro c
    simp [CveContent.Empty]
  · intro r pre post d hn hj
    simp only [mergeDetails, List.foldl_append, List.foldl_cons,
      mergeDetail_of_empty _ d hn hj]
  · intro r ds h
    exact foldl_mergeDetail_no_empty ds r.ScannedCves h

/-- Instance of C19: a document for `CVE-2021-0001` with empty NVD and JVN
summaries, merged into a set holding that vulnerability. -/
theorem FillCveDetail_empty_guard_witness :
    mergeDetail [mkVuln "CVE-2021-0001" [mkContent NVD (Float64.fin 7)]]
      ⟨"CVE-2021-0001",
        { mkNvd "N" "L" "N" "P" "P" "P" (Float64.fin 9) with Summary := "" },
        mkJvn "" "https://jvn.example/1" []⟩ =
      [mkVuln "CVE-2021-0001" [mkContent NVD (Float64.fin 7)]] :=
  FillCveDetail_empty_guard.2.2.1
    [mkVuln "CVE-2021-0001" [mkContent NVD (Float64.fin 7)]]
    ⟨"CVE-2021-0001",
      { mkNvd "N" "L" "N" "P" "P" "P" (Float64.fin 9) with Summary := "" },
      mkJvn "" "https://jvn.example/1" []⟩ rfl rfl

/-! ## End-to-end scenario -/

theorem convertedFor_single (pre post : List cvedict.CveDetail) (d : cvedict.CveDetail)
    (cveID : String) (hd : d.CveID = cveID)
    (hpre : ∀ x ∈ pre, x.CveID ≠ cveID) (hpost : ∀ x ∈ post, x.CveID ≠ cveID) :
    convertedFor (pre ++ d :: post) cveID =
      [convertNvdToModel d.CveID d.Nvd, convertJvnToModel d.CveID d.Jvn].filter
        (fun con => !con.Empty) := by
  have h1 : pre.filter (fun x => decide (x.CveID = cveID)) = [] := by
    rw [List.filter_eq_nil_iff]
    intro x hx
    simpa using hpre x hx
  have h2 : post.filter (fun x => decide (x.CveID = cveID)) = [] := by
    rw [List.filter_eq_nil_iff]
    intro x hx
    simpa using hpost x hx
  unfold convertedFor
  rw [List.filter_append, h1, List.nil_append, List.filter_cons_of_pos (by simpa using hd), h2]
  simp

/-- The score of a store that received, empty, the records converted from one
document whose NVD summary is not empty. -/
theorem CvssV2Score_of_converted (d : cvedict.CveDetail) (hn : d.Nvd.Summary ≠ "") :
    CveContents.CvssV2Score
      (([convertNvdToModel d.CveID d.Nvd, convertJvnToModel d.CveID d.Jvn].filter
        (fun con => !con.Empty)).foldl CveContents.Upsert []) = d.Nvd.Score := by
  have hne : (convertNvdToModel d.CveID d.Nvd).Empty = false := by
    simp [convertNvdToModel, CveContent.Empty, hn]
  have ht : (convertNvdToModel d.CveID d.Nvd).Type_ = NVD := rfl
  have hs : (convertNvdToModel d.CveID d.Nvd).Cvss2Score = d.Nvd.Score := rfl
  have htj : (convertJvnToModel d.CveID d.Jvn).Type_ = JVN := rfl
  generalize convertNvdToModel d.CveID d.Nvd = a at hne ht hs
  generalize convertJvnToModel d.CveID d.Jvn = b at htj
  have hnj : ¬ NVD = JVN := by decide
  cases hb : b.Empty
  · simp [List.filter_cons, hne, hb, CveContents.Upsert, CveContents.Update,
      CveContents.Insert, CveContents.CvssV2Score, CveContents.Get, ht, htj, hnj, hs]
  · simp [List.filter_cons, hne, hb, CveContents.Upsert, CveContents.Update,
      CveContents.Insert, CveContents.CvssV2Score, CveContents.Get, ht, hs]

theorem tallyStep_high (t : Tally) (v : VulnInfo)
    (h : CveContents.CvssV2Score v.CveContents = Float64.fin 7.5) :
    tallyStep t v = { t with high := t.high + 1 } := by
  unfold tallyStep
  simp only [h]
  have h7 : Float64.le (Float64.fin 7) (Float64.fin 7.5) = true := by
    simp only [Float64.le, decide_eq_true_eq]
    norm_num
  rw [if_pos h7]

/-- C20, as stated, fails: an NVD document with all six base metrics and the
score 7.5 whose `Summary` is empty is not upserted, so the score of the
vulnerability comes from the JVN record (`0`, no score) and the vulnerability
is counted as unknown. -/
theorem end_to_end_empty_summary_unscored :
    (mergeDetails
      (mkScanResult [{ mkVuln "CVE-2021-0001" [] with Confidence := YumUpdateSecurityMatch }])
      [⟨"CVE-2021-0001",
        { mkNvd "NETWORK" "LOW" "NONE" "PARTIAL" "PARTIAL" "PARTIAL" (Float64.fin 7.5) with
          Summary := "" },
        mkJvn "s" "https://jvn.example/1" []⟩]).ScannedCves.map
      (fun v => CveContents.CvssV2Score v.CveContents) = [Float64.fin 0] ∧
    CveSummary ⟨Float64.fin 0, false⟩
      (mergeDetails
        (mkScanResult [{ mkVuln "CVE-2021-0001" [] with Confidence := YumUpdateSecurityMatch }])
        [⟨"CVE-2021-0001",
          { mkNvd "NETWORK" "LOW" "NONE" "PARTIAL" "PARTIAL" "PARTIAL" (Float64.fin 7.5) with
            Summary := "" },
          mkJvn "s" "https://jvn.example/1" []⟩]) =
      "Total: 1 (High:0 Medium:0 Low:0 ?:1)" := by
  constructor <;> decide!

/-- C20, amended: for a scan result holding the one detected vulnerability
`CVE-2021-0001` with no content, merging a fetched batch whose document for
`CVE-2021-0001` has an NVD document with a non-empty `Summary` and the score
7.5 leaves one vulnerability, with the same `CveID` and `Confidence`, whose
`CvssV2Score()` is 7.5, and `CveSummary` counts it in the High bucket
(`High:1`).  The base metrics of the NVD document and the JVN document play no
role in this. -/
theorem FillCveDetail_end_to_end (conf : Config) (r : ScanResult) (v : VulnInfo)
    (pre post : List cvedict.CveDetail) (d : cvedict.CveDetail)
    (hr : r.ScannedCves = [v]) (hv : v.CveID = "CVE-2021-0001") (hc : v.CveContents = [])
    (hd : d.CveID = "CVE-2021-0001")
    (hpre : ∀ x ∈ pre, x.CveID ≠ "CVE-2021-0001")
    (hpost : ∀ x ∈ post, x.CveID ≠ "CVE-2021-0001")
    (hn : d.Nvd.Summary ≠ "") (hs : d.Nvd.Score = Float64.fin 7.5) :
    (mergeDetails r (pre ++ d :: post)).ScannedCves.map (fun x => x.CveID) = [v.CveID] ∧
    (mergeDetails r (pre ++ d :: post)).ScannedCves.map (fun x => x.Confidence) =
      [v.Confidence] ∧
    (mergeDetails r (pre ++ d :: post)).ScannedCves.map
      (fun x => CveContents.CvssV2Score x.CveContents) = [Float64.fin 7.5] ∧
    cveTally (mergeDetails r (pre ++ d :: post)) = ⟨1, 0, 0, 0⟩ ∧
    CveSummary conf (mergeDetails r (pre ++ d :: post)) =
      (if conf.IgnoreUnscoredCves then "Total: 1 (High:1 Medium:0 Low:0)"
        else "Total: 1 (High:1 Medium:0 Low:0 ?:0)") := by
  have hcves : (mergeDetails r (pre ++ d :: post)).ScannedCves =
      [{ v with CveContents :=
          ([convertNvdToModel d.CveID d.Nvd, convertJvnToModel d.CveID d.Jvn].filter
            (fun con => !con.Empty)).foldl CveContents.Upsert [] }] := by
    simp only [mergeDetails]
    rw [hr, foldl_mergeDetail_cons, foldl_mergeDetail_nil, hc, hv,
      convertedFor_single pre post d "CVE-2021-0001" hd hpre hpost]
  have hscore := (CvssV2Score_of_converted d hn).trans hs
  have htally : cveTally (mergeDetails r (pre ++ d :: post)) = ⟨1, 0, 0, 0⟩ := by
    unfold cveTally
    rw [hcves, List.foldl_cons, List.foldl_nil, tallyStep_high _ _ hscore]
  refine ⟨by rw [hcves]; rfl, by rw [hcves]; rfl, ?_, htally, ?_⟩
  · rw [hcves, List.map_cons, List.map_nil, hscore]
  unfold CveSummary
  simp only [htally]
  cases conf.IgnoreUnscoredCves <;> decide

/-- Instance of the amended C20: host `web01`, the vulnerability detected with
`Confidence{100, "YumUpdateSecurityMatch"}`, an NVD document with the six base
metrics and a JVN document with no score. -/
theorem FillCveDetail_end_to_end_witness :
    (mergeDetails
      (mkScanResult [{ mkVuln "CVE-2021-0001" [] with Confidence := YumUpdateSecurityMatch }])
      ([] ++ [⟨"CVE-2021-0001",
        mkNvd "NETWORK" "LOW" "NONE" "PARTIAL" "PARTIAL" "PARTIAL" (Float64.fin 7.5),
        mkJvn "s" "https://jvn.example/1" []⟩])).ScannedCves.map
      (fun x => CveContents.CvssV2Score x.CveContents) = [Float64.fin 7.5] ∧
    CveSummary ⟨Float64.fin 0, false⟩
      (mergeDetails
        (mkScanResult [{ mkVuln "CVE-2021-0001" [] with Confidence := YumUpdateSecurityMatch }])
        ([] ++ [⟨"CVE-2021-0001",
          mkNvd "NETWORK" "LOW" "NONE" "PARTIAL" "PARTIAL" "PARTIAL" (Float64.fin 7.5),
          mkJvn "s" "https://jvn.example/1" []⟩])) =
      "Total: 1 (High:1 Medium:0 Low:0 ?:0)" :=
  (FillCveDetail_end_to_end ⟨Float64.fin 0, false⟩
    (mkScanResult [{ mkVuln "CVE-2021-0001" [] with Confidence := YumUpdateSecurityMatch }])
    { mkVuln "CVE-2021-0001" [] with Confidence := YumUpdateSecurityMatch } [] []
    ⟨"CVE-2021-0001",
      mkNvd "NETWORK" "LOW" "NONE" "PARTIAL" "PARTIAL" "PARTIAL" (Float64.fin 7.5),
      mkJvn "s" "https://jvn.example/1" []⟩
    rfl rfl rfl rfl (by simp) (by simp) (by decide) rfl).2.2
    |> fun h => ⟨h.1, h.2.2⟩

/-! ## The merge step of `FillCveDetail`: frame -/

theorem convertedFor_of_no_match (ds : List cvedict.CveDetail) (cveID : String)
    (h : ∀ d ∈ ds, d.CveID ≠ cveID) : convertedFor ds cveID = [] := by
  have hf : ds.filter (fun d => decide (d.CveID = cveID)) = [] := by
    rw [List.filter_eq_nil_iff]
    intro d hd
    simpa using h d hd
  unfold convertedFor
  rw [hf]
  rfl

theorem mem_convertedFor (ds : List cvedict.CveDetail) (cveID : String) (c : CveContent)
    (h : c ∈ convertedFor ds cveID) :
    ∃ d ∈ ds, d.CveID = cveID ∧
      (c = convertNvdToModel d.CveID d.Nvd ∨ c = convertJvnToModel d.CveID d.Jvn) := by
  unfold convertedFor at h
  rw [List.mem_flatMap] at h
  obtain ⟨d, hd, hc⟩ := h
  rw [List.mem_filter] at hd
  refine ⟨d, hd.1, by simpa using hd.2, ?_⟩
  have hc' := (List.mem_filter.1 hc).1
  simpa using hc'

/-- What the merge of a batch leaves of one vulnerability: everything but the
store; the store itself when no document has its `CveID`; and in the store only
records it held or records converted from documents with its `CveID`. -/
theorem foldl_mergeDetail_frame (cves : VulnInfos) (ds : List cvedict.CveDetail) :
    List.Forall₂
      (fun v v' : VulnInfo =>
        v'.CveID = v.CveID ∧ v'.Confidence = v.Confidence ∧ v'.Packages = v.Packages ∧
        v'.DistroAdvisories = v.DistroAdvisories ∧ v'.CpeNames = v.CpeNames ∧
        ((∀ d ∈ ds, d.CveID ≠ v.CveID) → v'.CveContents = v.CveContents) ∧
        (∀ c ∈ v'.CveContents, c ∈ v.CveContents ∨
          ∃ d ∈ ds, d.CveID = v.CveID ∧
            (c = convertNvdToModel d.CveID d.Nvd ∨ c = convertJvnToModel d.CveID d.Jvn)))
      cves (ds.foldl mergeDetail cves) := by
  induction cves generalizing ds with
  | nil =>
    rw [foldl_mergeDetail_nil]
    exact List.Forall₂.nil
  | cons sc rest ih =>
    rw [foldl_mergeDetail_cons]
    refine List.Forall₂.cons ⟨rfl, rfl, rfl, rfl, rfl, ?_, ?_⟩ ?_
    · intro h
      simp only [convertedFor_of_no_match ds sc.CveID h, List.foldl_nil]
    · intro c hc
      simp only [CveContents_Upsert_fun_eq] at hc
      rcases Keyed.mem_foldl_upsert _ _ _ _ hc with h | h
      · exact Or.inl h
      · exact Or.inr (mem_convertedFor ds sc.CveID c h)
    · refine List.Forall₂.imp ?_ (ih (ds.filter (fun d => decide (d.CveID ≠ sc.CveID))))
      rintro v v' ⟨h1, h2, h3, h4, h5, h6, h7⟩
      refine ⟨h1, h2, h3, h4, h5, ?_, ?_⟩
      · intro h
        exact h6 (fun d hd => h d (List.mem_filter.1 hd).1)
      · intro c hc
        rcases h7 c hc with h | ⟨d, hd, hdc⟩
        · exact Or.inl h
        · exact Or.inr ⟨d, (List.mem_filter.1 hd).1, hdc⟩

theorem forall2_getElem_some {α β : Type} (R : α → β → Prop) (l : List α) (l' : List β)
    (h : List.Forall₂ R l l') (i : Nat) (a : α) (ha : l[i]? = some a) :
    ∃ b, l'[i]? = some b ∧ R a b := by
  induction h generalizing i with
  | nil => simp at ha
  | cons hab _ ih =>
    cases i with
    | zero =>
      simp only [List.getElem?_cons_zero, Option.some.injEq] at ha
      subst ha
      exact ⟨_, by simp, hab⟩
    | succ n =>
      simp only [List.getElem?_cons_succ] at ha
      obtain ⟨b, hb, hr⟩ := ih n ha
      exact ⟨b, by simpa using hb, hr⟩

theorem forall2_map_eq {α β : Type} (R : α → α → Prop) (f : α → β) (l l' : List α)
    (h : List.Forall₂ R l l') (hf : ∀ a b, R a b → f b = f a) : l'.map f = l.map f := by
  induction h with
  | nil => rfl
  | cons hab _ ih => simp [hf _ _ hab, ih]

/-- The merge on values changes nothing but the stores of matched
vulnerabilities: same vulnerabilities in the same order with unchanged `CveID`,
`Confidence`, `Packages`, `DistroAdvisories` and `CpeNames`; a vulnerability
whose `CveID` is the `CveID` of no document is unchanged; and every record of a
store after the merge was in that store before or was converted from a document
with the `CveID` of the vulnerability. -/
theorem mergeDetails_values_frame (r : ScanResult) (ds : List cvedict.CveDetail) :
    (mergeDetails r ds).ScannedCves.length = r.ScannedCves.length ∧
    (mergeDetails r ds).ScannedCves.map (fun v => v.CveID) =
      r.ScannedCves.map (fun v => v.CveID) ∧
    (mergeDetails r ds).ScannedCves.map (fun v => v.Confidence) =
      r.ScannedCves.map (fun v => v.Confidence) ∧
    (mergeDetails r ds).ScannedCves.map (fun v => v.Packages) =
      r.ScannedCves.map (fun v => v.Packages) ∧
    (mergeDetails r ds).ScannedCves.map (fun v => v.DistroAdvisories) =
      r.ScannedCves.map (fun v => v.DistroAdvisories) ∧
    (mergeDetails r ds).ScannedCves.map (fun v => v.CpeNames) =
      r.ScannedCves.map (fun v => v.CpeNames) ∧
    mergeDetails r ds = { r with ScannedCves := (mergeDetails r ds).ScannedCves } ∧
    (∀ (i : Nat) (v : VulnInfo), r.ScannedCves[i]? = some v →
      (∀ d ∈ ds, d.CveID ≠ v.CveID) → (mergeDetails r ds).ScannedCves[i]? = some v) ∧
    (∀ (i : Nat) (v v' : VulnInfo), r.ScannedCves[i]? = some v →
      (mergeDetails r ds).ScannedCves[i]? = some v' →
      ∀ c ∈ v'.CveContents, c ∈ v.CveContents ∨
        ∃ d ∈ ds, d.CveID = v.CveID ∧
          (c = convertNvdToModel d.CveID d.Nvd ∨ c = convertJvnToModel d.CveID d.Jvn)) := by
  have hF := foldl_mergeDetail_frame r.ScannedCves ds
  have hcves : (mergeDetails r ds).ScannedCves = ds.foldl mergeDetail r.ScannedCves := rfl
  rw [hcves]
  refine ⟨hF.length_eq.symm, ?_, ?_, ?_, ?_, ?_, rfl, ?_, ?_⟩
  · exact forall2_map_eq _ _ _ _ hF (fun _ _ h => h.1)
  · exact forall2_map_eq _ _ _ _ hF (fun _ _ h => h.2.1)
  · exact forall2_map_eq _ _ _ _ hF (fun _ _ h => h.2.2.1)
  · exact forall2_map_eq _ _ _ _ hF (fun _ _ h => h.2.2.2.1)
  · exact forall2_map_eq _ _ _ _ hF (fun _ _ h => h.2.2.2.2.1)
  · intro i v hv hno
    obtain ⟨v', hv', h1, h2, h3, h4, h5, h6, _⟩ := forall2_getElem_some _ _ _ hF i v hv
    rw [hv']
    have h6' := h6 hno
    cases v
    cases v'
    simp only [VulnInfo.mk.injEq, Option.some.injEq] at h1 h2 h3 h4 h5 h6' ⊢
    exact ⟨h1, h2, h3, h4, h5, h6'⟩
  · intro i v v' hv hv' c hc
    obtain ⟨w, hw, _, _, _, _, _, _, h7⟩ := forall2_getElem_some _ _ _ hF i v hv
    rw [hv'] at hw
    simp only [Option.some.injEq] at hw
    subst hw
    exact h7 c hc

/-! ## `ScanResults.Less` -/

/-- What `Less` computes: for indices in range it is the comparison of the two
`ServerName`s alone, because with equal names the method compares the
`ContainerID` of `s[i]` with itself. -/
theorem Less_eq_serverName_lt (s : ScanResults) (i j : Nat) (si sj : ScanResult)
    (hi : s[i]? = some si) (hj : s[j]? = some sj) :
    ScanResults.Less s i j = some (decide (si.ServerName < sj.ServerName)) := by
  unfold ScanResults.Less
  rw [hi, hj]
  by_cases h : si.ServerName = sj.ServerName
  · simp only [h, if_true, lt_irrefl, decide_False]
  · simp only [h, if_false]

/-- C22 fails on the code: for two results of the host `web01` with the
container ids `a` and `b`, the claim gives `Less(0, 1)` (equal host names and
`a < b`), but `Less(0, 1)` is false, as is `Less(1, 0)`: line 47 compares
`s[i].Container.ContainerID` with itself. -/
theorem Less_ignores_container_id :
    (mkHostResult "web01" "a").ServerName = (mkHostResult "web01" "b").ServerName ∧
    (mkHostResult "web01" "a").Container.ContainerID <
      (mkHostResult "web01" "b").Container.ContainerID ∧
    ScanResults.Less [mkHostResult "web01" "a", mkHostResult "web01" "b"] 0 1 = some false ∧
    ScanResults.Less [mkHostResult "web01" "a", mkHostResult "web01" "b"] 1 0 = some false := by
  refine ⟨rfl, by decide!, by decide!, by decide!⟩

/-! ## Slices in memory: one store -/

namespace Mem

theorem read_getElem_opt {α : Type} (mem : List α) (s : Slice) (i : Nat) :
    (read mem s)[i]? = if i < s.len then mem[s.off + i]? else none := by
  unfold read
  rw [List.getElem?_take]
  split
  · rw [List.getElem?_drop]
  · rfl

theorem length_read {α : Type} (mem : List α) (s : Slice) (h : s.off + s.len ≤ mem.length) :
    (read mem s).length = s.len := by
  unfold read
  rw [List.length_take, List.length_drop]
  omega

theorem read_congr {α : Type} (mem mem' : List α) (s : Slice)
    (h : ∀ i, i < s.len → mem'[s.off + i]? = mem[s.off + i]?) : read mem' s = read mem s := by
  apply List.ext_getElem?
  intro i
  rw [read_getElem_opt, read_getElem_opt]
  split
  · rename_i hi
    exact h i hi
  · rfl

theorem window_cons {α : Type} (mem : List α) (a n : Nat) (h : a < mem.length) :
    (mem.drop a).take (n + 1) = mem[a] :: (mem.drop (a + 1)).take n := by
  rw [List.drop_eq_getElem_cons h, List.take_succ_cons]

/-- The loop of `Update` on memory does to the window what `Update` does to
the list of its elements, and touches no cell outside the window. -/
theorem updateLoop_sim (mem : Memory) (s : Slice) (c : CveContent) (n i : Nat)
    (h : s.off + i + n ≤ mem.length) :
    (updateLoop mem s c i n).2 =
      (CveContents.Update ((mem.drop (s.off + i)).take n) c).2 ∧
    (updateLoop mem s c i n).1.length = mem.length ∧
    (∀ j, j < n → (updateLoop mem s c i n).1[s.off + i + j]? =
      (CveContents.Update ((mem.drop (s.off + i)).take n) c).1[j]?) ∧
    (∀ q, (q < s.off + i ∨ s.off + i + n ≤ q) →
      (updateLoop mem s c i n).1[q]? = mem[q]?) := by
  induction n generalizing i with
  | zero =>
    refine ⟨?_, rfl, ?_, ?_⟩
    · simp [updateLoop, CveContents.Update]
    · intro j hj
      omega
    · intro q _
      rfl
  | succ n ih =>
    have hlt : s.off + i < mem.length := by omega
    have hget : mem[s.off + i]? = some mem[s.off + i] := List.getElem?_eq_getElem hlt
    rw [window_cons mem (s.off + i) n hlt]
    by_cases ht : (mem[s.off + i]).Type_ = c.Type_
    · have hloop : updateLoop mem s c i (n + 1) = (mem.set (s.off + i) c, true) := by
        simp [updateLoop, hget, ht]
      rw [hloop]
      simp only [CveContents.Update, ht, if_true]
      refine ⟨trivial, by simp, ?_, ?_⟩
      · intro j hj
        cases j with
        | zero => simp [List.getElem?_set, hlt]
        | succ j =>
          rw [List.getElem?_set, if_neg (by omega), List.getElem?_cons_succ,
            List.getElem?_take, if_pos (by omega), List.getElem?_drop]
          congr 1
          omega
      · intro q hq
        rw [List.getElem?_set, if_neg (by omega)]
    · have hloop : updateLoop mem s c i (n + 1) = updateLoop mem s c (i + 1) n := by
        simp [updateLoop, hget, ht]
      rw [hloop]
      simp only [CveContents.Update, ht, if_false]
      have h' : s.off + (i + 1) + n ≤ mem.length := by omega
      obtain ⟨h1, h2, h3, h4⟩ := ih (i + 1) h'
      have he : s.off + (i + 1) = s.off + i + 1 := by omega
      rw [he] at h1 h3 h4
      refine ⟨h1, h2, ?_, ?_⟩
      · intro j hj
        cases j with
        | zero =>
          rw [h4 (s.off + i + 0) (by omega)]
          simp [hget]
        | succ j =>
          rw [List.getElem?_cons_succ, ← h3 j (by omega)]
          congr 1
          omega
      · intro q hq
        exact h4 q (by omega)

end Mem

namespace Mem

theorem Step.refl (mem : Memory) (s : Slice) (h : Slice.WF mem s) : Step mem s mem s :=
  ⟨Nat.le_refl _, fun _ _ _ => rfl, h, Or.inl ⟨rfl, rfl⟩⟩

theorem Step.trans {mem mem1 mem2 : Memory} {s s1 s2 : Slice}
    (h1 : Step mem s mem1 s1) (h2 : Step mem1 s1 mem2 s2) : Step mem s mem2 s2 := by
  obtain ⟨a1, b1, _, d1⟩ := h1
  obtain ⟨a2, b2, c2, d2⟩ := h2
  refine ⟨Nat.le_trans a1 a2, ?_, c2, ?_⟩
  · intro q hq hout
    rw [b2 q (by omega) ?_, b1 q hq hout]
    rcases d1 with ⟨e1, e2⟩ | e
    · rw [e1, e2]
      exact hout
    · intro hin
      omega
  · rcases d2 with ⟨e1, e2⟩ | e
    · rcases d1 with ⟨f1, f2⟩ | f
      · exact Or.inl ⟨e1.trans f1, e2.trans f2⟩
      · exact Or.inr (by omega)
    · exact Or.inr (by omega)

theorem Update_sim (mem : Memory) (s : Slice) (c : CveContent) (h : Slice.WF mem s) :
    Step mem s (Update mem s c).1 s ∧
    read (Update mem s c).1 s = (CveContents.Update (read mem s) c).1 ∧
    (Update mem s c).2 = (CveContents.Update (read mem s) c).2 := by
  have hb : s.off + 0 + s.len ≤ mem.length := by
    have := h.1
    have := h.2
    omega
  obtain ⟨h1, h2, h3, h4⟩ := updateLoop_sim mem s c s.len 0 hb
  simp only [Nat.add_zero] at h1 h3 h4
  refine ⟨⟨?_, ?_, ?_, Or.inl ⟨rfl, rfl⟩⟩, ?_, h1⟩
  · exact Nat.le_of_eq h2.symm
  · intro q _ hout
    refine h4 q ?_
    have := h.1
    by_cases hq : q < s.off
    · exact Or.inl hq
    · refine Or.inr ?_
      by_contra hc
      exact hout ⟨by omega, by omega⟩
  · exact ⟨h.1, by rw [show (Update mem s c).1.length = mem.length from h2]; exact h.2⟩
  · apply List.ext_getElem?
    intro j
    rw [read_getElem_opt]
    split
    · rename_i hj
      exact h3 j hj
    · rename_i hj
      have hlen : ((CveContents.Update (read mem s) c).1).length = s.len := by
        rw [CveContents_Update_eq, Keyed.length_update]
        exact length_read mem s (by have := h.1; have := h.2; omega)
      exact (List.getElem?_eq_none (by omega)).symm

theorem Insert_sim (grow : Nat → Nat) (mem : Memory) (s : Slice) (c : CveContent)
    (h : Slice.WF mem s) :
    Step mem s (Insert grow mem s c).1 (Insert grow mem s c).2 ∧
    read (Insert grow mem s c).1 (Insert grow mem s c).2 = read mem s ++ [c] := by
  have hlen := h.1
  have hcap := h.2
  have hr : (read mem s).length = s.len := length_read mem s (by omega)
  by_cases hc : s.len < s.cap
  · have hI : Insert grow mem s c = (mem.set (s.off + s.len) c, { s with len := s.len + 1 }) := by
      simp [Insert, hc]
    rw [hI]
    refine ⟨⟨by simp, ?_, ⟨by simp; omega, by simp; omega⟩, Or.inl ⟨rfl, rfl⟩⟩, ?_⟩
    · intro q _ hout
      rw [List.getElem?_set, if_neg]
      intro e
      exact hout ⟨by omega, by omega⟩
    · apply List.ext_getElem?
      intro j
      rw [read_getElem_opt]
      simp only []
      by_cases hj : j < s.len
      · rw [if_pos (by omega), List.getElem?_set, if_neg (by omega),
          List.getElem?_append_left (by omega), read_getElem_opt, if_pos hj]
      · by_cases hj' : j = s.len
        · subst hj'
          rw [if_pos (by omega), List.getElem?_set, if_pos rfl, if_pos (by omega),
            List.getElem?_append_right (by omega), hr]
          simp
        · rw [if_neg (by omega)]
          exact (List.getElem?_eq_none (by simp; omega)).symm
  · have hI : Insert grow mem s c =
        (mem ++ (read mem s ++ c ::
          List.replicate (max (grow (s.len + 1)) (s.len + 1) - (s.len + 1)) CveContent.zero),
          { off := mem.length, len := s.len + 1, cap := max (grow (s.len + 1)) (s.len + 1) }) := by
      simp [Insert, hc]
    rw [hI]
    have hmax : s.len + 1 ≤ max (grow (s.len + 1)) (s.len + 1) := Nat.le_max_right _ _
    refine ⟨⟨by simp, ?_, ⟨hmax, ?_⟩, Or.inr (Nat.le_refl _)⟩, ?_⟩
    · intro q hq _
      exact List.getElem?_append_left hq
    · simp only [List.length_append, List.length_cons, List.length_replicate, hr]
      omega
    · apply List.ext_getElem?
      intro j
      rw [read_getElem_opt]
      simp only []
      by_cases hj : j < s.len + 1
      · rw [if_pos hj, List.getElem?_append_right (by omega)]
        have e : mem.length + j - mem.length = j := by omega
        rw [e]
        by_cases hj2 : j < s.len
        · rw [List.getElem?_append_left (by omega), List.getElem?_append_left (by omega)]
        · have e2 : j = s.len := by omega
          subst e2
          rw [List.getElem?_append_right (by omega), List.getElem?_append_right (by omega), hr]
          simp
      · rw [if_neg hj]
        exact (List.getElem?_eq_none (by simp; omega)).symm

end Mem

/-! ## Slices in memory: the merge step -/

namespace Mem

theorem Upsert_sim (grow : Nat → Nat) (mem : Memory) (s : Slice) (c : CveContent)
    (h : Slice.WF mem s) :
    Step mem s (Upsert grow mem s c).1 (Upsert grow mem s c).2 ∧
    read (Upsert grow mem s c).1 (Upsert grow mem s c).2 =
      CveContents.Upsert (read mem s) c := by
  obtain ⟨hs, hr, hf⟩ := Update_sim mem s c h
  unfold Upsert CveContents.Upsert
  simp only []
  rw [hf]
  cases hb : (CveContents.Update (read mem s) c).2
  · simp only [Bool.not_false, if_true]
    obtain ⟨hs2, hr2⟩ := Insert_sim grow (Update mem s c).1 s c hs.2.2.1
    refine ⟨Step.trans hs hs2, ?_⟩
    rw [hr2, hr]
    rfl
  · simp only [Bool.not_true, Bool.false_eq_true, if_false]
    exact ⟨hs, hr⟩

theorem upsertNonEmpty_sim (grow : Nat → Nat) (cons : List CveContent) (mem : Memory)
    (s : Slice) (h : Slice.WF mem s) :
    Step mem s (upsertNonEmpty grow mem s cons).1 (upsertNonEmpty grow mem s cons).2 ∧
    read (upsertNonEmpty grow mem s cons).1 (upsertNonEmpty grow mem s cons).2 =
      Models.upsertNonEmpty (read mem s) cons := by
  induction cons generalizing mem s with
  | nil => exact ⟨Step.refl mem s h, rfl⟩
  | cons c rest ih =>
    unfold upsertNonEmpty Models.upsertNonEmpty
    simp only [List.foldl_cons]
    cases hc : c.Empty
    · simp only [Bool.not_false, if_true]
      obtain ⟨hs, hr⟩ := Upsert_sim grow mem s c h
      obtain ⟨hs2, hr2⟩ := ih (Upsert grow mem s c).1 (Upsert grow mem s c).2 hs.2.2.1
      unfold upsertNonEmpty at hs2 hr2
      unfold Models.upsertNonEmpty at hr2
      refine ⟨Step.trans hs hs2, ?_⟩
      rw [hr2, hr]
    · simp only [Bool.not_true, Bool.false_eq_true, if_false]
      exact ih mem s h

theorem Slice.WF.mono {mem mem' : Memory} {s : Slice} (h : Slice.WF mem s)
    (hl : mem.length ≤ mem'.length) : Slice.WF mem' s :=
  ⟨h.1, Nat.le_trans h.2 hl⟩

theorem Step.disjoint {mem mem' : Memory} {s s' t : Slice} (hs : Step mem s mem' s')
    (ht : Slice.WF mem t) (hd : Slice.Disjoint s t) : Slice.Disjoint s' t := by
  rcases hs.2.2.2 with ⟨e1, e2⟩ | e
  · unfold Slice.Disjoint at hd ⊢
    rw [e1, e2]
    exact hd
  · have := ht.2
    exact Or.inr (Or.inr (Or.inr (by omega)))

/-- A store whose window is disjoint from every window that was written
through reads the same before and after. -/
theorem read_of_frame (mem mem' : Memory) (t : Slice) (ht : Slice.WF mem t)
    (hf : ∀ q, q < mem.length → t.off ≤ q → q < t.off + t.cap → mem'[q]? = mem[q]?) :
    read mem' t = read mem t := by
  apply read_congr
  intro i hi
  have := ht.1
  have := ht.2
  exact hf (t.off + i) (by omega) (by omega) (by omega)

theorem not_mem_window_of_disjoint (a b : Slice) (hd : Slice.Disjoint a b) (q : Nat)
    (ha : a.off ≤ q ∧ q < a.off + a.cap) : ¬ (b.off ≤ q ∧ q < b.off + b.cap) := by
  unfold Slice.Disjoint at hd
  intro hb
  omega

end Mem

namespace Mem

theorem view_of_frame (mem mem' : Memory) (v : VulnInfo) (hv : Slice.WF mem v.CveContents)
    (hf : ∀ q, q < mem.length → v.CveContents.off ≤ q →
      q < v.CveContents.off + v.CveContents.cap → mem'[q]? = mem[q]?) :
    VulnInfo.view mem' v = VulnInfo.view mem v := by
  unfold VulnInfo.view
  rw [read_of_frame mem mem' v.CveContents hv hf]

/-- One document merged on memory, with stores that share no cell: the stores
still share no cell, and the vulnerabilities read from memory are those the
merge on values gives. -/
theorem mergeInto_sim (grow : Nat → Nat) (mem : Memory) (cves : List VulnInfo)
    (cveID : String) (cons : List CveContent) (h : Separated mem cves) :
    mem.length ≤ (mergeInto grow mem cves cveID cons).1.length ∧
    (∀ q, q < mem.length →
      (∀ v ∈ cves, ¬ (v.CveContents.off ≤ q ∧ q < v.CveContents.off + v.CveContents.cap)) →
      (mergeInto grow mem cves cveID cons).1[q]? = mem[q]?) ∧
    Separated (mergeInto grow mem cves cveID cons).1 (mergeInto grow mem cves cveID cons).2 ∧
    (∀ v' ∈ (mergeInto grow mem cves cveID cons).2,
      (∃ v ∈ cves, v'.CveContents.off = v.CveContents.off ∧
        v'.CveContents.cap = v.CveContents.cap) ∨ mem.length ≤ v'.CveContents.off) ∧
    (mergeInto grow mem cves cveID cons).2.map
        (VulnInfo.view (mergeInto grow mem cves cveID cons).1) =
      Models.mergeInto (cves.map (VulnInfo.view mem)) cveID cons := by
  induction cves with
  | nil =>
    refine ⟨Nat.le_refl _, fun _ _ _ => rfl, ⟨by simp [mergeInto], by simp [mergeInto]⟩,
      by simp [mergeInto], rfl⟩
  | cons sc rest ih =>
    obtain ⟨hwf, hpw⟩ := h
    rw [List.pairwise_cons] at hpw
    have hsc : Slice.WF mem sc.CveContents := hwf sc (by simp)
    have hrest : Separated mem rest :=
      ⟨fun v hv => hwf v (List.mem_cons_of_mem _ hv), hpw.2⟩
    by_cases hid : sc.CveID = cveID
    · obtain ⟨hs, hr⟩ := upsertNonEmpty_sim grow cons mem sc.CveContents hsc
      have hm : mergeInto grow mem (sc :: rest) cveID cons =
          ((upsertNonEmpty grow mem sc.CveContents cons).1,
            { sc with CveContents := (upsertNonEmpty grow mem sc.CveContents cons).2 } ::
              rest) := by
        simp [mergeInto, hid]
      rw [hm]
      simp only []
      refine ⟨hs.1, ?_, ⟨?_, ?_⟩, ?_, ?_⟩
      · intro q hq hout
        exact hs.2.1 q hq (hout sc (by simp))
      · intro v hv
        simp only [List.mem_cons] at hv
        rcases hv with hv | hv
        · subst hv
          exact hs.2.2.1
        · exact Slice.WF.mono (hrest.1 v hv) hs.1
      · rw [List.pairwise_cons]
        refine ⟨?_, hpw.2⟩
        intro v hv
        exact Step.disjoint hs (hrest.1 v hv) (hpw.1 v hv)
      · intro v' hv'
        simp only [List.mem_cons] at hv'
        rcases hv' with hv' | hv'
        · subst hv'
          rcases hs.2.2.2 with e | e
          · exact Or.inl ⟨sc, by simp, e⟩
          · exact Or.inr e
        · exact Or.inl ⟨v', by simp [hv'], rfl, rfl⟩
      · have hrestview : rest.map (VulnInfo.view (upsertNonEmpty grow mem sc.CveContents cons).1) =
            rest.map (VulnInfo.view mem) := by
          apply List.map_congr_left
          intro v hv
          refine view_of_frame mem _ v (hrest.1 v hv) ?_
          intro q hq h1 h2
          refine hs.2.1 q hq ?_
          intro hin
          exact not_mem_window_of_disjoint _ _ (hpw.1 v hv) q hin ⟨h1, h2⟩
        rw [List.map_cons, List.map_cons, hrestview]
        have hvid : (VulnInfo.view mem sc).CveID = cveID := hid
        simp only [Models.mergeInto, hvid, if_true]
        congr 1
        simp only [VulnInfo.view, hr, hid]
    · obtain ⟨h1, h2, h3, h4, h5⟩ := ih hrest
      have hm : mergeInto grow mem (sc :: rest) cveID cons =
          ((mergeInto grow mem rest cveID cons).1,
            sc :: (mergeInto grow mem rest cveID cons).2) := by
        simp [mergeInto, hid]
      rw [hm]
      simp only []
      have hframe_sc : ∀ q, q < mem.length → sc.CveContents.off ≤ q →
          q < sc.CveContents.off + sc.CveContents.cap →
          (mergeInto grow mem rest cveID cons).1[q]? = mem[q]? := by
        intro q hq ha hb
        refine h2 q hq ?_
        intro v hv
        exact not_mem_window_of_disjoint _ _ (hpw.1 v hv) q ⟨ha, hb⟩
      refine ⟨h1, ?_, ⟨?_, ?_⟩, ?_, ?_⟩
      · intro q hq hout
        exact h2 q hq (fun v hv => hout v (List.mem_cons_of_mem _ hv))
      · intro v hv
        simp only [List.mem_cons] at hv
        rcases hv with hv | hv
        · subst hv
          exact Slice.WF.mono hsc h1
        · exact h3.1 v hv
      · rw [List.pairwise_cons]
        refine ⟨?_, h3.2⟩
        intro v' hv'
        rcases h4 v' hv' with ⟨v, hv, e1, e2⟩ | e
        · have hd := hpw.1 v hv
          unfold Slice.Disjoint at hd ⊢
          rw [e1, e2]
          exact hd
        · have := hsc.2
          exact Or.inr (Or.inr (Or.inl (by omega)))
      · intro v' hv'
        simp only [List.mem_cons] at hv'
        rcases hv' with hv' | hv'
        · subst hv'
          exact Or.inl ⟨v', by simp, rfl, rfl⟩
        · rcases h4 v' hv' with ⟨v, hv, e⟩ | e
          · exact Or.inl ⟨v, List.mem_cons_of_mem _ hv, e⟩
          · exact Or.inr e
      · rw [List.map_cons, List.map_cons, h5,
          view_of_frame mem _ sc hsc hframe_sc]
        have hvid : ¬ (VulnInfo.view mem sc).CveID = cveID := hid
        simp only [Models.mergeInto, hvid, if_false]

/-- A batch merged on memory, with stores that share no cell: the stores still
share no cell, and the vulnerabilities read from memory are those the merge on
values gives. -/
theorem foldl_mergeDetail_sim (grow : Nat → Nat) (ds : List cvedict.CveDetail)
    (mem : Memory) (cves : List VulnInfo) (h : Separated mem cves) :
    Separated (ds.foldl (mergeDetail grow) (mem, cves)).1
      (ds.foldl (mergeDetail grow) (mem, cves)).2 ∧
    (ds.foldl (mergeDetail grow) (mem, cves)).2.map
        (VulnInfo.view (ds.foldl (mergeDetail grow) (mem, cves)).1) =
      ds.foldl Models.mergeDetail (cves.map (VulnInfo.view mem)) := by
  induction ds generalizing mem cves with
  | nil => exact ⟨h, rfl⟩
  | cons d rest ih =>
    simp only [List.foldl_cons]
    obtain ⟨_, _, h3, _, h5⟩ := mergeInto_sim grow mem cves d.CveID
      [convertNvdToModel d.CveID d.Nvd, convertJvnToModel d.CveID d.Jvn] h
    have hstep : mergeDetail grow (mem, cves) d =
        ((mergeInto grow mem cves d.CveID
          [convertNvdToModel d.CveID d.Nvd, convertJvnToModel d.CveID d.Jvn]).1,
         (mergeInto grow mem cves d.CveID
          [convertNvdToModel d.CveID d.Nvd, convertJvnToModel d.CveID d.Jvn]).2) := rfl
    rw [hstep]
    obtain ⟨i1, i2⟩ := ih _ _ h3
    refine ⟨i1, ?_⟩
    rw [i2, h5]
    rfl

end Mem

namespace Mem

theorem mergeInto_map_field {β : Type} (f : VulnInfo → β)
    (hf : ∀ (v : VulnInfo) (s : Slice), f { v with CveContents := s } = f v)
    (grow : Nat → Nat) (mem : Memory) (cves : List VulnInfo) (cveID : String)
    (cons : List CveContent) :
    (mergeInto grow mem cves cveID cons).2.map f = cves.map f := by
  induction cves with
  | nil => rfl
  | cons sc rest ih =>
    by_cases hid : sc.CveID = cveID
    · simp only [mergeInto, hid, if_true, List.map_cons]
      rw [← hid]
      exact congrArg (· :: rest.map f) (hf sc _)
    · simp [mergeInto, hid, ih]

theorem foldl_mergeDetail_map_field {β : Type} (f : VulnInfo → β)
    (hf : ∀ (v : VulnInfo) (s : Slice), f { v with CveContents := s } = f v)
    (grow : Nat → Nat) (ds : List cvedict.CveDetail) (st : Memory × List VulnInfo) :
    (ds.foldl (mergeDetail grow) st).2.map f = st.2.map f := by
  induction ds generalizing st with
  | nil => rfl
  | cons d rest ih =>
    rw [List.foldl_cons, ih]
    exact mergeInto_map_field f hf grow st.1 st.2 d.CveID _

theorem mergeInto_keep (grow : Nat → Nat) (mem : Memory) (cves : List VulnInfo)
    (cveID : String) (cons : List CveContent) (i : Nat) (v : VulnInfo)
    (hv : cves[i]? = some v) (hne : v.CveID ≠ cveID) :
    (mergeInto grow mem cves cveID cons).2[i]? = some v := by
  induction cves generalizing i with
  | nil => simp at hv
  | cons sc rest ih =>
    by_cases hid : sc.CveID = cveID
    · cases i with
      | zero =>
        simp only [List.getElem?_cons_zero, Option.some.injEq] at hv
        subst hv
        exact absurd hid hne
      | succ j =>
        simp only [List.getElem?_cons_succ] at hv
        simp [mergeInto, hid, hv]
    · cases i with
      | zero =>
        simp only [List.getElem?_cons_zero, Option.some.injEq] at hv
        subst hv
        simp [mergeInto, hid]
      | succ j =>
        simp only [List.getElem?_cons_succ] at hv
        simp [mergeInto, hid, ih j hv]

theorem foldl_mergeDetail_keep (grow : Nat → Nat) (ds : List cvedict.CveDetail)
    (st : Memory × List VulnInfo) (i : Nat) (v : VulnInfo)
    (hv : st.2[i]? = some v) (hne : ∀ d ∈ ds, d.CveID ≠ v.CveID) :
    (ds.foldl (mergeDetail grow) st).2[i]? = some v := by
  induction ds generalizing st with
  | nil => exact hv
  | cons d rest ih =>
    rw [List.foldl_cons]
    refine ih _ ?_ (fun d' hd' => hne d' (List.mem_cons_of_mem _ hd'))
    exact mergeInto_keep grow st.1 st.2 d.CveID _ i v hv
      (fun e => hne d (by simp) e.symm)

theorem view_mergeDetails (grow : Nat → Nat) (mem : Memory) (r : ScanResult)
    (ds : List cvedict.CveDetail) (h : Separated mem r.ScannedCves) :
    Separated (mergeDetails grow mem r ds).1 (mergeDetails grow mem r ds).2.ScannedCves ∧
    ScanResult.view (mergeDetails grow mem r ds).1 (mergeDetails grow mem r ds).2 =
      Models.mergeDetails (ScanResult.view mem r) ds := by
  obtain ⟨h1, h2⟩ := foldl_mergeDetail_sim grow ds mem r.ScannedCves h
  refine ⟨h1, ?_⟩
  simp only [ScanResult.view, mergeDetails, Models.mergeDetails]
  rw [h2]

end Mem

/-! ## The merge step of `FillCveDetail` on memory -/

/-- C4, as stated, fails.  Two vulnerabilities whose stores are the same
slice `arr[0:2]` of an array of capacity 4, and a batch with an NVD-only
document for the first and a JVN-only document for the second: in the first
merge both records are appended into cell 2, the JVN record last, so the first
store reads `redhat, centos, jvn`; the second merge finds no NVD record there
and appends one, and the first store reads `redhat, centos, jvn, nvd`. -/
theorem merge_twice_differs_on_shared_array :
    ((Mem.mergeDetails Mem.doubleCap Mem.sharedPair.1 Mem.sharedPair.2 Mem.batchAB).2.view
      (Mem.mergeDetails Mem.doubleCap Mem.sharedPair.1 Mem.sharedPair.2
        Mem.batchAB).1).ScannedCves.map (fun v => v.CveContents.map (fun c => c.Type_)) =
      [["redhat", "centos", "jvn"], ["redhat", "centos", "jvn"]] ∧
    ((Mem.mergeDetails Mem.doubleCap
        (Mem.mergeDetails Mem.doubleCap Mem.sharedPair.1 Mem.sharedPair.2 Mem.batchAB).1
        (Mem.mergeDetails Mem.doubleCap Mem.sharedPair.1 Mem.sharedPair.2 Mem.batchAB).2
        Mem.batchAB).2.view
      (Mem.mergeDetails Mem.doubleCap
        (Mem.mergeDetails Mem.doubleCap Mem.sharedPair.1 Mem.sharedPair.2 Mem.batchAB).1
        (Mem.mergeDetails Mem.doubleCap Mem.sharedPair.1 Mem.sharedPair.2 Mem.batchAB).2
        Mem.batchAB).1).ScannedCves.map (fun v => v.CveContents.map (fun c => c.Type_)) =
      [["redhat", "centos", "jvn", "nvd"], ["redhat", "centos", "jvn"]] ∧
    (Mem.mergeDetails Mem.doubleCap
        (Mem.mergeDetails Mem.doubleCap Mem.sharedPair.1 Mem.sharedPair.2 Mem.batchAB).1
        (Mem.mergeDetails Mem.doubleCap Mem.sharedPair.1 Mem.sharedPair.2 Mem.batchAB).2
        Mem.batchAB).2.view
      (Mem.mergeDetails Mem.doubleCap
        (Mem.mergeDetails Mem.doubleCap Mem.sharedPair.1 Mem.sharedPair.2 Mem.batchAB).1
        (Mem.mergeDetails Mem.doubleCap Mem.sharedPair.1 Mem.sharedPair.2 Mem.batchAB).2
        Mem.batchAB).1 ≠
      (Mem.mergeDetails Mem.doubleCap Mem.sharedPair.1 Mem.sharedPair.2 Mem.batchAB).2.view
        (Mem.mergeDetails Mem.doubleCap Mem.sharedPair.1 Mem.sharedPair.2 Mem.batchAB).1 := by
  refine ⟨by decide!, by decide!, by decide!⟩

/-- C4, amended: on a scan result in which no two content stores share a cell
of a backing array, the merge step of `FillCveDetail` is idempotent: merging a
fetched batch `ds` into the result of merging `ds` into `r` yields the same
scan result (every store read from memory) as merging `ds` into `r` once.  The
stores still share no cell after a merge, the merged result is the one the
merge on values gives, and the merge step is what `FillCveDetail` returns when
the fetch succeeds with `ds`. -/
theorem FillCveDetail_merge_idempotent (grow : Nat → Nat) (mem : Mem.Memory)
    (r : Mem.ScanResult) (ds : List cvedict.CveDetail)
    (h : Mem.Separated mem r.ScannedCves) :
    (Mem.mergeDetails grow (Mem.mergeDetails grow mem r ds).1
        (Mem.mergeDetails grow mem r ds).2 ds).2.view
      (Mem.mergeDetails grow (Mem.mergeDetails grow mem r ds).1
        (Mem.mergeDetails grow mem r ds).2 ds).1 =
      (Mem.mergeDetails grow mem r ds).2.view (Mem.mergeDetails grow mem r ds).1 ∧
    Mem.Separated (Mem.mergeDetails grow mem r ds).1
      (Mem.mergeDetails grow mem r ds).2.ScannedCves ∧
    (Mem.mergeDetails grow mem r ds).2.view (Mem.mergeDetails grow mem r ds).1 =
      mergeDetails (r.view mem) ds ∧
    Mem.FillCveDetail grow
        (fun _ => (Except.ok ds : Except String (List cvedict.CveDetail))) mem r =
      Except.ok (Mem.mergeDetails grow mem r ds) := by
  obtain ⟨h1, h2⟩ := Mem.view_mergeDetails grow mem r ds h
  obtain ⟨_, h4⟩ := Mem.view_mergeDetails grow (Mem.mergeDetails grow mem r ds).1
    (Mem.mergeDetails grow mem r ds).2 ds h1
  refine ⟨?_, h1, h2, rfl⟩
  rw [h4, h2]
  exact mergeDetails_values_idem.1 (r.view mem) ds

/-- Instance of the amended C4: two vulnerabilities with no content and the
batch with an NVD-only and a JVN-only document. -/
theorem FillCveDetail_merge_idempotent_witness :
    Mem.Separated Mem.freshPair.1 Mem.freshPair.2.ScannedCves ∧
    (Mem.mergeDetails Mem.doubleCap
        (Mem.mergeDetails Mem.doubleCap Mem.freshPair.1 Mem.freshPair.2 Mem.batchAB).1
        (Mem.mergeDetails Mem.doubleCap Mem.freshPair.1 Mem.freshPair.2 Mem.batchAB).2
        Mem.batchAB).2.view
      (Mem.mergeDetails Mem.doubleCap
        (Mem.mergeDetails Mem.doubleCap Mem.freshPair.1 Mem.freshPair.2 Mem.batchAB).1
        (Mem.mergeDetails Mem.doubleCap Mem.freshPair.1 Mem.freshPair.2 Mem.batchAB).2
        Mem.batchAB).1 =
      (Mem.mergeDetails Mem.doubleCap Mem.freshPair.1 Mem.freshPair.2 Mem.batchAB).2.view
        (Mem.mergeDetails Mem.doubleCap Mem.freshPair.1 Mem.freshPair.2 Mem.batchAB).1 :=
  ⟨by decide,
    (FillCveDetail_merge_idempotent Mem.doubleCap Mem.freshPair.1 Mem.freshPair.2
      Mem.batchAB (by decide)).1⟩

/-- C21, as stated, fails.  The store of `CVE-A` is `arr[0:3]` and the store of
`CVE-B` is `arr[0:2]` of one array of capacity 4; the batch has a document for
`CVE-B` only.  The append for `CVE-B` goes into cell 2, the third record of
`CVE-A`: the store of `CVE-A` changes from `redhat, centos, debian` to
`redhat, centos, nvd` though no document has its `CveID`, and its new record
was converted from the document of `CVE-B`. -/
theorem merge_writes_unmatched_store_on_shared_array :
    (∀ d ∈ Mem.batchB, d.CveID ≠ "CVE-A") ∧
    Mem.sharedPrefix.2.ScannedCves.map (fun v => v.CveID) = ["CVE-A", "CVE-B"] ∧
    Mem.sharedPrefix.2.ScannedCves.map
      (fun v => (Mem.read Mem.sharedPrefix.1 v.CveContents).map (fun c => c.Type_)) =
      [["redhat", "centos", "debian"], ["redhat", "centos"]] ∧
    (Mem.mergeDetails Mem.doubleCap Mem.sharedPrefix.1 Mem.sharedPrefix.2
        Mem.batchB).2.ScannedCves.map
      (fun v => (Mem.read
        (Mem.mergeDetails Mem.doubleCap Mem.sharedPrefix.1 Mem.sharedPrefix.2 Mem.batchB).1
        v.CveContents).map (fun c => (c.Type_, c.CveID))) =
      [[("redhat", ""), ("centos", ""), ("nvd", "CVE-B")],
        [("redhat", ""), ("centos", ""), ("nvd", "CVE-B")]] := by
  refine ⟨by decide, by decide, by decide!, by decide!⟩

/-- C21, amended: the merge step of `FillCveDetail` leaves the number and the
order of the vulnerabilities, their `CveID`, `Confidence`, `Packages`,
`DistroAdvisories` and `CpeNames`, the other fields of the scan result and the
slice header of every vulnerability whose `CveID` is the `CveID` of no fetched
document as they were; and when no two content stores share a cell of a
backing array, a vulnerability whose `CveID` is the `CveID` of no fetched
document has an unchanged `CveContents`, and every record of a store after the
merge was in that store before or was converted from a document with the
`CveID` of the vulnerability. -/
theorem FillCveDetail_merge_frame (grow : Nat → Nat) (mem : Mem.Memory)
    (r : Mem.ScanResult) (ds : List cvedict.CveDetail) :
    (Mem.mergeDetails grow mem r ds).2.ScannedCves.length = r.ScannedCves.length ∧
    (Mem.mergeDetails grow mem r ds).2.ScannedCves.map (fun v => v.CveID) =
      r.ScannedCves.map (fun v => v.CveID) ∧
    (Mem.mergeDetails grow mem r ds).2.ScannedCves.map (fun v => v.Confidence) =
      r.ScannedCves.map (fun v => v.Confidence) ∧
    (Mem.mergeDetails grow mem r ds).2.ScannedCves.map (fun v => v.Packages) =
      r.ScannedCves.map (fun v => v.Packages) ∧
    (Mem.mergeDetails grow mem r ds).2.ScannedCves.map (fun v => v.DistroAdvisories) =
      r.ScannedCves.map (fun v => v.DistroAdvisories) ∧
    (Mem.mergeDetails grow mem r ds).2.ScannedCves.map (fun v => v.CpeNames) =
      r.ScannedCves.map (fun v => v.CpeNames) ∧
    (Mem.mergeDetails grow mem r ds).2 =
      { r with ScannedCves := (Mem.mergeDetails grow mem r ds).2.ScannedCves } ∧
    (∀ (i : Nat) (v : Mem.VulnInfo), r.ScannedCves[i]? = some v →
      (∀ d ∈ ds, d.CveID ≠ v.CveID) →
      (Mem.mergeDetails grow mem r ds).2.ScannedCves[i]? = some v) ∧
    (Mem.Separated mem r.ScannedCves →
      (∀ (i : Nat) (v : Mem.VulnInfo), r.ScannedCves[i]? = some v →
        (∀ d ∈ ds, d.CveID ≠ v.CveID) →
        Mem.read (Mem.mergeDetails grow mem r ds).1 v.CveContents =
          Mem.read mem v.CveContents) ∧
      (∀ (i : Nat) (v v' : Mem.VulnInfo), r.ScannedCves[i]? = some v →
        (Mem.mergeDetails grow mem r ds).2.ScannedCves[i]? = some v' →
        ∀ c ∈ Mem.read (Mem.mergeDetails grow mem r ds).1 v'.CveContents,
          c ∈ Mem.read mem v.CveContents ∨
          ∃ d ∈ ds, d.CveID = v.CveID ∧
            (c = convertNvdToModel d.CveID d.Nvd ∨
              c = convertJvnToModel d.CveID d.Jvn))) := by
  have hfield : ∀ {β : Type} (f : Mem.VulnInfo → β),
      (∀ (v : Mem.VulnInfo) (s : Mem.Slice), f { v with CveContents := s } = f v) →
      (Mem.mergeDetails grow mem r ds).2.ScannedCves.map f = r.ScannedCves.map f :=
    fun f hf => Mem.foldl_mergeDetail_map_field f hf grow ds (mem, r.ScannedCves)
  have hkeep : ∀ (i : Nat) (v : Mem.VulnInfo), r.ScannedCves[i]? = some v →
      (∀ d ∈ ds, d.CveID ≠ v.CveID) →
      (Mem.mergeDetails grow mem r ds).2.ScannedCves[i]? = some v :=
    fun i v hv hne => Mem.foldl_mergeDetail_keep grow ds (mem, r.ScannedCves) i v hv hne
  refine ⟨?_, hfield _ (fun _ _ => rfl), hfield _ (fun _ _ => rfl), hfield _ (fun _ _ => rfl),
    hfield _ (fun _ _ => rfl), hfield _ (fun _ _ => rfl), rfl, hkeep, ?_⟩
  · have h := congrArg List.length (hfield (fun v => v.CveID) (fun _ _ => rfl))
    simpa using h
  · intro hsep
    obtain ⟨_, hsim⟩ := Mem.foldl_mergeDetail_sim grow ds mem r.ScannedCves hsep
    have hF := foldl_mergeDetail_frame (r.ScannedCves.map (Mem.VulnInfo.view mem)) ds
    rw [← hsim] at hF
    have hM1 : (Mem.mergeDetails grow mem r ds).1 =
        (ds.foldl (Mem.mergeDetail grow) (mem, r.ScannedCves)).1 := rfl
    have hM2 : (Mem.mergeDetails grow mem r ds).2.ScannedCves =
        (ds.foldl (Mem.mergeDetail grow) (mem, r.ScannedCves)).2 := rfl
    constructor
    · intro i v hv hne
      have hv' := hkeep i v hv hne
      rw [hM2] at hv'
      have ha : (r.ScannedCves.map (Mem.VulnInfo.view mem))[i]? =
          some (Mem.VulnInfo.view mem v) := by
        rw [List.getElem?_map, hv]
        rfl
      obtain ⟨b, hb, _, _, _, _, _, h6, _⟩ := forall2_getElem_some _ _ _ hF i _ ha
      rw [List.getElem?_map, hv'] at hb
      simp only [Option.map_some', Option.some.injEq] at hb
      have h6' := h6 hne
      rw [← hb] at h6'
      rw [hM1]
      exact h6'
    · intro i v v' hv hv' c hc
      rw [hM2] at hv'
      have ha : (r.ScannedCves.map (Mem.VulnInfo.view mem))[i]? =
          some (Mem.VulnInfo.view mem v) := by
        rw [List.getElem?_map, hv]
        rfl
      obtain ⟨b, hb, _, _, _, _, _, _, h7⟩ := forall2_getElem_some _ _ _ hF i _ ha
      rw [List.getElem?_map, hv'] at hb
      simp only [Option.map_some', Option.some.injEq] at hb
      rw [← hb] at h7
      rw [hM1] at hc
      exact h7 c hc

/-- Instance of the amended C21: two vulnerabilities on separate arrays and a
batch with a document for `CVE-B` only; the store of `CVE-A` reads as before. -/
theorem FillCveDetail_merge_frame_witness :
    Mem.Separated Mem.separatePair.1 Mem.separatePair.2.ScannedCves ∧
    Mem.read
        (Mem.mergeDetails Mem.doubleCap Mem.separatePair.1 Mem.separatePair.2 Mem.batchB).1
        ⟨0, 1, 2⟩ =
      Mem.read Mem.separatePair.1 ⟨0, 1, 2⟩ :=
  ⟨by decide,
    ((FillCveDetail_merge_frame Mem.doubleCap Mem.separatePair.1 Mem.separatePair.2
      Mem.batchB).2.2.2.2.2.2.2.2 (by decide)).1 0
      { CveID := "CVE-A", Confidence := ⟨100, "OvalMatch"⟩, Packages := [],
        DistroAdvisories := [], CpeNames := [], CveContents := ⟨0, 1, 2⟩ } rfl (by decide)⟩

/-! ## `MergeNewVersion` on memory -/

theorem mergeLoop_length (ps : Mem.Slice) (a : PackageInfo) (n i : Nat)
    (mem : List PackageInfo) :
    (PackageInfoList.mergeLoop ps a i n mem).length = mem.length := by
  induction n generalizing i mem with
  | zero => rfl
  | succ n ih =>
    unfold PackageInfoList.mergeLoop
    cases hget : mem[ps.off + i]? with
    | none => rfl
    | some p =>
      dsimp only
      split
      · rw [ih, List.length_set]
      · rw [ih]

/-- The loop over `ps` for one candidate rewrites the cells `i .. i + n - 1`
of the window pointwise and no other cell. -/
theorem mergeLoop_getElem_opt (ps : Mem.Slice) (a : PackageInfo) (n i : Nat)
    (mem : List PackageInfo) (h : ps.off + i + n ≤ mem.length) (q : Nat) :
    (PackageInfoList.mergeLoop ps a i n mem)[q]? =
      if ps.off + i ≤ q ∧ q < ps.off + i + n then
        (mem[q]?).map (fun p =>
          if p.Name = a.Name then
            { p with NewVersion := a.NewVersion, NewRelease := a.NewRelease }
          else p)
      else mem[q]? := by
  induction n generalizing i mem with
  | zero =>
    have hq : ¬ (ps.off + i ≤ q ∧ q < ps.off + i + 0) := by omega
    rw [if_neg hq]
    rfl
  | succ n ih =>
    have hlt : ps.off + i < mem.length := by omega
    have hget : mem[ps.off + i]? = some mem[ps.off + i] := List.getElem?_eq_getElem hlt
    unfold PackageInfoList.mergeLoop
    rw [hget]
    dsimp only
    by_cases hn : mem[ps.off + i].Name = a.Name
    · rw [if_pos hn, ih (i + 1) _ (by rw [List.length_set]; omega), List.getElem?_set]
      by_cases hq : ps.off + i = q
      · subst hq
        have h1 : ¬ (ps.off + (i + 1) ≤ ps.off + i ∧ ps.off + i < ps.off + (i + 1) + n) := by
          omega
        have h2 : ps.off + i ≤ ps.off + i ∧ ps.off + i < ps.off + i + (n + 1) := by omega
        rw [if_neg h1, if_pos h2, if_pos rfl, if_pos hlt, hget, Option.map_some', if_pos hn]
      · rw [if_neg hq]
        by_cases hw : ps.off + (i + 1) ≤ q ∧ q < ps.off + (i + 1) + n
        · have h2 : ps.off + i ≤ q ∧ q < ps.off + i + (n + 1) := by omega
          rw [if_pos hw, if_pos h2]
        · have h2 : ¬ (ps.off + i ≤ q ∧ q < ps.off + i + (n + 1)) := by omega
          rw [if_neg hw, if_neg h2]
    · rw [if_neg hn, ih (i + 1) mem (by omega)]
      by_cases hq : ps.off + i = q
      · subst hq
        have h1 : ¬ (ps.off + (i + 1) ≤ ps.off + i ∧ ps.off + i < ps.off + (i + 1) + n) := by
          omega
        have h2 : ps.off + i ≤ ps.off + i ∧ ps.off + i < ps.off + i + (n + 1) := by omega
        rw [if_neg h1, if_pos h2, hget, Option.map_some', if_neg hn]
      · by_cases hw : ps.off + (i + 1) ≤ q ∧ q < ps.off + (i + 1) + n
        · have h2 : ps.off + i ≤ q ∧ q < ps.off + i + (n + 1) := by omega
          rw [if_pos hw, if_pos h2]
        · have h2 : ¬ (ps.off + i ≤ q ∧ q < ps.off + i + (n + 1)) := by omega
          rw [if_neg hw, if_neg h2]

/-- The loop over `ps` for one candidate does to the window what `mergeOne`
does to the list of its elements. -/
theorem read_mergeLoop (ps : Mem.Slice) (a : PackageInfo) (mem : List PackageInfo)
    (h : ps.off + ps.len ≤ mem.length) :
    Mem.read (PackageInfoList.mergeLoop ps a 0 ps.len mem) ps =
      PackageInfoList.mergeOne (Mem.read mem ps) a := by
  apply List.ext_getElem?
  intro i
  unfold PackageInfoList.mergeOne
  rw [Mem.read_getElem_opt, List.getElem?_map, Mem.read_getElem_opt]
  by_cases hi : i < ps.len
  · have hw : ps.off + 0 ≤ ps.off + i ∧ ps.off + i < ps.off + 0 + ps.len := by omega
    rw [if_pos hi, if_pos hi, mergeLoop_getElem_opt ps a ps.len 0 mem (by omega), if_pos hw]
  · rw [if_neg hi, if_neg hi]
    rfl

/-- No cell outside the window of `ps` is written. -/
theorem mergeOuter_outside (ps cands : Mem.Slice) (n k : Nat) (mem : List PackageInfo)
    (hps : ps.off + ps.len ≤ mem.length) (q : Nat)
    (hq : ¬ (ps.off ≤ q ∧ q < ps.off + ps.len)) :
    (PackageInfoList.mergeOuter ps cands k n mem)[q]? = mem[q]? := by
  induction n generalizing k mem with
  | zero => rfl
  | succ n ih =>
    unfold PackageInfoList.mergeOuter
    cases hget : mem[cands.off + k]? with
    | none => rfl
    | some a =>
      dsimp only
      have hw : ¬ (ps.off + 0 ≤ q ∧ q < ps.off + 0 + ps.len) := by omega
      rw [ih (k + 1) _ (by rw [mergeLoop_length]; exact hps),
        mergeLoop_getElem_opt ps a ps.len 0 mem (by omega), if_neg hw]

theorem mergeOuter_length (ps cands : Mem.Slice) (n k : Nat) (mem : List PackageInfo) :
    (PackageInfoList.mergeOuter ps cands k n mem).length = mem.length := by
  induction n generalizing k mem with
  | zero => rfl
  | succ n ih =>
    unfold PackageInfoList.mergeOuter
    cases hget : mem[cands.off + k]? with
    | none => rfl
    | some a =>
      dsimp only
      rw [ih, mergeLoop_length]

/-- When the two windows share no cell, the loop over the candidates does to
the window of `ps` what the fold of `mergeOne` over the remaining candidates
does to the list of its elements. -/
theorem mergeOuter_sim (ps cands : Mem.Slice)
    (hd : ps.len = 0 ∨ cands.len = 0 ∨ ps.off + ps.len ≤ cands.off ∨
      cands.off + cands.len ≤ ps.off)
    (n k : Nat) (mem : List PackageInfo) (hps : ps.off + ps.len ≤ mem.length)
    (hk : k + n ≤ cands.len) (hc : cands.off + cands.len ≤ mem.length) :
    Mem.read (PackageInfoList.mergeOuter ps cands k n mem) ps =
      ((mem.drop (cands.off + k)).take n).foldl PackageInfoList.mergeOne (Mem.read mem ps) := by
  induction n generalizing k mem with
  | zero => simp [PackageInfoList.mergeOuter]
  | succ n ih =>
    have hlt : cands.off + k < mem.length := by omega
    have hget : mem[cands.off + k]? = some mem[cands.off + k] := List.getElem?_eq_getElem hlt
    unfold PackageInfoList.mergeOuter
    rw [hget]
    dsimp only
    rw [ih (k + 1) _ (by rw [mergeLoop_length]; exact hps) (by omega)
      (by rw [mergeLoop_length]; exact hc), Mem.window_cons mem (cands.off + k) n hlt,
      List.foldl_cons, read_mergeLoop ps _ mem hps]
    congr 1
    apply List.ext_getElem?
    intro j
    rw [List.getElem?_take, List.getElem?_take]
    split
    · rw [List.getElem?_drop, List.getElem?_drop,
        mergeLoop_getElem_opt ps _ ps.len 0 mem (by omega)]
      have hw : ¬ (ps.off + 0 ≤ cands.off + (k + 1) + j ∧
          cands.off + (k + 1) + j < ps.off + 0 + ps.len) := by omega
      rw [if_neg hw, Nat.add_assoc cands.off k 1]
    · rfl

/-- When the two windows share no cell, `MergeNewVersion` leaves in the
receiver the merge of the candidates as they were passed. -/
theorem MergeNewVersion_disjoint (mem : List PackageInfo) (ps cands : Mem.Slice)
    (hps : ps.off + ps.len ≤ mem.length) (hc : cands.off + cands.len ≤ mem.length)
    (hd : ps.len = 0 ∨ cands.len = 0 ∨ ps.off + ps.len ≤ cands.off ∨
      cands.off + cands.len ≤ ps.off) :
    Mem.read (PackageInfoList.MergeNewVersion mem ps cands) ps =
      PackageInfoList.mergeCandidates (Mem.read mem ps) (Mem.read mem cands) := by
  unfold PackageInfoList.MergeNewVersion PackageInfoList.mergeCandidates
  rw [mergeOuter_sim ps cands hd cands.len 0 mem hps (by omega) hc]
  rfl

/-- Every cell after the loop over the candidates is the cell before it up to
`NewVersion` and `NewRelease`, and it is the cell before it unless it lies in
the window of `ps` and a candidate has its name. -/
theorem mergeOuter_inv (ps cands : Mem.Slice) (mem0 : List PackageInfo)
    (hps : ps.off + ps.len ≤ mem0.length) (hc : cands.off + cands.len ≤ mem0.length)
    (n k : Nat) (mem : List PackageInfo) (hk : k + n ≤ cands.len)
    (hlen : mem.length = mem0.length)
    (hinv : ∀ (q : Nat) (p : PackageInfo), mem0[q]? = some p →
      ∃ p1, mem[q]? = some p1 ∧
        p1 = { p with NewVersion := p1.NewVersion, NewRelease := p1.NewRelease } ∧
        (p1 = p ∨ (ps.off ≤ q ∧ q < ps.off + ps.len ∧
          ∃ a ∈ Mem.read mem0 cands, a.Name = p.Name))) :
    ∀ (q : Nat) (p : PackageInfo), mem0[q]? = some p →
      ∃ p1, (PackageInfoList.mergeOuter ps cands k n mem)[q]? = some p1 ∧
        p1 = { p with NewVersion := p1.NewVersion, NewRelease := p1.NewRelease } ∧
        (p1 = p ∨ (ps.off ≤ q ∧ q < ps.off + ps.len ∧
          ∃ a ∈ Mem.read mem0 cands, a.Name = p.Name)) := by
  induction n generalizing k mem with
  | zero => exact hinv
  | succ n ih =>
    have hlt : cands.off + k < mem0.length := by omega
    obtain ⟨a, ha, ha0, -⟩ := hinv (cands.off + k) mem0[cands.off + k]
      (List.getElem?_eq_getElem hlt)
    have hamem : mem0[cands.off + k] ∈ Mem.read mem0 cands := by
      rw [List.mem_iff_getElem?]
      refine ⟨k, ?_⟩
      rw [Mem.read_getElem_opt, if_pos (by omega)]
      exact List.getElem?_eq_getElem hlt
    have haname : a.Name = mem0[cands.off + k].Name := by rw [ha0]
    unfold PackageInfoList.mergeOuter
    rw [ha]
    dsimp only
    apply ih (k + 1) _ (by omega) (by rw [mergeLoop_length]; exact hlen)
    intro q p hp
    obtain ⟨p1, hp1, hsame, hor⟩ := hinv q p hp
    rw [mergeLoop_getElem_opt ps a ps.len 0 mem (by omega), hp1]
    by_cases hw : ps.off + 0 ≤ q ∧ q < ps.off + 0 + ps.len
    · rw [if_pos hw, Option.map_some']
      by_cases hn : p1.Name = a.Name
      · rw [if_pos hn]
        refine ⟨_, rfl, ?_, Or.inr ⟨by omega, by omega, mem0[cands.off + k], hamem, ?_⟩⟩
        · rw [hsame]
        · rw [← haname, ← hn, hsame]
      · rw [if_neg hn]
        exact ⟨p1, rfl, hsame, hor⟩
    · rw [if_neg hw]
      exact ⟨p1, rfl, hsame, hor⟩

/-- The cells of the window of `ps` after `MergeNewVersion`, against the cells
before it. -/
theorem MergeNewVersion_cells (mem : List PackageInfo) (ps cands : Mem.Slice)
    (hps : ps.off + ps.len ≤ mem.length) (hc : cands.off + cands.len ≤ mem.length)
    (i : Nat) (p : PackageInfo) (hp : (Mem.read mem ps)[i]? = some p) :
    ∃ p1, (Mem.read (PackageInfoList.MergeNewVersion mem ps cands) ps)[i]? = some p1 ∧
      p1 = { p with NewVersion := p1.NewVersion, NewRelease := p1.NewRelease } ∧
      (p1 = p ∨ ∃ a ∈ Mem.read mem cands, a.Name = p.Name) := by
  rw [Mem.read_getElem_opt] at hp
  by_cases hi : i < ps.len
  · rw [if_pos hi] at hp
    obtain ⟨p1, h1, h2, h3⟩ := mergeOuter_inv ps cands mem hps hc cands.len 0 mem (by omega) rfl
      (fun q p hq => ⟨p, hq, rfl, Or.inl rfl⟩) (ps.off + i) p hp
    refine ⟨p1, ?_, h2, ?_⟩
    · rw [Mem.read_getElem_opt, if_pos hi]
      exact h1
    · rcases h3 with h3 | ⟨-, -, h3⟩
      · exact Or.inl h3
      · exact Or.inr h3
  · rw [if_neg hi] at hp
    cases hp

theorem MergeNewVersion_map_field {β : Type} (f : PackageInfo → β)
    (hf : ∀ (p : PackageInfo) (v r : String), f { p with NewVersion := v, NewRelease := r } = f p)
    (mem : List PackageInfo) (ps cands : Mem.Slice)
    (hps : ps.off + ps.len ≤ mem.length) (hc : cands.off + cands.len ≤ mem.length) :
    (Mem.read (PackageInfoList.MergeNewVersion mem ps cands) ps).map f =
      (Mem.read mem ps).map f := by
  apply List.ext_getElem?
  intro i
  rw [List.getElem?_map, List.getElem?_map]
  cases hp : (Mem.read mem ps)[i]? with
  | none =>
    rw [Mem.read_getElem_opt] at hp ⊢
    by_cases hi : i < ps.len
    · rw [if_pos hi] at hp
      rw [List.getElem?_eq_none_iff] at hp
      omega
    · rw [if_neg hi]
  | some p =>
    obtain ⟨p1, h1, h2, -⟩ := MergeNewVersion_cells mem ps cands hps hc i p hp
    rw [h1, Option.map_some', Option.map_some', h2, hf]

/-- C15 (amended): for a receiver `ps` and a candidate slice `as` in memory,
after `ps.MergeNewVersion(as)` memory has the same cells but for the window of
`ps`, which has the same length and the same `Name`, `Version`, `Release`,
`Repository`, `Changelog` and `NotFixedYet` entry by entry; an entry whose
`Name` matches no candidate is unchanged; and when `as` shares no cell with
`ps`, the candidates are unchanged and an entry whose `Name` matches a
candidate has the `NewVersion` and `NewRelease` of the last candidate in `as`
with that `Name`. -/
theorem MergeNewVersion_spec (mem : List PackageInfo) (ps cands : Mem.Slice)
    (hps : ps.off + ps.len ≤ mem.length) (hc : cands.off + cands.len ≤ mem.length) :
    (PackageInfoList.MergeNewVersion mem ps cands).length = mem.length ∧
    (∀ q, ¬ (ps.off ≤ q ∧ q < ps.off + ps.len) →
      (PackageInfoList.MergeNewVersion mem ps cands)[q]? = mem[q]?) ∧
    (Mem.read (PackageInfoList.MergeNewVersion mem ps cands) ps).length =
      (Mem.read mem ps).length ∧
    (Mem.read (PackageInfoList.MergeNewVersion mem ps cands) ps).map (fun p => p.Name) =
      (Mem.read mem ps).map (fun p => p.Name) ∧
    (∀ (i : Nat) (p : PackageInfo), (Mem.read mem ps)[i]? = some p →
      (∀ a ∈ Mem.read mem cands, a.Name ≠ p.Name) →
      (Mem.read (PackageInfoList.MergeNewVersion mem ps cands) ps)[i]? = some p) ∧
    ((ps.len = 0 ∨ cands.len = 0 ∨ ps.off + ps.len ≤ cands.off ∨
        cands.off + cands.len ≤ ps.off) →
      Mem.read (PackageInfoList.MergeNewVersion mem ps cands) cands = Mem.read mem cands ∧
      ∀ (i : Nat) (p : PackageInfo) (pre : PackageInfoList) (a : PackageInfo)
        (post : PackageInfoList), (Mem.read mem ps)[i]? = some p →
        Mem.read mem cands = pre ++ a :: post →
        a.Name = p.Name → (∀ b ∈ post, b.Name ≠ p.Name) →
        (Mem.read (PackageInfoList.MergeNewVersion mem ps cands) ps)[i]? =
          some { p with NewVersion := a.NewVersion, NewRelease := a.NewRelease }) ∧
    (Mem.read (PackageInfoList.MergeNewVersion mem ps cands) ps).map (fun p => p.Version) =
      (Mem.read mem ps).map (fun p => p.Version) ∧
    (Mem.read (PackageInfoList.MergeNewVersion mem ps cands) ps).map (fun p => p.Release) =
      (Mem.read mem ps).map (fun p => p.Release) ∧
    (Mem.read (PackageInfoList.MergeNewVersion mem ps cands) ps).map (fun p => p.Repository) =
      (Mem.read mem ps).map (fun p => p.Repository) ∧
    (Mem.read (PackageInfoList.MergeNewVersion mem ps cands) ps).map (fun p => p.Changelog) =
      (Mem.read mem ps).map (fun p => p.Changelog) ∧
    (Mem.read (PackageInfoList.MergeNewVersion mem ps cands) ps).map (fun p => p.NotFixedYet) =
      (Mem.read mem ps).map (fun p => p.NotFixedYet) := by
  have hout : ∀ q, ¬ (ps.off ≤ q ∧ q < ps.off + ps.len) →
      (PackageInfoList.MergeNewVersion mem ps cands)[q]? = mem[q]? :=
    fun q hq => mergeOuter_outside ps cands cands.len 0 mem hps q hq
  have hlen : (PackageInfoList.MergeNewVersion mem ps cands).length = mem.length :=
    mergeOuter_length ps cands cands.len 0 mem
  refine ⟨hlen, hout, ?_,
    MergeNewVersion_map_field (fun p => p.Name) (fun _ _ _ => rfl) mem ps cands hps hc, ?_, ?_,
    MergeNewVersion_map_field (fun p => p.Version) (fun _ _ _ => rfl) mem ps cands hps hc,
    MergeNewVersion_map_field (fun p => p.Release) (fun _ _ _ => rfl) mem ps cands hps hc,
    MergeNewVersion_map_field (fun p => p.Repository) (fun _ _ _ => rfl) mem ps cands hps hc,
    MergeNewVersion_map_field (fun p => p.Changelog) (fun _ _ _ => rfl) mem ps cands hps hc,
    MergeNewVersion_map_field (fun p => p.NotFixedYet) (fun _ _ _ => rfl) mem ps cands hps hc⟩
  · rw [Mem.length_read _ _ (by rw [hlen]; exact hps), Mem.length_read _ _ hps]
  · intro i p hp hnone
    obtain ⟨p1, h1, -, h3⟩ := MergeNewVersion_cells mem ps cands hps hc i p hp
    rcases h3 with h3 | ⟨a, ha, hn⟩
    · rw [h1, h3]
    · exact absurd hn (hnone a ha)
  · intro hd
    constructor
    · apply Mem.read_congr
      intro j hj
      apply hout
      omega
    · intro i p pre a post hp hcs ha hpost
      rw [MergeNewVersion_disjoint mem ps cands hps hc hd]
      exact (mergeCandidates_spec (Mem.read mem ps) (Mem.read mem cands)).2.2.2.1 i p pre a
        post hp hcs ha hpost

/-- Instance of the amended C15: the receiver is the first two cells, the
candidates are the last two and share no cell with it; the entry `A` takes the
new version of the last candidate named `A`. -/
theorem MergeNewVersion_spec_witness :
    (0 + 2 ≤ PackageInfoList.withCandidates.length ∧
      2 + 2 ≤ PackageInfoList.withCandidates.length) ∧ 0 + 2 ≤ 2 ∧
    (Mem.read (PackageInfoList.MergeNewVersion PackageInfoList.withCandidates ⟨0, 2, 2⟩
        ⟨2, 2, 2⟩) ⟨0, 2, 2⟩)[0]? =
      some { mkPackage "A" "1" with NewVersion := "3", NewRelease := "" } :=
  ⟨by decide, by decide,
    ((MergeNewVersion_spec PackageInfoList.withCandidates ⟨0, 2, 2⟩ ⟨2, 2, 2⟩
      (by decide) (by decide)).2.2.2.2.2.1 (Or.inr (Or.inr (Or.inl (by decide))))).2 0
      (mkPackage "A" "1") [{ mkPackage "A" "2" with NewVersion := "2" }]
      { mkPackage "A" "3" with NewVersion := "3" } [] (by decide) (by decide) (by decide)
      (by simp)⟩

/-- C15 as stated fails when the candidate slice is the receiver itself: with
the packages `A` (new version 1) and `A` (new version 2) in one array,
`ps.MergeNewVersion(ps)` leaves new version 1 in both entries, while the last
candidate named `A` in `as` as passed has new version 2. -/
theorem MergeNewVersion_self_keeps_first :
    (Mem.read PackageInfoList.twoCandidates ⟨0, 2, 2⟩).map (fun p => (p.Name, p.NewVersion)) =
      [("A", "1"), ("A", "2")] ∧
    (Mem.read (PackageInfoList.MergeNewVersion PackageInfoList.twoCandidates ⟨0, 2, 2⟩
        ⟨0, 2, 2⟩) ⟨0, 2, 2⟩).map (fun p => (p.Name, p.NewVersion)) =
      [("A", "1"), ("A", "1")] ∧
    ¬ (∀ (i : Nat) (p : PackageInfo) (pre : PackageInfoList) (a : PackageInfo)
        (post : PackageInfoList),
        (Mem.read PackageInfoList.twoCandidates ⟨0, 2, 2⟩)[i]? = some p →
        Mem.read PackageInfoList.twoCandidates ⟨0, 2, 2⟩ = pre ++ a :: post →
        a.Name = p.Name → (∀ b ∈ post, b.Name ≠ p.Name) →
        (Mem.read (PackageInfoList.MergeNewVersion PackageInfoList.twoCandidates ⟨0, 2, 2⟩
          ⟨0, 2, 2⟩) ⟨0, 2, 2⟩)[i]? =
          some { p with NewVersion := a.NewVersion, NewRelease := a.NewRelease }) := by
  refine ⟨by decide, by decide, ?_⟩
  intro h
  have h0 := h 0 { mkPackage "A" "1" with NewVersion := "1" }
    [{ mkPackage "A" "1" with NewVersion := "1" }] { mkPackage "A" "1" with NewVersion := "2" } []
    (by decide) (by decide) (by decide) (by simp)
  revert h0
  decide

end Models
